import Mathlib

/-! hTXT-Viewer: escape-sequence decoding and interpretation

A shallow embedding of `js/hTXT.js` (terminal captures), `js/hTXT_Printer.js`
(printer streams) and `js/hTXT_Einstein.js` (word-processor files).

Conventions of the embedding

* A JavaScript string is the list of its UTF-16 code units.  Every glyph of the
  code-page tables lies in the Basic Multilingual Plane, so one `Char` is one
  code unit and `List.length` is the JavaScript `length`.
* The input buffer is a sequence of bytes, `Fin 256`.
* JavaScript integers are `Int`.  Every number that reaches the cursor is an
  integer (a parsed decimal argument or a sum/difference of integers).
* A thrown JavaScript exception is `Except.error`; a loop that would need more
  iterations than the fuel it is given yields `none`.
* The cooperative yielding (`pauseIfNeeded`) and the progress callback only
  affect timing, never a result, and are left out of the data path; the
  decision `pauseIfNeeded` takes is modelled on its own.
-/

namespace HTXTViewer

/-- A JavaScript string, as the list of its UTF-16 code units. -/
abbrev JsString := List Char

/-- One byte of the input buffer. -/
abbrev Byte := Fin 256

/-- The exceptions the embedded code can raise. -/
inductive JsError where
  /-- Reading a property of `undefined`. -/
  | typeError : JsError
  deriving DecidableEq

/-! ## Regular expressions (backtracking semantics of ECMAScript) -/

/-- The fragment of ECMAScript patterns used by the three tokenizers.
Quantifiers are greedy. -/
inductive Re where
  /-- The empty pattern. -/
  | eps : Re
  /-- One character satisfying a predicate (a literal, a class or `.`). -/
  | chr (p : Char → Bool) : Re
  /-- Concatenation. -/
  | seq (a b : Re) : Re
  /-- Alternation `a|b`, the left alternative having priority. -/
  | alt (a b : Re) : Re
  /-- Greedy `a*`. -/
  | star (a : Re) : Re
  /-- Greedy `a{min,max}`. -/
  | rep (a : Re) (min max : Nat) : Re

/-- Greedy `*` over a matcher `m`: first one more iteration (an iteration that
consumes nothing is rejected, as in ECMAScript), then stopping. -/
def starRun (m : List Char → List Nat) : Nat → List Char → List Nat
  | 0, _ => [0]
  | fuel + 1, s =>
    ((m s).filter (fun n => decide (1 ≤ n))).flatMap
        (fun n => (starRun m fuel (s.drop n)).map (fun k => n + k))
      ++ [0]

/-- Greedy `{min,max}` over a matcher `m`. -/
def repRun (m : List Char → List Nat) : Nat → Nat → List Char → List Nat
  | _, 0, _ => [0]
  | min, max + 1, s =>
    ((m s).filter (fun n => decide (1 ≤ min ∨ 1 ≤ n))).flatMap
        (fun n => (repRun m (min - 1) max (s.drop n)).map (fun k => n + k))
      ++ (if min = 0 then [0] else [])

/-- All ways of matching `re` at the start of `s`, as numbers of consumed
characters, in the order in which a backtracking matcher tries them.  The head
of the list is the match ECMAScript reports. -/
def Re.run : Re → List Char → List Nat
  | .eps, _ => [0]
  | .chr _, [] => []
  | .chr p, c :: _ => if p c then [1] else []
  | .seq a b, s => (Re.run a s).flatMap (fun n => (Re.run b (s.drop n)).map (fun k => n + k))
  | .alt a b, s => Re.run a s ++ Re.run b s
  | .star a, s => starRun (Re.run a) s.length s
  | .rep a min max, s => repRun (Re.run a) min max s

/-- The match of `re` anchored at the start of `s`, as a length. -/
def Re.matchAt (re : Re) (s : List Char) : Option Nat := (re.run s).head?

/-- Scan for the first position at or after the start of `s` where `re`
matches; `i` is the index of the start of `s` in the whole string. -/
def execFrom (re : Re) : List Char → Nat → Option (Nat × JsString)
  | [], i => (re.matchAt []).map (fun n => (i, ([] : List Char).take n))
  | c :: t, i =>
    match re.matchAt (c :: t) with
    | some n => some (i, (c :: t).take n)
    | none => execFrom re t (i + 1)

/-- The method `RegExp.prototype.exec` of a global (`g`) pattern: the first
match starting at or after `lastIndex`, as `(match.index, match[0])`. -/
def exec (re : Re) (content : JsString) (lastIndex : Nat) : Option (Nat × JsString) :=
  if content.length < lastIndex then none else execFrom re (content.drop lastIndex) lastIndex

/-- The loop `while (match = PATTERN.exec(content)) locations[match.index] = match[0]`.
The state of the pattern is its `lastIndex`, which `exec` sets to the end of
the match it returns.  An assignment to the object `locations` is a new head of
the association list. -/
def execLoop (re : Re) (content : JsString) :
    Nat → Nat → List (Nat × JsString) → Option (List (Nat × JsString))
  | 0, _, _ => none
  | fuel + 1, lastIndex, locations =>
    match exec re content lastIndex with
    | none => some locations
    | some (index, m) => execLoop re content fuel (index + m.length) ((index, m) :: locations)

/-- The function `String.fromCharCode` on one code: the code unit with that
number (exact for every code below 0xD800, in particular for bytes). -/
def fromCharCode (code : Nat) : Char := Char.ofNat code

/-- The method `String.prototype.substring`. -/
def substring (s : JsString) (start stop : Int) : JsString :=
  let a := (max 0 (min start s.length)).toNat
  let b := (max 0 (min stop s.length)).toNat
  (s.drop (min a b)).take (max a b - min a b)

/-- The method `String.prototype.split` with a one-character separator. -/
def split (sep : Char) : JsString → List JsString
  | [] => [[]]
  | c :: t =>
    if c = sep then [] :: split sep t
    else
      match split sep t with
      | [] => [[c]]
      | f :: fs => (c :: f) :: fs

/-- White space and line terminators skipped by `parseInt`. -/
def isJsWhiteSpace (c : Char) : Bool :=
  c.toNat ∈ [0x09, 0x0A, 0x0B, 0x0C, 0x0D, 0x20, 0xA0, 0x1680, 0x2000, 0x2001, 0x2002, 0x2003,
    0x2004, 0x2005, 0x2006, 0x2007, 0x2008, 0x2009, 0x200A, 0x2028, 0x2029, 0x202F, 0x205F,
    0x3000, 0xFEFF]

/-- The value of a digit in the given radix. -/
def digitValue (radix : Nat) (c : Char) : Option Nat :=
  let v :=
    if 48 ≤ c.toNat ∧ c.toNat ≤ 57 then c.toNat - 48
    else if 97 ≤ c.toNat ∧ c.toNat ≤ 122 then c.toNat - 97 + 10
    else if 65 ≤ c.toNat ∧ c.toNat ≤ 90 then c.toNat - 65 + 10
    else radix
  if v < radix then some v else none

/-- The longest prefix of digits of `s`, as digit values. -/
def leadingDigits (radix : Nat) : JsString → List Nat
  | [] => []
  | c :: t =>
    match digitValue radix c with
    | some v => v :: leadingDigits radix t
    | none => []

/-- The optional sign read by `parseInt`, and the text after it. -/
def parseSign : JsString → Int × JsString
  | '-' :: t => (-1, t)
  | '+' :: t => (1, t)
  | s => (1, s)

/-- The radix `parseInt` chooses without a radix argument, 16 after `0x` or
`0X` and 10 otherwise, and the text the digits are read from. -/
def parseRadix : JsString → Nat × JsString
  | '0' :: 'x' :: t => (16, t)
  | '0' :: 'X' :: t => (16, t)
  | s => (10, s)

/-- The function `parseInt(string)` without a radix argument; `none` is `NaN`.
The result is the mathematical integer, which is the JavaScript number as long
as its magnitude is below `2^53` (in particular for up to 15 digits). -/
def parseInt (s : JsString) : Option Int :=
  let signed := parseSign (s.dropWhile isJsWhiteSpace)
  let based := parseRadix signed.2
  match leadingDigits based.1 based.2 with
  | [] => none
  | ds => some (signed.1 * (ds.foldl (fun acc d => acc * based.1 + d) 0 : Nat))

/-! ## `js/hTXT.js`: terminal captures -/

namespace Ansi

/-- The constant `AnsiFunctions.CURSOR_UP`. -/
def CURSOR_UP : Char := 'A'
/-- The constant `AnsiFunctions.CURSOR_FORWARD`. -/
def CURSOR_FORWARD : Char := 'C'
/-- The constant `AnsiFunctions.CURSOR_BACK`. -/
def CURSOR_BACK : Char := 'D'
/-- The constant `AnsiFunctions.ERASE_IN_DISPLAY`. -/
def ERASE_IN_DISPLAY : Char := 'J'
/-- The constant `AnsiFunctions.SGR`. -/
def SGR : Char := 'm'
/-- The constant `AnsiFunctions.SAVE_CUR_POS`. -/
def SAVE_CUR_POS : Char := 's'
/-- The constant `AnsiFunctions.RESTORE_CUR_POS`. -/
def RESTORE_CUR_POS : Char := 'u'
/-- The constant `AnsiFunctions.CURSOR_POSITION`. -/
def CURSOR_POSITION : Char := 'H'

/-- The constant `AnsiColors.BLACK`. -/
def BLACK : Int := 0
/-- The constant `AnsiColors.RED`. -/
def RED : Int := 1
/-- The constant `AnsiColors.GREEN`. -/
def GREEN : Int := 2
/-- The constant `AnsiColors.WHITE`. -/
def WHITE : Int := 7

/-- The constant `AnsiSgrCommands.SET_DEFAULT`. -/
def SET_DEFAULT : Int := 0
/-- The constant `AnsiSgrCommands.SET_BOLD`. -/
def SET_BOLD : Int := 1
/-- The constant `AnsiSgrCommands.SET_FGCOLOR`. -/
def SET_FGCOLOR : Int := 30
/-- The constant `AnsiSgrCommands.SET_BGCOLOR`. -/
def SET_BGCOLOR : Int := 40

/-- The constant `AnsiEdCommands.ENTIRE_SCREEN`. -/
def ENTIRE_SCREEN : Int := 2

/-- The class `AnsiSgrCommand`. -/
structure AnsiSgrCommand where
  /-- One of the `AnsiSgrCommands`. -/
  type : Int
  /-- The colour index, or 0. -/
  value : Int
  deriving DecidableEq

/-- The static `AnsiEscape.NUM_COLORS`, the number of keys of `COLORS`. -/
def NUM_COLORS : Int := 8
/-- The static `AnsiEscape.FGCOLOR_BASE`. -/
def FGCOLOR_BASE : Int := 30
/-- The static `AnsiEscape.BGCOLOR_BASE`. -/
def BGCOLOR_BASE : Int := 40

/-- The static table `AnsiEscape.COLORS`. -/
def COLORS : List (Int × String) :=
  [(0, "#0C0C0C"), (1, "#AA0000"), (2, "#00AA00"), (3, "#AA5500"),
   (4, "#0037DA"), (5, "#AA00AA"), (6, "#00AAAA"), (7, "#AAAAAA")]

/-- The static table `AnsiEscape.BOLD_COLORS`. -/
def BOLD_COLORS : List (Int × String) :=
  [(0, "#CCCCCC"), (1, "#FF5555"), (2, "#55FF55"), (3, "#FFFF55"),
   (4, "#5555FF"), (5, "#FF55FF"), (6, "#55FFFF"), (7, "#FFFFFF")]

/-- The static method `AnsiEscape.color`; `none` is `undefined`. -/
def color (c : Int) (bold : Bool) : Option String :=
  if bold then BOLD_COLORS.lookup c else COLORS.lookup c

/-- An instance of the class `AnsiEscape`, with the properties its constructor
assigns.  The property `_raw_arguments`, which the getter `args` reads, is
assigned nowhere in the file (the constructor assigns `raw_arguments`), so it
is not a field: reading it yields `undefined`. -/
structure AnsiEscape where
  /-- The matched span. -/
  rawString : JsString
  /-- The integer arguments that parsed. -/
  _arguments : List Int
  /-- The argument text. -/
  raw_arguments : JsString
  /-- The last character of the span; `none` is `undefined`. -/
  _function : Option Char
  deriving DecidableEq

/-- The constructor of `AnsiEscape`, that is the method `_parseAnsi`. -/
def AnsiEscape.new (rawString : JsString) : AnsiEscape :=
  let raw_arguments := substring rawString 2 ((rawString.length : Int) - 1)
  { rawString := rawString
    _arguments := if raw_arguments ≠ [] then (split ';' raw_arguments).filterMap parseInt else []
    raw_arguments := raw_arguments
    _function := rawString.getLast? }

/-- The getter `func`. -/
def AnsiEscape.func (e : AnsiEscape) : Option Char := e._function

/-- What the getter `args` can return. -/
inductive ArgsValue where
  /-- A number. -/
  | num (n : Int) : ArgsValue
  /-- The value `undefined`. -/
  | undefined : ArgsValue
  /-- A list of graphics-rendition sub-commands. -/
  | sgr (cmds : List AnsiSgrCommand) : ArgsValue
  /-- An array of numbers. -/
  | arr (xs : List Int) : ArgsValue
  deriving DecidableEq

/-- The classification of one graphics-rendition argument; `none` when the
argument is only logged as unsupported and nothing is pushed. -/
def sgrCommand (arg : Int) : Option AnsiSgrCommand :=
  if FGCOLOR_BASE ≤ arg ∧ arg < FGCOLOR_BASE + NUM_COLORS then
    some ⟨SET_FGCOLOR, arg - FGCOLOR_BASE⟩
  else if BGCOLOR_BASE ≤ arg ∧ arg < BGCOLOR_BASE + NUM_COLORS then
    some ⟨SET_BGCOLOR, arg - BGCOLOR_BASE⟩
  else if arg = SET_DEFAULT then some ⟨SET_DEFAULT, 0⟩
  else if arg = SET_BOLD then some ⟨SET_BOLD, 0⟩
  else none

/-- The getter `args`.  In the branch of `CURSOR_POSITION` with other than two
arguments, the first thing evaluated is `this._raw_arguments.length` with
`this._raw_arguments` undefined, which throws a `TypeError`; the statements
after it never run. -/
def AnsiEscape.args (e : AnsiEscape) : Except JsError ArgsValue :=
  if e._function ∈ [some CURSOR_FORWARD, some CURSOR_BACK, some CURSOR_UP] then
    match e._arguments with
    | a :: _ => .ok (.num a)
    | [] => .ok (.num 1)
  else if e._function = some SGR then
    .ok (.sgr (e._arguments.filterMap sgrCommand))
  else if e._function = some ERASE_IN_DISPLAY then
    -- `(this._arguments) ? this._arguments[0] : 0`: an array is always truthy
    match e._arguments with
    | a :: _ => .ok (.num a)
    | [] => .ok .undefined
  else if e._function = some CURSOR_POSITION then
    if e._arguments.length = 2 then .ok (.arr e._arguments)
    else .error .typeError
  else
    .ok .undefined

/-- The first character class of `ANSI_ESCAPE_PATTERN`: U+001B, U+009B or the
glyph of byte 0x1B. -/
def isIntroducer (c : Char) : Bool :=
  decide (c.toNat = 0x1B ∨ c.toNat = 0x9B ∨ c = '←')

/-- The class of `ANSI_ESCAPE_PATTERN` after the introducer. -/
def isIntermediate (c : Char) : Bool :=
  decide (c = '[' ∨ c = '(' ∨ c = ')' ∨ c = '#' ∨ c = ';' ∨ c = '?')

/-- The class `[0-9]`. -/
def isDigit (c : Char) : Bool := decide ('0' ≤ c ∧ c ≤ '9')

/-- The last class of `ANSI_ESCAPE_PATTERN`, the function character. -/
def isFinal (c : Char) : Bool :=
  decide (('0' ≤ c ∧ c ≤ '9') ∨ ('A' ≤ c ∧ c ≤ 'O') ∨ c = 'R' ∨ c = 'Z' ∨ c = 'c' ∨
    ('f' ≤ c ∧ c ≤ 'n') ∨ c = 'q' ∨ c = 'r' ∨ c = 'y' ∨ c = 's' ∨ c = 'u' ∨ c = '=' ∨
    c = '>' ∨ c = '<')

/-- The pattern `ANSI_ESCAPE_PATTERN`: introducer, intermediates `*`,
optionally `[0-9]{1,4}(;[0-9]{0,4})*`, function character. -/
def ANSI_ESCAPE_PATTERN : Re :=
  .seq (.chr isIntroducer)
    (.seq (.star (.chr isIntermediate))
      (.seq
        (.rep
          (.seq (.rep (.chr isDigit) 1 4)
            (.star (.seq (.chr (fun c => decide (c = ';'))) (.rep (.chr isDigit) 0 4))))
          0 1)
        (.chr isFinal)))

/-- The table `translationMap.art` of `hTXT.js`. -/
def art : List (Nat × JsString) :=
  [(0x01, ['☺']), (0x02, ['☻']), (0x03, ['♥']), (0x04, ['♦']), (0x05, ['♣']), (0x06, ['♠']),
   (0x07, ['•']), (0x08, ['◘']), (0x09, ['○']), (0x0B, ['♂']), (0x0C, ['♀']), (0x0E, ['♫']),
   (0x0F, ['☼']), (0x10, ['►']), (0x11, ['◄']), (0x12, ['↕']), (0x13, ['‼']), (0x14, ['¶']),
   (0x15, ['§']), (0x16, ['▬']), (0x17, ['↨']), (0x18, ['↑']), (0x19, ['↓']), (0x1A, ['→']),
   (0x1B, ['←']), (0x1C, ['∟']), (0x1D, ['↔']), (0x1E, ['▲']), (0x1F, ['▼']), (0x9B, ['¢']),
   (0x9C, ['£']), (0x9D, ['¥']), (0x9E, ['₧']), (0x9F, ['ƒ']), (0xA0, ['á']), (0xA1, ['í']),
   (0xA2, ['ó']), (0xA3, ['ú']), (0xA4, ['ñ']), (0xA5, ['Ñ']), (0xA6, ['ª']), (0xA7, ['º']),
   (0xA8, ['¿']), (0xA9, ['⌐']), (0xAA, ['¬']), (0xAB, ['½']), (0xAC, ['¼']), (0xAD, ['¡']),
   (0xAE, ['«']), (0xAF, ['»']), (0xB0, ['░']), (0xB1, ['▒']), (0xB2, ['▓']), (0xB3, ['│']),
   (0xB4, ['┤']), (0xB5, ['╡']), (0xB6, ['╢']), (0xB7, ['╖']), (0xB8, ['╕']), (0xB9, ['╣']),
   (0xBA, ['║']), (0xBB, ['╗']), (0xBC, ['╝']), (0xBD, ['╜']), (0xBE, ['╛']), (0xBF, ['┐']),
   (0xC0, ['└']), (0xC1, ['┴']), (0xC2, ['┬']), (0xC3, ['├']), (0xC4, ['─']), (0xC5, ['┼']),
   (0xC6, ['╞']), (0xC7, ['╟']), (0xC8, ['╚']), (0xC9, ['╔']), (0xCA, ['╩']), (0xCB, ['╦']),
   (0xCC, ['╠']), (0xCD, ['═']), (0xCE, ['╬']), (0xCF, ['╧']), (0xD0, ['╨']), (0xD1, ['╤']),
   (0xD2, ['╥']), (0xD3, ['╙']), (0xD4, ['╘']), (0xD5, ['╒']), (0xD6, ['╓']), (0xD7, ['╫']),
   (0xD8, ['╪']), (0xD9, ['┘']), (0xDA, ['┌']), (0xDB, ['█']), (0xDC, ['▄']), (0xDD, ['▌']),
   (0xDE, ['▐']), (0xDF, ['▀']), (0xE0, ['α']), (0xE1, ['ß']), (0xE2, ['Γ']), (0xE3, ['π']),
   (0xE4, ['Σ']), (0xE5, ['σ']), (0xE6, ['µ']), (0xE7, ['τ']), (0xE8, ['Φ']), (0xE9, ['Θ']),
   (0xEA, ['Ω']), (0xEB, ['δ']), (0xEC, ['∞']), (0xED, ['φ']), (0xEE, ['ε']), (0xEF, ['∩']),
   (0xF0, ['≡']), (0xF1, ['±']), (0xF2, ['≥']), (0xF3, ['≤']), (0xF4, ['⌠']), (0xF5, ['⌡']),
   (0xF6, ['÷']), (0xF7, ['≈']), (0xF8, ['°']), (0xF9, ['∙']), (0xFA, ['·']), (0xFB, ['√']),
   (0xFC, ['ⁿ']), (0xFD, ['²']), (0xFE, ['■']), (0xFF, [Char.ofNat 160])]

/-- The table `translationMap.hebrew` of `hTXT.js`. -/
def hebrew : List (Nat × JsString) :=
  [(0x80, ['א']), (0x81, ['ב']), (0x82, ['ג']), (0x83, ['ד']), (0x84, ['ה']), (0x85, ['ו']),
   (0x86, ['ז']), (0x87, ['ח']), (0x88, ['ט']), (0x89, ['י']), (0x8A, ['ך']), (0x8B, ['כ']),
   (0x8C, ['ל']), (0x8D, ['ם']), (0x8E, ['מ']), (0x8F, ['ן']), (0x90, ['נ']), (0x91, ['ס']),
   (0x92, ['ע']), (0x93, ['ף']), (0x94, ['פ']), (0x95, ['ץ']), (0x96, ['צ']), (0x97, ['ק']),
   (0x98, ['ר']), (0x99, ['ש']), (0x9A, ['ת'])]


/-- The method `CodePageTranslator.translateChar`. -/
def translateChar (asciiValue : Nat) : JsString :=
  match art.lookup asciiValue with
  | some g => g
  | none =>
    match hebrew.lookup asciiValue with
    | some g => g
    | none => [fromCharCode asciiValue]

/-- An element of the array `translate` returns: a one-character string or an
`AnsiEscape`. -/
inductive Token where
  /-- The character `content[i]`. -/
  | lit (c : Char) : Token
  /-- An escape sequence. -/
  | esc (e : AnsiEscape) : Token
  deriving DecidableEq

/-- The first loop of `translate`: the translated content. -/
def translateContent (buffer : List Byte) : JsString :=
  buffer.flatMap (fun x => translateChar x.val)

/-- The last loop of `translate`: walk the content, emitting the escape found
at the current index or else the current character. -/
def collect (content : JsString) (ansiLocations : List (Nat × JsString)) :
    Nat → Nat → List Token → Option (List Token)
  | 0, _, _ => none
  | fuel + 1, i, res =>
    if h : i < content.length then
      match ansiLocations.lookup i with
      | some m => collect content ansiLocations fuel (i + m.length) (res ++ [.esc (.new m)])
      | none => collect content ansiLocations fuel (i + 1) (res ++ [.lit content[i]])
    else some res

/-- The method `CodePageTranslator.translate`.  Both loops advance by at least
one index per iteration whenever they terminate at all, so `length + 1`
iterations are granted; `none` would mean that this was not enough. -/
def translate (buffer : List Byte) : Option (List Token) :=
  let content := translateContent buffer
  match execLoop ANSI_ESCAPE_PATTERN content (content.length + 1) 0 [] with
  | none => none
  | some ansiLocations => collect content ansiLocations (content.length + 1) 0 []

/-- A drawing call on the 2-D context of a canvas (the external surface). -/
inductive DrawOp where
  /-- The call `fillRect(x, y, w, h)` under the given `fillStyle`. -/
  | fillRect (fillStyle : Option String) (x y w h : Int) : DrawOp
  /-- The call `fillText(text, x, y)` under the given `fillStyle`. -/
  | fillText (fillStyle : Option String) (text : Char) (x y : Int) : DrawOp
  deriving DecidableEq

/-- One canvas of the array `tiles`: a row of the surface. -/
structure Canvas where
  /-- The property `width`. -/
  width : Int
  /-- The property `height`. -/
  height : Int
  /-- The drawing calls received, oldest first. -/
  ops : List DrawOp
  deriving DecidableEq

/-- An instance of the class `Terminal`. -/
structure Terminal where
  /-- The property `fontWidth`. -/
  fontWidth : Int
  /-- The property `fontHeight`. -/
  fontHeight : Int
  /-- The property `terminalWidth`. -/
  terminalWidth : Int
  /-- The property `skipNextNewline`. -/
  skipNextNewline : Bool
  /-- The property `saved_row`; `none` is `null`. -/
  saved_row : Option Int
  /-- The property `saved_col`; `none` is `null`. -/
  saved_col : Option Int
  /-- The property `row`. -/
  row : Int
  /-- The property `col`. -/
  col : Int
  /-- The property `tiles`. -/
  tiles : List Canvas
  /-- The property `foreground`. -/
  foreground : Int
  /-- The property `background`. -/
  background : Int
  /-- The property `bold`. -/
  bold : Bool
  deriving DecidableEq

/-- The method `Terminal.clearScreen`. -/
def Terminal.clearScreen (t : Terminal) : Terminal :=
  { t with row := 0, col := 0, tiles := [] }

/-- The method `Terminal.setFgColor`. -/
def Terminal.setFgColor (t : Terminal) (color : Int) : Terminal :=
  { t with foreground := color }

/-- The method `Terminal.setBgColor`. -/
def Terminal.setBgColor (t : Terminal) (color : Int) : Terminal :=
  { t with background := color }

/-- The method `Terminal.setDefaultColors`. -/
def Terminal.setDefaultColors (t : Terminal) : Terminal :=
  { (t.setFgColor WHITE).setBgColor BLACK with bold := false }

/-- The method `Terminal.setBold`. -/
def Terminal.setBold (t : Terminal) (bold : Bool) : Terminal :=
  { t with bold := bold }

/-- The constructor of `Terminal`. -/
def Terminal.new (terminalWidth : Int) : Terminal :=
  Terminal.setDefaultColors (Terminal.clearScreen
    { fontWidth := 8, fontHeight := 15, terminalWidth := terminalWidth,
      skipNextNewline := false, saved_row := none, saved_col := none,
      row := 0, col := 0, tiles := [], foreground := 0, background := 0, bold := false })

/-- The loop at the head of `write`: push new canvases while
`tiles.length <= row`. -/
def Terminal.growTiles (t : Terminal) : List Canvas :=
  t.tiles ++ List.replicate (t.row + 1 - (t.tiles.length : Int)).toNat
    { width := t.fontWidth * t.terminalWidth, height := t.fontHeight, ops := [] }

/-- The element `tiles[row]`; `none` is `undefined`. -/
def tileAt (tiles : List Canvas) (row : Int) : Option Canvas :=
  if row < 0 then none else tiles[row.toNat]?

/-- The method `Terminal.write`.  With a negative `row` the element
`tiles[row]` is undefined and `canvas.getContext` throws. -/
def Terminal.write (t : Terminal) (character : Char) : Except JsError Terminal :=
  let tiles := t.growTiles
  match tileAt tiles t.row with
  | none => .error .typeError
  | some canvas =>
    if character = '\n' then
      if !t.skipNextNewline then .ok { t with tiles := tiles, row := t.row + 1, col := 0 }
      else .ok { t with tiles := tiles }
    else if character = '\r' ∨ character = '♣' then
      .ok { t with tiles := tiles }
    else
      let drawn : Canvas :=
        { canvas with
          ops := canvas.ops ++
            [.fillRect (color t.background false) (t.col * t.fontWidth) 0 t.fontWidth t.fontHeight,
             .fillText (color t.foreground t.bold) character (t.col * t.fontWidth) 0] }
      let t1 : Terminal :=
        { t with tiles := tiles.set t.row.toNat drawn, col := t.col + 1, skipNextNewline := false }
      if t1.col = t1.terminalWidth then
        .ok { t1 with row := t1.row + 1, col := 0, skipNextNewline := true }
      else .ok t1

/-- The method `Terminal.moveRight`. -/
def Terminal.moveRight (t : Terminal) (n : Int) : Terminal :=
  { t with col := min (t.col + n) t.terminalWidth }

/-- The method `Terminal.moveLeft`. -/
def Terminal.moveLeft (t : Terminal) (n : Int) : Terminal :=
  { t with col := max (t.col - n) 0 }

/-- The method `Terminal.moveUp`. -/
def Terminal.moveUp (t : Terminal) (n : Int) : Terminal :=
  { t with row := max (t.row - n) 0 }

/-- The method `Terminal.saveCurrentPosition`. -/
def Terminal.saveCurrentPosition (t : Terminal) : Terminal :=
  { t with saved_row := some t.row, saved_col := some t.col }

/-- The method `Terminal.restoreCurrentPosition`; the other branch only logs. -/
def Terminal.restoreCurrentPosition (t : Terminal) : Terminal :=
  match t.saved_row, t.saved_col with
  | some r, some c => { t with row := r, col := c, saved_row := none, saved_col := none }
  | _, _ => t

/-- The method `Terminal.setCurrentPosition`. -/
def Terminal.setCurrentPosition (t : Terminal) (row col : Int) : Terminal :=
  { t with row := row, col := col }

/-- The loop over the sub-commands of a graphics-rendition escape in
`AnsiParser.parse`. -/
def applySgr (t : Terminal) (command : AnsiSgrCommand) : Terminal :=
  if command.type = SET_FGCOLOR then t.setFgColor command.value
  else if command.type = SET_BGCOLOR then t.setBgColor command.value
  else if command.type = SET_DEFAULT then t.setDefaultColors
  else if command.type = SET_BOLD then t.setBold true
  else t

/-- The body of the loop of `AnsiParser.parse` for one element `c`.  Each
branch uses the value the getter `args` returns for that function; a value of
another shape does not occur there (see `AnsiEscape.args`) and leaves the
terminal as it is. -/
def parseStep (terminal : Terminal) (c : Token) : Except JsError Terminal :=
  match c with
  | .lit ch => terminal.write ch
  | .esc e =>
    if e.func = some CURSOR_FORWARD then
      match e.args with
      | .error err => .error err
      | .ok (.num n) => .ok (terminal.moveRight n)
      | .ok _ => .ok terminal
    else if e.func = some CURSOR_BACK then
      match e.args with
      | .error err => .error err
      | .ok (.num n) => .ok (terminal.moveLeft n)
      | .ok _ => .ok terminal
    else if e.func = some CURSOR_UP then
      match e.args with
      | .error err => .error err
      | .ok (.num n) => .ok (terminal.moveUp n)
      | .ok _ => .ok terminal
    else if e.func = some ERASE_IN_DISPLAY then
      match e.args with
      | .error err => .error err
      | .ok v => if v = .num ENTIRE_SCREEN then .ok terminal.clearScreen else .ok terminal
    else if e.func = some SAVE_CUR_POS then .ok terminal.saveCurrentPosition
    else if e.func = some RESTORE_CUR_POS then .ok terminal.restoreCurrentPosition
    else if e.func = some CURSOR_POSITION then
      match e.args with
      | .error err => .error err
      | .ok (.arr [r, k]) => .ok (terminal.setCurrentPosition (r - 1) (k - 1))
      | .ok _ => .ok terminal
    else if e.func = some SGR then
      match e.args with
      | .error err => .error err
      | .ok (.sgr cmds) => .ok (cmds.foldl applySgr terminal)
      | .ok _ => .ok terminal
    else .ok terminal

/-- The method `AnsiParser.parse`: the loop over `content`, which an exception
leaves at once. -/
def parse : List Token → Terminal → Except JsError Terminal
  | [], terminal => .ok terminal
  | c :: rest, terminal =>
    match parseStep terminal c with
    | .error err => .error err
    | .ok terminal1 => parse rest terminal1

end Ansi

/-! ## `js/hTXT_Printer.js`: printer streams -/

namespace Printer

/-- The constant `AsciiTable.ESC`. -/
def ESC : Char := Char.ofNat 0x1B

/-- The constant `PrinterFunctions.UNDERLINE`. -/
def UNDERLINE : Char := Char.ofNat 0x2D
/-- The constant `PrinterFunctions.CODE_AREA_EXPAND`. -/
def CODE_AREA_EXPAND : Char := Char.ofNat 0x36
/-- The constant `PrinterFunctions.INIT_PRINTER`. -/
def INIT_PRINTER : Char := Char.ofNat 0x40
/-- The constant `PrinterFunctions.LINE_SPACING_72`. -/
def LINE_SPACING_72 : Char := Char.ofNat 0x41
/-- The constant `PrinterFunctions.SET_PAGE_LENGTH`. -/
def SET_PAGE_LENGTH : Char := Char.ofNat 0x43
/-- The constant `PrinterFunctions.BOLD_ON`. -/
def BOLD_ON : Char := Char.ofNat 0x47
/-- The constant `PrinterFunctions.BOLD_OFF`. -/
def BOLD_OFF : Char := Char.ofNat 0x48
/-- The constant `PrinterFunctions.SUBSUPERSCRIPT`. -/
def SUBSUPERSCRIPT : Char := Char.ofNat 0x53
/-- The constant `PrinterFunctions.SUBSUPERSCRIPT_OFF`. -/
def SUBSUPERSCRIPT_OFF : Char := Char.ofNat 0x54
/-- The constant `PrinterFunctions.DOUBLE_WIDE_MODE`. -/
def DOUBLE_WIDE_MODE : Char := Char.ofNat 0x57
/-- The constant `PrinterFunctions.LEFT_MARGIN`. -/
def LEFT_MARGIN : Char := Char.ofNat 0x6C

/-- The constant `AnsiColors.BLACK`. -/
def BLACK : Int := 0
/-- The constant `AnsiColors.WHITE`. -/
def WHITE : Int := 7

/-- The static table `PrinterEscape.COLORS`. -/
def COLORS : List (Int × String) :=
  [(0, "#0C0C0C"), (1, "#AA0000"), (2, "#00AA00"), (3, "#AA5500"),
   (4, "#0037DA"), (5, "#AA00AA"), (6, "#00AAAA"), (7, "#AAAAAA")]

/-- The static table `PrinterEscape.BOLD_COLORS`. -/
def BOLD_COLORS : List (Int × String) :=
  [(0, "#CCCCCC"), (1, "#FF5555"), (2, "#55FF55"), (3, "#FFFF55"),
   (4, "#5555FF"), (5, "#FF55FF"), (6, "#55FFFF"), (7, "#FFFFFF")]

/-- The static method `PrinterEscape.color`; `none` is `undefined`. -/
def color (c : Int) (bold : Bool) : Option String :=
  if bold then BOLD_COLORS.lookup c else COLORS.lookup c

/-- An instance of the class `PrinterEscape`. -/
structure PrinterEscape where
  /-- The matched span. -/
  rawString : JsString
  /-- The character codes of the argument text. -/
  _arguments : List Nat
  /-- The argument text, `rawString.substring(2, rawString.length)`. -/
  raw_arguments : JsString
  /-- The character `rawString[1]`; `none` is `undefined`. -/
  _function : Option Char
  deriving DecidableEq

/-- The constructor of `PrinterEscape`, that is the method `_parseEscape`. -/
def PrinterEscape.new (rawString : JsString) : PrinterEscape :=
  let raw_arguments := substring rawString 2 rawString.length
  { rawString := rawString
    _arguments := if raw_arguments ≠ [] then raw_arguments.map Char.toNat else []
    raw_arguments := raw_arguments
    _function := rawString[1]? }

/-- The getter `func`. -/
def PrinterEscape.func (e : PrinterEscape) : Option Char := e._function

/-- The getter `args`; `none` is `undefined` (the branch that only logs).  For
an empty argument list `this._arguments[0]` is `undefined`, which is not `== 0`. -/
def PrinterEscape.args (e : PrinterEscape) : Option Bool :=
  if e._function ∈ [some UNDERLINE, some SUBSUPERSCRIPT] then
    some (if e._arguments[0]? = some 0 then false else true)
  else none

/-- The pattern character `.`: anything but a line terminator. -/
def isDot (c : Char) : Bool :=
  decide (c.toNat ≠ 0x0A ∧ c.toNat ≠ 0x0D ∧ c.toNat ≠ 0x2028 ∧ c.toNat ≠ 0x2029)

/-- A literal character of a pattern. -/
def lit (k : Char) : Re := .chr (fun c => decide (c = k))

/-- The pattern `ESCAPE_PATTERN`: the escape character followed by one of the
listed functions, those that take an argument followed by `.`; the last
alternative is empty. -/
def ESCAPE_PATTERN : Re :=
  .seq (lit ESC)
    (.alt (lit INIT_PRINTER)
    (.alt (.seq (lit SET_PAGE_LENGTH) (.chr isDot))
    (.alt (lit BOLD_ON)
    (.alt (lit BOLD_OFF)
    (.alt (.seq (lit SUBSUPERSCRIPT) (.chr isDot))
    (.alt (lit SUBSUPERSCRIPT_OFF)
    (.alt (.seq (lit UNDERLINE) (.chr isDot))
    (.alt (lit CODE_AREA_EXPAND)
    (.alt (.seq (lit DOUBLE_WIDE_MODE) (.chr isDot))
    (.alt (.seq (lit LINE_SPACING_72) (.chr isDot))
    (.alt (.seq (lit LEFT_MARGIN) (.chr isDot))
      .eps)))))))))))

/-- The table `translationMap.art` of `hTXT_Printer.js`. -/
def art : List (Nat × JsString) :=
  [(0x01, []), (0x02, []), (0x03, []), (0x04, []), (0x05, []), (0x06, []),
   (0x07, []), (0x08, []), (0x09, []), (0x0B, []), (0x0C, []), (0x0E, []),
   (0x0F, []), (0x10, []), (0x11, []), (0x12, []), (0x13, []), (0x14, []),
   (0x15, []), (0x16, []), (0x17, []), (0x18, []), (0x19, []), (0x1A, []),
   (0x1B, []), (0x1C, []), (0x1D, []), (0x1E, []), (0x1F, []), (0x9B, ['¢']),
   (0x9C, ['£']), (0x9D, ['¥']), (0x9E, ['₧']), (0x9F, ['ƒ']), (0xA0, ['á']), (0xA1, ['í']),
   (0xA2, ['ó']), (0xA3, ['ú']), (0xA4, ['ñ']), (0xA5, ['Ñ']), (0xA6, ['ª']), (0xA7, ['º']),
   (0xA8, ['¿']), (0xA9, ['⌐']), (0xAA, ['¬']), (0xAB, ['½']), (0xAC, ['¼']), (0xAD, ['¡']),
   (0xAE, ['«']), (0xAF, ['»']), (0xB0, ['░']), (0xB1, ['▒']), (0xB2, ['▓']), (0xB3, ['│']),
   (0xB4, ['┤']), (0xB5, ['╡']), (0xB6, ['╢']), (0xB7, ['╖']), (0xB8, ['╕']), (0xB9, ['╣']),
   (0xBA, ['║']), (0xBB, ['╗']), (0xBC, ['╝']), (0xBD, ['╜']), (0xBE, ['╛']), (0xBF, ['┐']),
   (0xC0, ['└']), (0xC1, ['┴']), (0xC2, ['┬']), (0xC3, ['├']), (0xC4, ['─']), (0xC5, ['┼']),
   (0xC6, ['╞']), (0xC7, ['╟']), (0xC8, ['╚']), (0xC9, ['╔']), (0xCA, ['╩']), (0xCB, ['╦']),
   (0xCC, ['╠']), (0xCD, ['═']), (0xCE, ['╬']), (0xCF, ['╧']), (0xD0, ['╨']), (0xD1, ['╤']),
   (0xD2, ['╥']), (0xD3, ['╙']), (0xD4, ['╘']), (0xD5, ['╒']), (0xD6, ['╓']), (0xD7, ['╫']),
   (0xD8, ['╪']), (0xD9, ['┘']), (0xDA, ['┌']), (0xDB, ['█']), (0xDC, ['▄']), (0xDD, ['▌']),
   (0xDE, ['▐']), (0xDF, ['▀']), (0xE0, ['α']), (0xE1, ['ß']), (0xE2, ['Γ']), (0xE3, ['π']),
   (0xE4, ['Σ']), (0xE5, ['σ']), (0xE6, ['µ']), (0xE7, ['τ']), (0xE8, ['Φ']), (0xE9, ['Θ']),
   (0xEA, ['Ω']), (0xEB, ['δ']), (0xEC, ['∞']), (0xED, ['φ']), (0xEE, ['ε']), (0xEF, ['∩']),
   (0xF0, ['≡']), (0xF1, ['±']), (0xF2, ['≥']), (0xF3, ['≤']), (0xF4, ['⌠']), (0xF5, ['⌡']),
   (0xF6, ['÷']), (0xF7, ['≈']), (0xF8, ['°']), (0xF9, ['∙']), (0xFA, ['·']), (0xFB, ['√']),
   (0xFC, ['ⁿ']), (0xFD, ['²']), (0xFE, ['■']), (0xFF, [Char.ofNat 160])]

/-- The table `translationMap.hebrew` of `hTXT_Printer.js`. -/
def hebrew : List (Nat × JsString) :=
  [(0x80, ['א']), (0x81, ['ב']), (0x82, ['ג']), (0x83, ['ד']), (0x84, ['ה']), (0x85, ['ו']),
   (0x86, ['ז']), (0x87, ['ח']), (0x88, ['ט']), (0x89, ['י']), (0x8A, ['ך']), (0x8B, ['כ']),
   (0x8C, ['ל']), (0x8D, ['ם']), (0x8E, ['מ']), (0x8F, ['ן']), (0x90, ['נ']), (0x91, ['ס']),
   (0x92, ['ע']), (0x93, ['ף']), (0x94, ['פ']), (0x95, ['ץ']), (0x96, ['צ']), (0x97, ['ק']),
   (0x98, ['ר']), (0x99, ['ש']), (0x9A, ['ת'])]


/-- The method `CodePageTranslator.translateChar`. -/
def translateChar (asciiValue : Nat) : JsString :=
  match art.lookup asciiValue with
  | some g => g
  | none =>
    match hebrew.lookup asciiValue with
    | some g => g
    | none => [fromCharCode asciiValue]

/-- An element of the array `translate` returns: a glyph string or a
`PrinterEscape`. -/
inductive Token where
  /-- The non-empty result of `translateChar`. -/
  | lit (char : JsString) : Token
  /-- An escape sequence. -/
  | esc (e : PrinterEscape) : Token
  deriving DecidableEq

/-- The call `content.replaceAll("\r\n\r\n", "\r\n")`: every occurrence found
scanning from the left, the scan resuming after the replaced text. -/
def replaceAllCrLfCrLf : JsString → JsString
  | '\r' :: '\n' :: '\r' :: '\n' :: rest => '\r' :: '\n' :: replaceAllCrLfCrLf rest
  | c :: rest => c :: replaceAllCrLfCrLf rest
  | [] => []

/-- The first loop of `translate` and the replacement after it. -/
def translateContent (buffer : List Byte) : JsString :=
  replaceAllCrLfCrLf (buffer.map (fun x => fromCharCode x.val))

/-- The last loop of `translate`: walk the content, emitting the escape found
at the current index or else the glyph of the current character unless it is
the empty string. -/
def collect (content : JsString) (escapeLocations : List (Nat × JsString)) :
    Nat → Nat → List Token → Option (List Token)
  | 0, _, _ => none
  | fuel + 1, i, res =>
    if h : i < content.length then
      match escapeLocations.lookup i with
      | some m => collect content escapeLocations fuel (i + m.length) (res ++ [.esc (.new m)])
      | none =>
        let char := translateChar content[i].toNat
        collect content escapeLocations fuel (i + 1) (if char ≠ [] then res ++ [.lit char] else res)
    else some res

/-- The method `CodePageTranslator.translate`, with `length + 1` iterations
granted to each loop; `none` would mean that this was not enough. -/
def translate (buffer : List Byte) : Option (List Token) :=
  let content := translateContent buffer
  match execLoop ESCAPE_PATTERN content (content.length + 1) 0 [] with
  | none => none
  | some escapeLocations => collect content escapeLocations (content.length + 1) 0 []

/-- A drawing call on the 2-D context of a canvas (the external surface). -/
inductive DrawOp where
  /-- The call `fillRect(x, y, w, h)` under the given `fillStyle`. -/
  | fillRect (fillStyle : Option String) (x y w h : Int) : DrawOp
  /-- The call `fillText(text, x, y)` under the given `fillStyle` and `font`. -/
  | fillText (fillStyle : Option String) (font : String) (text : JsString) (x y : Int) : DrawOp
  deriving DecidableEq

/-- One canvas of the array `tiles`: a row of the surface. -/
structure Canvas where
  /-- The property `width`. -/
  width : Int
  /-- The property `height`. -/
  height : Int
  /-- The drawing calls received, oldest first. -/
  ops : List DrawOp
  deriving DecidableEq

/-- An instance of the class `Terminal` of `hTXT_Printer.js`. -/
structure Terminal where
  /-- The property `fontWidth`. -/
  fontWidth : Int
  /-- The property `fontHeight`. -/
  fontHeight : Int
  /-- The property `terminalWidth`. -/
  terminalWidth : Int
  /-- The property `underline`. -/
  underline : Bool
  /-- The property `subscript`. -/
  subscript : Bool
  /-- The property `superscript`. -/
  superscript : Bool
  /-- The property `skipNextNewline`. -/
  skipNextNewline : Bool
  /-- The property `fontFace`. -/
  fontFace : String
  /-- The property `defaultFontSize`. -/
  defaultFontSize : Int
  /-- The property `subSuperFontSize`. -/
  subSuperFontSize : Int
  /-- The property `fontSize`. -/
  fontSize : Int
  /-- The property `row`. -/
  row : Int
  /-- The property `col`. -/
  col : Int
  /-- The property `tiles`. -/
  tiles : List Canvas
  /-- The property `foreground`. -/
  foreground : Int
  /-- The property `background`. -/
  background : Int
  /-- The property `bold`. -/
  bold : Bool
  deriving DecidableEq

/-- The method `Terminal.clearScreen`. -/
def Terminal.clearScreen (t : Terminal) : Terminal :=
  { t with row := 0, col := 0, tiles := [] }

/-- The method `Terminal.setFgColor`. -/
def Terminal.setFgColor (t : Terminal) (color : Int) : Terminal :=
  { t with foreground := color }

/-- The method `Terminal.setBgColor`. -/
def Terminal.setBgColor (t : Terminal) (color : Int) : Terminal :=
  { t with background := color }

/-- The method `Terminal.setDefaultColors`. -/
def Terminal.setDefaultColors (t : Terminal) : Terminal :=
  { (t.setFgColor WHITE).setBgColor BLACK with bold := false }

/-- The method `Terminal.setBold`. -/
def Terminal.setBold (t : Terminal) (bold : Bool) : Terminal :=
  { t with bold := bold }

/-- The method `Terminal.setUnderline`. -/
def Terminal.setUnderline (t : Terminal) (underline : Bool) : Terminal :=
  { t with underline := underline }

/-- The method `Terminal.setSubscript`. -/
def Terminal.setSubscript (t : Terminal) (subscript : Bool) : Terminal :=
  { t with subscript := subscript }

/-- The method `Terminal.setSuperscript`. -/
def Terminal.setSuperscript (t : Terminal) (superscript : Bool) : Terminal :=
  { t with superscript := superscript }

/-- The constructor of `Terminal`. -/
def Terminal.new (terminalWidth : Int) : Terminal :=
  Terminal.setDefaultColors (Terminal.clearScreen
    { fontWidth := 8, fontHeight := 15, terminalWidth := terminalWidth,
      underline := false, subscript := false, superscript := false,
      skipNextNewline := false, fontFace := "Classic Console Neue",
      defaultFontSize := 16, subSuperFontSize := 11, fontSize := 16,
      row := 0, col := 0, tiles := [], foreground := 0, background := 0, bold := false })

/-- The method `Terminal.font`. -/
def Terminal.font (t : Terminal) : String :=
  (if t.bold then "bold " else "") ++ toString t.fontSize ++ "px" ++ " " ++ t.fontFace

/-- The loop at the head of `write`: push new canvases while
`tiles.length <= row`. -/
def Terminal.growTiles (t : Terminal) : List Canvas :=
  t.tiles ++ List.replicate (t.row + 1 - (t.tiles.length : Int)).toNat
    { width := t.fontWidth * t.terminalWidth, height := t.fontHeight, ops := [] }

/-- The element `tiles[row]`; `none` is `undefined`. -/
def tileAt (tiles : List Canvas) (row : Int) : Option Canvas :=
  if row < 0 then none else tiles[row.toNat]?

/-- The method `Terminal.write`.  With a negative `row` the element
`tiles[row]` is undefined and `canvas.getContext` throws. -/
def Terminal.write (t : Terminal) (character : JsString) : Except JsError Terminal :=
  let tiles := t.growTiles
  match tileAt tiles t.row with
  | none => .error .typeError
  | some canvas =>
    if character = ['\n'] then
      if !t.skipNextNewline then .ok { t with tiles := tiles, row := t.row + 1, col := 0 }
      else .ok { t with tiles := tiles }
    else if character = ['\r'] then
      .ok { t with tiles := tiles }
    else
      let t0 : Terminal :=
        { t with
          fontSize := if t.subscript || t.superscript then t.subSuperFontSize
            else t.defaultFontSize }
      let drawn : Canvas :=
        { canvas with
          ops := canvas.ops ++
            [.fillRect (color t.background false) (t.col * t.fontWidth) 0 t.fontWidth t.fontHeight,
             .fillText (color t.foreground false) t0.font character (t.col * t.fontWidth)
               (if t.subscript then 6 else 0)] ++
            (if t.underline then
              [.fillRect (color t.foreground false) (t.col * t.fontWidth) (t.fontHeight - 1)
                t.fontWidth 1]
             else []) }
      let t1 : Terminal :=
        { t0 with tiles := tiles.set t.row.toNat drawn, col := t.col + 1, skipNextNewline := false }
      if t1.col = t1.terminalWidth then
        .ok { t1 with row := t1.row + 1, col := 0, skipNextNewline := true }
      else .ok t1

/-- The body of the loop of `PrinterParser.parse` for one element `c`. -/
def parseStep (terminal : Terminal) (c : Token) : Except JsError Terminal :=
  match c with
  | .lit char => terminal.write char
  | .esc e =>
    if e.func ∈ [some INIT_PRINTER, some SET_PAGE_LENGTH, some CODE_AREA_EXPAND,
        some DOUBLE_WIDE_MODE, some LINE_SPACING_72, some LEFT_MARGIN] then
      .ok terminal
    else if e.func = some BOLD_ON then .ok (terminal.setBold true)
    else if e.func = some BOLD_OFF then
      .ok (((terminal.setBold false).setSubscript false).setSuperscript false)
    else if e.func = some UNDERLINE then
      -- for this function the getter always returns a boolean
      .ok (terminal.setUnderline (e.args.getD false))
    else if e.func = some SUBSUPERSCRIPT then
      if e.args = some true then .ok ((terminal.setSubscript true).setSuperscript false)
      else .ok ((terminal.setSubscript false).setSuperscript true)
    else if e.func = some SUBSUPERSCRIPT_OFF then
      .ok ((terminal.setSubscript false).setSuperscript false)
    else .ok terminal

/-- The method `PrinterParser.parse`: the loop over `content`, which an
exception leaves at once. -/
def parse : List Token → Terminal → Except JsError Terminal
  | [], terminal => .ok terminal
  | c :: rest, terminal =>
    match parseStep terminal c with
    | .error err => .error err
    | .ok terminal1 => parse rest terminal1

end Printer

/-! ## String methods used by `js/hTXT_Einstein.js` -/

/-- A pattern made of literal characters. -/
def Re.str : JsString → Re
  | [] => .eps
  | k :: rest => .seq (.chr (fun c => decide (c = k))) (Re.str rest)

/-- Greedy `a+`. -/
def Re.plus (a : Re) : Re := .seq a (.star a)

/-- The method `String.prototype.startsWith`. -/
def startsWith : JsString → JsString → Bool
  | _, [] => true
  | [], _ :: _ => false
  | c :: s, p :: pat => c == p && startsWith s pat

/-- The method `String.prototype.includes`. -/
def includes : JsString → JsString → Bool
  | [], pat => startsWith [] pat
  | c :: s, pat => startsWith (c :: s) pat || includes s pat

/-- The call `s.replaceAll(pattern, fn)` with a global pattern and a replacer
function `f` of the matched text: the matches found scanning from the left,
each search resuming at the end of the previous match (one character further
after an empty match), are replaced by the value of `f`.  The first argument
counts the characters of the current match still to be passed over. -/
def replaceAllRe (re : Re) (f : JsString → JsString) : Nat → JsString → JsString
  | _, [] =>
    match re.matchAt [] with
    | some _ => f []
    | none => []
  | skip + 1, _ :: t => replaceAllRe re f skip t
  | 0, c :: t =>
    match re.matchAt (c :: t) with
    | some (n + 1) => f ((c :: t).take (n + 1)) ++ replaceAllRe re f n t
    | some 0 => f [] ++ c :: replaceAllRe re f 0 t
    | none => c :: replaceAllRe re f 0 t

/-- The call `s.replaceAll(pat, "")` with a non-empty string `pat`: every
occurrence found scanning from the left is removed.  The first argument counts
the characters of the current occurrence still to be passed over. -/
def removeAll (pat : JsString) : Nat → JsString → JsString
  | _, [] => []
  | skip + 1, _ :: t => removeAll pat skip t
  | 0, c :: t =>
    if startsWith (c :: t) pat then removeAll pat (pat.length - 1) t
    else c :: removeAll pat 0 t

/-! ## `js/hTXT_Einstein.js`: word-processor files -/

namespace Einstein

/-- The constant `SpecialCharacters.CENTER`. -/
def CENTER : JsString := [Char.ofNat 0xD9]
/-- The constant `SpecialCharacters.NEWLINE`. -/
def NEWLINE : JsString := ['\r', '\n']
/-- The constant `SpecialCharacters.PARAGRAPH`. -/
def PARAGRAPH : JsString := ['.', 'P']
/-- The constant `SpecialCharacters.LEFT_ALIGN`. -/
def LEFT_ALIGN : JsString := [Char.ofNat 0xDA]
/-- The constant `SpecialCharacters.H2`. -/
def H2 : JsString := [Char.ofNat 0xCB]
/-- The constant `SpecialCharacters.H3`. -/
def H3 : JsString := [Char.ofNat 0xCA]
/-- The constant `SpecialCharacters.SUBSCRIPT`. -/
def SUBSCRIPT : JsString := [Char.ofNat 0x19]
/-- The constant `SpecialCharacters.SUPERSCRIPT`. -/
def SUPERSCRIPT : JsString := [Char.ofNat 0x18]

/-- An instance of the class `EinsteinEscape`. -/
structure EinsteinEscape where
  /-- The matched span. -/
  rawString : JsString
  deriving DecidableEq

/-- The pattern `ESCAPE_PATTERN`, which after the removal of the line breaks
of the template and the restoring of the one of NEWLINE reads
`(CENTER|NEWLINE|\.P|LEFT_ALIGN)`. -/
def ESCAPE_PATTERN : Re :=
  .alt (Re.str CENTER) (.alt (Re.str NEWLINE) (.alt (Re.str PARAGRAPH) (Re.str LEFT_ALIGN)))

/-- The table `translationMap.art` of `hTXT_Einstein.js`. -/
def art : List (Nat × JsString) :=
  [(0x01, []), (0x02, []), (0x03, []), (0x04, []), (0x05, []), (0x06, []),
   (0x07, []), (0x08, []), (0x09, []), (0x0B, []), (0x0C, []), (0x0E, []),
   (0x0F, []), (0x10, []), (0x11, []), (0x12, []), (0x13, []), (0x14, []),
   (0x15, []), (0x16, []), (0x17, []), (0x1A, []), (0x1B, ['←']), (0x1C, []),
   (0x1D, []), (0x1E, []), (0x1F, []), (0x28, [')']), (0x29, ['(']), (0x9B, ['¢']),
   (0x9C, ['£']), (0x9D, ['¥']), (0x9E, ['₧']), (0x9F, ['ƒ']), (0xA0, ['á']), (0xA1, ['í']),
   (0xA2, ['ó']), (0xA3, ['ú']), (0xA4, ['ñ']), (0xA5, ['Ñ']), (0xA6, ['ª']), (0xA7, ['º']),
   (0xA8, ['¿']), (0xA9, ['⌐']), (0xAA, ['¬']), (0xAB, ['½']), (0xAC, ['¼']), (0xAD, ['¡']),
   (0xAE, ['«']), (0xAF, ['»']), (0xB0, ['░']), (0xB1, ['▒']), (0xB2, ['▓']), (0xB3, ['│']),
   (0xB4, ['┤']), (0xB5, ['┘']), (0xB6, ['┌']), (0xB7, ['α']), (0xB8, ['β']), (0xB9, ['Γ']),
   (0xBA, ['π']), (0xBB, ['Σ']), (0xBC, ['σ']), (0xBD, ['μ']), (0xBE, ['γ']), (0xBF, ['┐']),
   (0xC0, ['└']), (0xC1, ['┴']), (0xC2, ['┬']), (0xC3, ['├']), (0xC4, ['─']), (0xC5, ['┼']),
   (0xC6, ['╞']), (0xC7, ['╟']), (0xC8, ['╚']), (0xC9, ['╔']), (0xCC, ['╠']), (0xCD, ['═']),
   (0xCE, ['╬']), (0xCF, ['╧']), (0xD0, ['╨']), (0xD1, ['╤']), (0xD2, ['╥']), (0xD3, ['╙']),
   (0xD4, ['╘']), (0xD5, ['╒']), (0xD6, ['╓']), (0xD7, ['╫']), (0xD8, ['╪']), (0xDB, [' ']),
   (0xDC, ['▄']), (0xDD, ['▌']), (0xDE, ['▐']), (0xDF, ['▀']), (0xE0, ['α']), (0xE1, ['ß']),
   (0xE2, ['Γ']), (0xE3, ['π']), (0xE4, ['Σ']), (0xE5, ['σ']), (0xE6, ['µ']), (0xE7, ['τ']),
   (0xE8, ['Φ']), (0xE9, ['Θ']), (0xEA, ['Ω']), (0xEB, ['δ']), (0xEC, ['∞']), (0xED, ['φ']),
   (0xEE, ['ε']), (0xEF, ['∩']), (0xF0, ['≡']), (0xF1, ['±']), (0xF2, ['≥']), (0xF3, ['≤']),
   (0xF4, ['⌠']), (0xF5, ['⌡']), (0xF6, ['÷']), (0xF7, ['≈']), (0xF8, ['°']), (0xF9, ['∙']),
   (0xFA, ['·']), (0xFB, ['√']), (0xFC, ['ⁿ']), (0xFD, ['²']), (0xFE, ['■']), (0xFF, [Char.ofNat 160])]

/-- The table `translationMap.hebrew` of `hTXT_Einstein.js`. -/
def hebrew : List (Nat × JsString) :=
  [(0x80, ['א']), (0x81, ['ב']), (0x82, ['ג']), (0x83, ['ד']), (0x84, ['ה']), (0x85, ['ו']),
   (0x86, ['ז']), (0x87, ['ח']), (0x88, ['ט']), (0x89, ['י']), (0x8A, ['ך']), (0x8B, ['כ']),
   (0x8C, ['ל']), (0x8D, ['ם']), (0x8E, ['מ']), (0x8F, ['ן']), (0x90, ['נ']), (0x91, ['ס']),
   (0x92, ['ע']), (0x93, ['ף']), (0x94, ['פ']), (0x95, ['ץ']), (0x96, ['צ']), (0x97, ['ק']),
   (0x98, ['ר']), (0x99, ['ש']), (0x9A, ['ת'])]


/-- The method `CodePageTranslator.translateChar`. -/
def translateChar (asciiValue : Nat) : JsString :=
  match art.lookup asciiValue with
  | some g => g
  | none =>
    match hebrew.lookup asciiValue with
    | some g => g
    | none => [fromCharCode asciiValue]

/-- An element of the array `translate` returns: a glyph string or an
`EinsteinEscape`. -/
inductive Token where
  /-- The non-empty result of `translateChar`. -/
  | lit (char : JsString) : Token
  /-- An escape sequence. -/
  | esc (e : EinsteinEscape) : Token
  deriving DecidableEq

/-- The first loop of `translate`. -/
def translateContent (buffer : List Byte) : JsString :=
  buffer.map (fun x => fromCharCode x.val)

/-- The last loop of `translate`: walk the content, emitting the escape found
at the current index or else the glyph of the current character unless it is
the empty string. -/
def collect (content : JsString) (escapeLocations : List (Nat × JsString)) :
    Nat → Nat → List Token → Option (List Token)
  | 0, _, _ => none
  | fuel + 1, i, res =>
    if h : i < content.length then
      match escapeLocations.lookup i with
      | some m => collect content escapeLocations fuel (i + m.length) (res ++ [.esc ⟨m⟩])
      | none =>
        let char := translateChar content[i].toNat
        collect content escapeLocations fuel (i + 1) (if char ≠ [] then res ++ [.lit char] else res)
    else some res

/-- The method `CodePageTranslator.translate`, with `length + 1` iterations
granted to each loop; `none` would mean that this was not enough. -/
def translate (buffer : List Byte) : Option (List Token) :=
  let content := translateContent buffer
  match execLoop ESCAPE_PATTERN content (content.length + 1) 0 [] with
  | none => none
  | some escapeLocations => collect content escapeLocations (content.length + 1) 0 []

/-- The pattern character `.`: anything but a line terminator. -/
def isDot (c : Char) : Bool :=
  decide (c.toNat ≠ 0x0A ∧ c.toNat ≠ 0x0D ∧ c.toNat ≠ 0x2028 ∧ c.toNat ≠ 0x2029)

/-- The pattern `((?:M.)+)` for a heading marker `M`. -/
def headingPattern (marker : JsString) : Re :=
  Re.plus (.seq (Re.str marker) (.chr isDot))

/-- The pattern `M([^M]+)M` for a one-character script marker `M`. -/
def scriptPattern (marker : JsString) : Re :=
  .seq (Re.str marker) (.seq (Re.plus (.chr (fun c => decide (c ∉ marker)))) (Re.str marker))

/-- The replacer of the heading patterns: the opening tag, the match without
its markers, `</span>`. -/
def headingReplacer (openTag : String) (marker : JsString) (capture : JsString) : JsString :=
  openTag.toList ++ removeAll marker 0 capture ++ "</span>".toList

/-- The replacer of the script patterns: the captured group, which is the
match without its first and its last character, between the two tags. -/
def scriptReplacer (openTag closeTag : String) (m : JsString) : JsString :=
  openTag.toList ++ (m.drop 1).dropLast ++ closeTag.toList

/-- The chain of four `replaceAll` calls applied to a finished line. -/
def formatLine (line : JsString) : JsString :=
  let l1 := replaceAllRe (headingPattern H2)
    (headingReplacer
      "<span style='text-decoration: underline; font-weight: bold; color: white;'>" H2) 0 line
  let l2 := replaceAllRe (headingPattern H3)
    (headingReplacer "<span style='font-weight: bold; color: white;'>" H3) 0 l1
  let l3 := replaceAllRe (scriptPattern SUBSCRIPT) (scriptReplacer "<sub>" "</sub>") 0 l2
  replaceAllRe (scriptPattern SUPERSCRIPT) (scriptReplacer "<sup>" "</sup>") 0 l3

/-- The local variables of `EinsteinParser.parse`. -/
structure ParseState where
  /-- The variable `line`. -/
  line : JsString
  /-- The variable `res`, an array of strings. -/
  res : List JsString
  /-- The variable `closing`. -/
  closing : JsString
  deriving DecidableEq

/-- The body of the loop of `EinsteinParser.parse` for one element `c`. -/
def parseStep (st : ParseState) (c : Token) : ParseState :=
  match c with
  | .lit char => { st with line := st.line ++ char }
  | .esc e =>
    if e.rawString = NEWLINE then
      let line1 := st.line ++ st.closing
      let line2 := if !(includes st.closing "</div>".toList) then line1 ++ "<br />".toList else line1
      let line3 := formatLine line2
      { line := []
        res := if st.res.length = 0 ∧ startsWith line3 [';'] = true then st.res
          else st.res ++ [line3]
        closing := [] }
    else if e.rawString = CENTER then
      { st with
        closing := "</div>".toList ++ st.closing
        line := st.line ++ "<div style='text-align: center'>".toList }
    else if e.rawString = PARAGRAPH then
      { st with line := st.line ++ "<br/>".toList }
    else if e.rawString = LEFT_ALIGN then
      { st with
        closing := "</div>".toList ++ st.closing
        line := st.line ++ "<div style='text-align: left'>".toList }
    else st

/-- The method `EinsteinParser.parse`: the loop, the push of the unfinished
line and `res.join("")`. -/
def parse (content : List Token) : JsString :=
  let st := content.foldl parseStep { line := [], res := [], closing := [] }
  (st.res ++ [st.line]).flatten

end Einstein

/-! ## The yielding helper `pauseIfNeeded` (the same in the three files) -/

/-- What a call of `pauseIfNeeded` does besides returning a value. -/
inductive PauseEvent where
  /-- A call of `performance.now()`. -/
  | clockRead : PauseEvent
  /-- The suspension `await oneMoment()`. -/
  | suspend : PauseEvent
  deriving DecidableEq

/-- The value a call of `pauseIfNeeded` resolves to and what it did, in order. -/
structure PauseOutcome (T : Type) where
  /-- The returned `then`. -/
  value : T
  /-- The clock readings and the suspension, oldest first. -/
  events : List PauseEvent

/-- The function `pauseIfNeeded(counter, then)`.  Clock values, in
milliseconds, are the elements of a linearly ordered ring `T` (the numbers the
values of `performance.now()` denote, the subtraction taken as exact);
`clock k` is what the call number `k` of `performance.now()` within this call
returns.  The remainder `%` of JavaScript truncates towards zero. -/
def pauseIfNeeded {T : Type} [LinearOrderedRing T] (clock : Nat → T) (counter : Int)
    (then_ : T) : PauseOutcome T :=
  if counter ≠ 0 ∧ counter.tmod 1000 = 0 then
    if clock 0 - then_ > 100 then
      { value := clock 1, events := [.clockRead, .suspend, .clockRead] }
    else { value := then_, events := [.clockRead] }
  else { value := then_, events := [] }

/-! ## Notions used to state the properties -/

namespace Ansi

/-- What an element of the token list stands for in the content: a literal is
its one glyph, an escape is its `rawString`. -/
def Token.text : Token → JsString
  | .lit c => [c]
  | .esc e => e.rawString

end Ansi

/-- A pattern whose every match consumes at least one character. -/
def Re.Consumes (re : Re) : Prop :=
  ∀ s n, re.matchAt s = some n → s.take n ≠ []

/-- The entries of a location table are non-empty spans of the content found
at their index. -/
def ValidLocations (content : JsString) (locations : List (Nat × JsString)) : Prop :=
  ∀ j m, locations.lookup j = some m → m ≠ [] ∧ m <+: content.drop j

namespace Printer

/-- The literal token of one character of the content, unless its glyph is the
empty string. -/
def glyphToken (c : Char) : Option Token :=
  if translateChar c.toNat = [] then none else some (.lit (translateChar c.toNat))

/-- The token list of C3 as stated: the glyph of every input byte, in order,
those with an empty glyph left out. -/
def literalTokens (buffer : List Byte) : List Token :=
  buffer.filterMap (fun b =>
    if translateChar b.val = [] then none else some (.lit (translateChar b.val)))

end Printer

/-- An argument as the tokenizer can deliver it to `parseInt` with an exact
result: one to fifteen decimal digits. -/
def DecimalArgument (ds : JsString) : Prop :=
  ds ≠ [] ∧ ds.length ≤ 15 ∧ ∀ c ∈ ds, 48 ≤ c.toNat ∧ c.toNat ≤ 57

instance (ds : JsString) : Decidable (DecimalArgument ds) := by
  unfold DecimalArgument
  infer_instance

/-- The number a string of decimal digits denotes. -/
def decimalValue (ds : JsString) : Int :=
  ((ds.foldl (fun acc c => acc * 10 + (c.toNat - 48)) 0 : Nat) : Int)

namespace Ansi

/-- A sequence of `write` calls, which an exception leaves at once. -/
def writeAll : List Char → Terminal → Except JsError Terminal
  | [], t => .ok t
  | g :: rest, t =>
    match t.write g with
    | .error err => .error err
    | .ok t1 => writeAll rest t1

/-- A call of a method of `Terminal` that changes its state. -/
inductive TerminalCall where
  /-- The call `write(character)`. -/
  | write (character : Char) : TerminalCall
  /-- The call `moveRight(n)`. -/
  | moveRight (n : Int) : TerminalCall
  /-- The call `moveLeft(n)`. -/
  | moveLeft (n : Int) : TerminalCall
  /-- The call `moveUp(n)`. -/
  | moveUp (n : Int) : TerminalCall
  /-- The call `clearScreen()`. -/
  | clearScreen : TerminalCall
  /-- The call `setFgColor(color)`. -/
  | setFgColor (color : Int) : TerminalCall
  /-- The call `setBgColor(color)`. -/
  | setBgColor (color : Int) : TerminalCall
  /-- The call `setDefaultColors()`. -/
  | setDefaultColors : TerminalCall
  /-- The call `setBold(bold)`. -/
  | setBold (bold : Bool) : TerminalCall
  /-- The call `saveCurrentPosition()`. -/
  | saveCurrentPosition : TerminalCall
  /-- The call `restoreCurrentPosition()`. -/
  | restoreCurrentPosition : TerminalCall
  /-- The call `setCurrentPosition(row, col)`. -/
  | setCurrentPosition (row col : Int) : TerminalCall
  deriving DecidableEq

/-- The effect of one method call. -/
def Terminal.call (t : Terminal) : TerminalCall → Except JsError Terminal
  | .write character => t.write character
  | .moveRight n => .ok (t.moveRight n)
  | .moveLeft n => .ok (t.moveLeft n)
  | .moveUp n => .ok (t.moveUp n)
  | .clearScreen => .ok t.clearScreen
  | .setFgColor color => .ok (t.setFgColor color)
  | .setBgColor color => .ok (t.setBgColor color)
  | .setDefaultColors => .ok t.setDefaultColors
  | .setBold bold => .ok (t.setBold bold)
  | .saveCurrentPosition => .ok t.saveCurrentPosition
  | .restoreCurrentPosition => .ok t.restoreCurrentPosition
  | .setCurrentPosition row col => .ok (t.setCurrentPosition row col)

/-- A sequence of method calls, which an exception leaves at once. -/
def Terminal.calls : List TerminalCall → Terminal → Except JsError Terminal
  | [], t => .ok t
  | c :: rest, t =>
    match t.call c with
    | .error err => .error err
    | .ok t1 => Terminal.calls rest t1

end Ansi

namespace Printer

/-- A sequence of `write` calls, which an exception leaves at once. -/
def writeAll : List JsString → Terminal → Except JsError Terminal
  | [], t => .ok t
  | g :: rest, t =>
    match t.write g with
    | .error err => .error err
    | .ok t1 => writeAll rest t1

end Printer

namespace Ansi

/-- The integers a graphics-rendition argument is classified for:
0, 1, 30..37 and 40..47. -/
def SupportedSgr (a : Int) : Prop :=
  a = 0 ∨ a = 1 ∨ (30 ≤ a ∧ a ≤ 37) ∨ (40 ≤ a ∧ a ≤ 47)

instance (a : Int) : Decidable (SupportedSgr a) := by
  unfold SupportedSgr
  infer_instance

/-- The sub-command of a supported graphics-rendition argument, in the words
of the specification: `30 + k` is set-foreground with colour index `k`,
`40 + k` is set-background with colour index `k`, 1 is set-bold and 0 is
reset-to-default. -/
def classifySgr (a : Int) : AnsiSgrCommand :=
  if 30 ≤ a ∧ a ≤ 37 then { type := SET_FGCOLOR, value := a - 30 }
  else if 40 ≤ a ∧ a ≤ 47 then { type := SET_BGCOLOR, value := a - 40 }
  else if a = 1 then { type := SET_BOLD, value := 0 }
  else { type := SET_DEFAULT, value := 0 }

end Ansi

/-- The argument text made of the given fields, separated by `;`. -/
def joinFields : List JsString → JsString
  | [] => []
  | [x] => x
  | x :: y :: rest => x ++ ';' :: joinFields (y :: rest)

/-- The number of positions of `s` at which `pat` occurs. -/
def countOccurrences (pat : JsString) : JsString → Nat
  | [] => 0
  | c :: t => (if startsWith (c :: t) pat then 1 else 0) + countOccurrences pat t

/-- A piece of the content as the last loop of `translate` passes over it: a
span recorded for the pattern, or one character. -/
inductive Segment where
  /-- The text of a match of the pattern. -/
  | span (m : JsString) : Segment
  /-- A character outside every match. -/
  | char (c : Char) : Segment
  deriving DecidableEq

/-- The characters of a segment. -/
def Segment.text : Segment → JsString
  | .span m => m
  | .char c => [c]

/-- The table `locations` holds, for the content up to `lastIndex`, exactly
the successive matches of the pattern: every entry is a non-empty match found
at its index and ending at or before `lastIndex`, entries do not overlap, and
every position before `lastIndex` at which the pattern matches lies in an
entry. -/
structure LocationsUpTo (re : Re) (content : JsString) (locations : List (Nat × JsString))
    (lastIndex : Nat) : Prop where
  /-- Every entry is a match at its index. -/
  valid : ∀ j m, locations.lookup j = some m →
    m ≠ [] ∧ (∃ n, re.matchAt (content.drop j) = some n ∧ m = (content.drop j).take n) ∧
      j + m.length ≤ lastIndex
  /-- Entries do not overlap. -/
  ordered : ∀ j m j1 m1, locations.lookup j = some m → locations.lookup j1 = some m1 →
    j < j1 → j + m.length ≤ j1
  /-- Every position where the pattern matches lies in an entry. -/
  complete : ∀ p, p < lastIndex → re.matchAt (content.drop p) ≠ none →
    ∃ j m, locations.lookup j = some m ∧ j ≤ p ∧ p < j + m.length

/-- The segments are the tokenization of their text by the pattern `re`, from
left to right: each span is the match of `re` at the point where it starts and
no match of `re` starts at a character segment. -/
def Tokenizes (re : Re) : List Segment → Prop
  | [] => True
  | .span m :: rest =>
    (∃ n, re.matchAt (m ++ rest.flatMap Segment.text) = some n ∧
      m = (m ++ rest.flatMap Segment.text).take n) ∧ Tokenizes re rest
  | .char c :: rest =>
    re.matchAt (c :: rest.flatMap Segment.text) = none ∧ Tokenizes re rest

namespace Printer

/-- The token the last loop of `translate` emits for a segment, if any. -/
def segmentToken : Segment → Option Token
  | .span m => some (.esc (.new m))
  | .char c => glyphToken c

/-- The functions `ESCAPE_PATTERN` lists without an argument. -/
def plainFunctions : List Char :=
  [INIT_PRINTER, BOLD_ON, BOLD_OFF, SUBSUPERSCRIPT_OFF, CODE_AREA_EXPAND]

/-- The functions `ESCAPE_PATTERN` lists with one argument character. -/
def argumentFunctions : List Char :=
  [SET_PAGE_LENGTH, SUBSUPERSCRIPT, UNDERLINE, DOUBLE_WIDE_MODE, LINE_SPACING_72, LEFT_MARGIN]

/-- The text after an escape character continues the escape: it starts with a
function without argument, or with a function with argument and a character
that `.` matches. -/
def recognised : JsString → Bool
  | [] => false
  | [f] => decide (f ∈ plainFunctions)
  | f :: a :: _ => decide (f ∈ plainFunctions) || (decide (f ∈ argumentFunctions) && isDot a)

/-- The three shapes of an escape span: the escape character alone, with a
function without argument, or with a function and its argument character. -/
def EscapeSpan (m : JsString) : Prop :=
  m = [ESC] ∨ (∃ f ∈ plainFunctions, m = [ESC, f]) ∨
    (∃ f ∈ argumentFunctions, ∃ a, isDot a = true ∧ m = [ESC, f, a])

end Printer

namespace Einstein

/-- The literal token of one character of the content, unless its glyph is the
empty string. -/
def glyphToken (c : Char) : Option Token :=
  if translateChar c.toNat = [] then none else some (.lit (translateChar c.toNat))

/-- The token the last loop of `translate` emits for a segment, if any. -/
def segmentToken : Segment → Option Token
  | .span m => some (.esc ⟨m⟩)
  | .char c => glyphToken c

end Einstein

namespace Einstein

/-- The value the variable `line` holds at the test `line.startsWith(";")` of a
NEWLINE escape met in the state `st`: the text of the line, the pending
closing tags, the `<br />` unless a `</div>` is pending, after the four
replacements. -/
def finishedLine (st : ParseState) : JsString :=
  formatLine
    (if !(includes st.closing "</div>".toList) then st.line ++ st.closing ++ "<br />".toList
      else st.line ++ st.closing)

/-- The lines of a token list met from the state `st`: the finished line of
every NEWLINE escape, oldest first, whether or not it is kept. -/
def finishedLines : ParseState → List Token → List JsString
  | _, [] => []
  | st, .lit char :: rest => finishedLines (parseStep st (.lit char)) rest
  | st, .esc e :: rest =>
    (if e.rawString = NEWLINE then [finishedLine st] else []) ++
      finishedLines (parseStep st (.esc e)) rest

/-- The state of the variables of `EinsteinParser.parse` before the loop. -/
def ParseState.initial : ParseState := { line := [], res := [], closing := [] }

end Einstein

/-! # Theorems

Everything above is definitions; everything below is lemmas and the theorems
of the claims. -/

/-! ## Facts about the pattern engine and the tokenizer loops -/

theorem run_chr_seq (p : Char → Bool) (r : Re) (s : List Char) :
    (Re.seq (.chr p) r).run s =
      match s with
      | [] => []
      | c :: t => if p c then (r.run t).map (fun k => 1 + k) else [] := by
  cases s with
  | nil => simp [Re.run]
  | cons c t =>
    by_cases h : p c <;> simp [Re.run, h]

theorem consumes_chr_seq (p : Char → Bool) (r : Re) : (Re.seq (.chr p) r).Consumes := by
  intro s n h
  unfold Re.matchAt at h
  rw [run_chr_seq] at h
  cases s with
  | nil => simp at h
  | cons c t =>
    by_cases hp : p c
    · simp only [hp, if_true] at h
      cases hr : r.run t with
      | nil => simp [hr] at h
      | cons k ks =>
        simp [hr] at h
        subst h
        simp [show 1 + k = k + 1 by omega]
    · simp [hp] at h

theorem matchAt_chr_seq_none (p : Char → Bool) (r : Re) (c : Char) (t : List Char)
    (h : p c = false) : (Re.seq (.chr p) r).matchAt (c :: t) = none := by
  unfold Re.matchAt
  rw [run_chr_seq]
  simp [h]

theorem execFrom_spec (re : Re) (hre : re.Consumes) :
    ∀ (s : List Char) (i idx : Nat) (m : JsString), execFrom re s i = some (idx, m) →
      i ≤ idx ∧ m ≠ [] ∧ m <+: s.drop (idx - i) := by
  intro s
  induction s with
  | nil =>
    intro i idx m h
    simp only [execFrom] at h
    cases hm : re.matchAt [] with
    | none => simp [hm] at h
    | some n => exact absurd (List.take_nil) (hre [] n hm)
  | cons c t ih =>
    intro i idx m h
    simp only [execFrom] at h
    cases hm : re.matchAt (c :: t) with
    | none =>
      rw [hm] at h
      obtain ⟨h1, h2, h3⟩ := ih (i + 1) idx m h
      refine ⟨by omega, h2, ?_⟩
      have : idx - i = (idx - (i + 1)) + 1 := by omega
      rw [this, List.drop_succ_cons]
      exact h3
    | some n =>
      rw [hm] at h
      simp only [Option.some.injEq, Prod.mk.injEq] at h
      obtain ⟨h1, h2⟩ := h
      subst h1 h2
      refine ⟨le_refl _, hre _ _ hm, ?_⟩
      simp only [Nat.sub_self, List.drop_zero]
      exact List.take_prefix _ _

theorem exec_spec (re : Re) (hre : re.Consumes) (content : JsString) (lastIndex idx : Nat)
    (m : JsString) (h : exec re content lastIndex = some (idx, m)) :
    lastIndex ≤ idx ∧ m ≠ [] ∧ m <+: content.drop idx ∧ idx + m.length ≤ content.length := by
  unfold exec at h
  split at h
  · simp at h
  · rename_i hlt
    obtain ⟨h1, h2, h3⟩ := execFrom_spec re hre _ _ _ _ h
    rw [List.drop_drop] at h3
    have e : lastIndex + (idx - lastIndex) = idx := by omega
    have h3' : m <+: content.drop idx := by
      rw [e] at h3
      exact h3
    refine ⟨h1, h2, h3', ?_⟩
    have hl := h3'.length_le
    rw [List.length_drop] at hl
    have hpos : 0 < m.length := List.length_pos.mpr h2
    omega

theorem validLocations_nil (content : JsString) : ValidLocations content [] := by
  intro j m h
  simp at h

theorem validLocations_cons (content : JsString) (locations : List (Nat × JsString))
    (idx : Nat) (m : JsString) (hv : ValidLocations content locations)
    (h1 : m ≠ []) (h2 : m <+: content.drop idx) :
    ValidLocations content ((idx, m) :: locations) := by
  intro j m1 h
  rw [List.lookup_cons] at h
  by_cases hj : j = idx
  · subst hj
    simp at h
    subst h
    exact ⟨h1, h2⟩
  · have : (j == idx) = false := by simpa using hj
    rw [this] at h
    exact hv j m1 h

theorem execLoop_spec (re : Re) (hre : re.Consumes) (content : JsString) :
    ∀ (fuel lastIndex : Nat) (locations : List (Nat × JsString)),
      lastIndex ≤ content.length → content.length + 1 ≤ fuel + lastIndex →
      ValidLocations content locations →
      ∃ result, execLoop re content fuel lastIndex locations = some result ∧
        ValidLocations content result := by
  intro fuel
  induction fuel with
  | zero =>
    intro lastIndex locations hl hf hv
    omega
  | succ fuel ih =>
    intro lastIndex locations hl hf hv
    simp only [execLoop]
    cases he : exec re content lastIndex with
    | none => exact ⟨locations, rfl, hv⟩
    | some r =>
      obtain ⟨idx, m⟩ := r
      obtain ⟨h1, h2, h3, h4⟩ := exec_spec re hre content lastIndex idx m he
      have hpos : 0 < m.length := List.length_pos.mpr h2
      exact ih (idx + m.length) ((idx, m) :: locations) h4 (by omega)
        (validLocations_cons content locations idx m hv h2 h3)

namespace Ansi

theorem collect_spec (content : JsString) (locations : List (Nat × JsString))
    (hv : ValidLocations content locations) :
    ∀ (fuel i : Nat) (res : List Token),
      i ≤ content.length → content.length + 1 ≤ fuel + i →
      ∃ tokens, collect content locations fuel i res = some tokens ∧
        tokens.flatMap Token.text = res.flatMap Token.text ++ content.drop i := by
  intro fuel
  induction fuel with
  | zero =>
    intro i res hi hf
    omega
  | succ fuel ih =>
    intro i res hi hf
    simp only [collect]
    by_cases hlt : i < content.length
    · rw [dif_pos hlt]
      cases hl : locations.lookup i with
      | none =>
        simp only
        obtain ⟨tokens, h1, h2⟩ := ih (i + 1) (res ++ [.lit content[i]]) (by omega) (by omega)
        refine ⟨tokens, h1, ?_⟩
        rw [h2]
        simp [Token.text]
      | some m =>
        simp only
        obtain ⟨hne, hpre⟩ := hv i m hl
        have hlen := hpre.length_le
        rw [List.length_drop] at hlen
        have hpos : 0 < m.length := List.length_pos.mpr hne
        obtain ⟨tokens, h1, h2⟩ :=
          ih (i + m.length) (res ++ [.esc (.new m)]) (by omega) (by omega)
        refine ⟨tokens, h1, ?_⟩
        rw [h2]
        obtain ⟨rest, hrest⟩ := hpre
        have hd : content.drop (i + m.length) = rest := by
          rw [← List.drop_drop, ← hrest]
          simp
        simp [Token.text, AnsiEscape.new, hd, hrest]
    · rw [dif_neg hlt]
      refine ⟨res, rfl, ?_⟩
      have : content.drop i = [] := List.drop_eq_nil_of_le (by omega)
      simp [this]

end Ansi

theorem offset_in_exactly_one (l : List Nat) :
    ∀ i, i < l.sum →
      ∃! k, k < l.length ∧ (l.take k).sum ≤ i ∧ i < (l.take (k + 1)).sum := by
  induction l with
  | nil => intro i hi; simp at hi
  | cons a l ih =>
    intro i hi
    by_cases hia : i < a
    · refine ⟨0, ⟨by simp, by simp, by simpa using hia⟩, ?_⟩
      rintro k ⟨_, hk2, _⟩
      cases k with
      | zero => rfl
      | succ k =>
        simp only [List.take_succ_cons, List.sum_cons] at hk2
        omega
    · have hi2 : i - a < l.sum := by
        simp only [List.sum_cons] at hi
        omega
      obtain ⟨k, ⟨hk1, hk2, hk3⟩, huniq⟩ := ih (i - a) hi2
      refine ⟨k + 1, ⟨by simpa using hk1, ?_, ?_⟩, ?_⟩
      · simp only [List.take_succ_cons, List.sum_cons]
        omega
      · simp only [List.take_succ_cons, List.sum_cons]
        omega
      · rintro j ⟨hj1, hj2, hj3⟩
        cases j with
        | zero =>
          simp at hj3
          omega
        | succ j =>
          simp only [List.take_succ_cons, List.sum_cons, List.length_cons] at hj1 hj2 hj3
          have := huniq j ⟨by omega, by omega, by omega⟩
          omega

namespace Ansi

set_option maxRecDepth 1000000 in
theorem translateChar_byte : ∀ b : Byte, (translateChar b.val).length = 1 ∧
    (b ≠ 0x1B → ∀ c ∈ translateChar b.val, isIntroducer c = false) := by decide

theorem translateChar_length (b : Byte) : (translateChar b.val).length = 1 :=
  (translateChar_byte b).1

theorem translateChar_introducer (b : Byte) (hb : b ≠ 0x1B) :
    ∀ c ∈ translateChar b.val, isIntroducer c = false :=
  (translateChar_byte b).2 hb

theorem translateContent_length (buffer : List Byte) :
    (translateContent buffer).length = buffer.length := by
  induction buffer with
  | nil => rfl
  | cons b bs ih =>
    simp only [translateContent, List.flatMap_cons, List.length_append, List.length_cons] at ih ⊢
    rw [translateChar_length b, ih]
    omega

theorem length_flatMap_text (tokens : List Token) :
    (tokens.flatMap Token.text).length = (tokens.map (fun t => t.text.length)).sum := by
  induction tokens with
  | nil => rfl
  | cons t ts ih => simp [ih]

/-- C1: for every input byte sequence `translate` of `hTXT.js` returns a token
list whose texts (a literal its one glyph, an escape its `rawString`)
concatenate in order to exactly the translated glyph string; hence the token
lengths sum to the input length, and every offset of the stream lies in
exactly one token (token `k` covers the offsets from the sum of the lengths
before it up to, excluding, that sum plus its own length). -/
theorem translate_tokens_partition (buffer : List Byte) :
    ∃ tokens, translate buffer = some tokens ∧
      tokens.flatMap Token.text = buffer.flatMap (fun x => translateChar x.val) ∧
      (tokens.map (fun t => t.text.length)).sum = buffer.length ∧
      ∀ offset, offset < buffer.length →
        ∃! k, k < tokens.length ∧
          ((tokens.take k).map (fun t => t.text.length)).sum ≤ offset ∧
          offset < ((tokens.take (k + 1)).map (fun t => t.text.length)).sum := by
  obtain ⟨locations, hloc, hvalid⟩ :=
    execLoop_spec ANSI_ESCAPE_PATTERN (consumes_chr_seq _ _) (translateContent buffer)
      ((translateContent buffer).length + 1) 0 [] (Nat.zero_le _) (by omega)
      (validLocations_nil _)
  obtain ⟨tokens, htok, hcat⟩ :=
    collect_spec (translateContent buffer) locations hvalid
      ((translateContent buffer).length + 1) 0 [] (Nat.zero_le _) (by omega)
  have hcat2 : tokens.flatMap Token.text = buffer.flatMap (fun x => translateChar x.val) := by
    simpa [translateContent] using hcat
  have hsum : (tokens.map (fun t => t.text.length)).sum = buffer.length := by
    rw [← length_flatMap_text, hcat2]
    exact translateContent_length buffer
  refine ⟨tokens, ?_, hcat2, hsum, ?_⟩
  · simp only [translate, hloc]
    exact htok
  · intro offset hoff
    have := offset_in_exactly_one (tokens.map (fun t => t.text.length)) offset (by omega)
    simpa [List.map_take] using this

end Ansi

theorem execFrom_chr_seq_none (p : Char → Bool) (r : Re) :
    ∀ (s : List Char) (i : Nat), (∀ c ∈ s, p c = false) →
      execFrom (Re.seq (.chr p) r) s i = none := by
  intro s
  induction s with
  | nil =>
    intro i _
    simp [execFrom, Re.matchAt, run_chr_seq]
  | cons c t ih =>
    intro i h
    simp only [execFrom]
    rw [matchAt_chr_seq_none p r c t (h c (List.mem_cons_self _ _))]
    exact ih (i + 1) (fun d hd => h d (List.mem_cons_of_mem _ hd))

namespace Ansi

theorem collect_no_locations (content : JsString) :
    ∀ (fuel i : Nat) (res : List Token),
      i ≤ content.length → content.length + 1 ≤ fuel + i →
      collect content [] fuel i res = some (res ++ (content.drop i).map Token.lit) := by
  intro fuel
  induction fuel with
  | zero =>
    intro i res hi hf
    omega
  | succ fuel ih =>
    intro i res hi hf
    simp only [collect]
    by_cases hlt : i < content.length
    · rw [dif_pos hlt]
      simp only [List.lookup_nil]
      have e : content.drop i = content[i] :: content.drop (i + 1) :=
        List.drop_eq_getElem_cons hlt
      rw [ih (i + 1) _ (by omega) (by omega), e, List.map_cons, List.append_assoc]
      rfl
    · rw [dif_neg hlt]
      have : content.drop i = [] := List.drop_eq_nil_of_le (by omega)
      simp [this]

/-- C2: for every byte sequence in which the escape pattern finds no match, in
particular for every sequence without a 0x1B byte, `translate` of `hTXT.js`
returns exactly the literals `translateChar(b0), translateChar(b1), ...`: no
escape token, the original order, and as many tokens as input bytes. -/
theorem translate_without_escape (buffer : List Byte)
    (h : exec ANSI_ESCAPE_PATTERN (buffer.flatMap (fun x => translateChar x.val)) 0 = none ∨
      ∀ b ∈ buffer, b ≠ 0x1B) :
    translate buffer = some (buffer.flatMap (fun b => (translateChar b.val).map Token.lit)) ∧
      (buffer.flatMap (fun b => (translateChar b.val).map Token.lit)).length = buffer.length := by
  have hnone : exec ANSI_ESCAPE_PATTERN (translateContent buffer) 0 = none := by
    rcases h with h | h
    · exact h
    · unfold exec
      rw [if_neg (by omega)]
      apply execFrom_chr_seq_none
      intro c hc
      simp only [List.drop_zero, translateContent, List.mem_flatMap] at hc
      obtain ⟨b, hb, hcb⟩ := hc
      exact translateChar_introducer b (h b hb) c hcb
  have hmap : (translateContent buffer).map Token.lit =
      buffer.flatMap (fun b => (translateChar b.val).map Token.lit) := by
    simp [translateContent, List.map_flatMap]
  constructor
  · simp only [translate, execLoop, hnone]
    rw [collect_no_locations _ _ 0 [] (Nat.zero_le _) (by omega)]
    simp [hmap]
  · rw [← hmap, List.length_map]
    exact translateContent_length buffer

set_option maxRecDepth 100000 in
/-- A buffer without escape: the letters `Hi`, a line break and a box glyph. -/
theorem translate_without_escape_witness :
    (exec ANSI_ESCAPE_PATTERN (([0x48, 0x69, 0x0A, 0xC4] : List Byte).flatMap (fun x => translateChar x.val)) 0
        = none ∨ ∀ b ∈ ([0x48, 0x69, 0x0A, 0xC4] : List Byte), b ≠ 0x1B) ∧
      translate [0x48, 0x69, 0x0A, 0xC4] =
        some [Token.lit 'H', Token.lit 'i', Token.lit '\n', Token.lit '─'] :=
  ⟨Or.inr (by decide), (translate_without_escape [0x48, 0x69, 0x0A, 0xC4] (Or.inr (by decide))).1⟩

end Ansi

namespace Printer

theorem mem_replaceAllCrLfCrLf (c : Char) :
    ∀ s : JsString, c ∈ replaceAllCrLfCrLf s → c ∈ s := by
  intro s
  induction s using replaceAllCrLfCrLf.induct with
  | case1 rest ih =>
    intro h
    simp only [replaceAllCrLfCrLf, List.mem_cons] at h ⊢
    rcases h with h | h | h
    · exact Or.inl h
    · exact Or.inr (Or.inl h)
    · exact Or.inr (Or.inr (Or.inr (Or.inr (ih h))))
  | case2 d rest hne ih =>
    intro h
    rw [replaceAllCrLfCrLf] at h
    · simp only [List.mem_cons] at h ⊢
      rcases h with h | h
      · exact Or.inl h
      · exact Or.inr (ih h)
    · exact hne
  | case3 => intro h; simp [replaceAllCrLfCrLf] at h

set_option maxRecDepth 1000000 in
theorem fromCharCode_byte : ∀ b : Byte,
    (fromCharCode b.val).toNat = b.val ∧ (b ≠ 0x1B → decide (fromCharCode b.val = ESC) = false) := by
  decide

theorem printer_collect_no_locations (content : JsString) :
    ∀ (fuel i : Nat) (res : List Token),
      i ≤ content.length → content.length + 1 ≤ fuel + i →
      collect content [] fuel i res = some (res ++ (content.drop i).filterMap glyphToken) := by
  intro fuel
  induction fuel with
  | zero =>
    intro i res hi hf
    omega
  | succ fuel ih =>
    intro i res hi hf
    simp only [collect]
    by_cases hlt : i < content.length
    · rw [dif_pos hlt]
      simp only [List.lookup_nil]
      have e : content.drop i = content[i] :: content.drop (i + 1) :=
        List.drop_eq_getElem_cons hlt
      rw [ih (i + 1) _ (by omega) (by omega), e, List.filterMap_cons]
      by_cases hg : translateChar content[i].toNat = []
      · simp only [glyphToken, hg, if_true, ne_eq, not_true_eq_false, if_false]
      · simp only [glyphToken, hg, if_false, ne_eq, not_false_eq_true, if_true,
          List.append_assoc, List.singleton_append]
    · rw [dif_neg hlt]
      have : content.drop i = [] := List.drop_eq_nil_of_le (by omega)
      simp [this]


/-- C3 (as the code behaves): for every byte sequence without a 0x1B byte,
`translate` of `hTXT_Printer.js` returns only literal tokens, namely, after
the replacement of every `\r\n\r\n` of the byte stream by `\r\n`, the
`translateChar` glyph of every remaining character in the original order, the
characters whose table entry is the empty string left out; when the stream
holds no `\r\n\r\n` these are the glyphs of all the input bytes. -/
theorem printer_translate_without_escape (buffer : List Byte) (h : ∀ b ∈ buffer, b ≠ 0x1B) :
    translate buffer =
        some ((replaceAllCrLfCrLf (buffer.map (fun x => fromCharCode x.val))).filterMap
          glyphToken) ∧
      (replaceAllCrLfCrLf (buffer.map (fun x => fromCharCode x.val)) =
          buffer.map (fun x => fromCharCode x.val) →
        translate buffer = some (literalTokens buffer)) := by
  have hnone : exec ESCAPE_PATTERN (translateContent buffer) 0 = none := by
    unfold exec
    rw [if_neg (by omega)]
    apply execFrom_chr_seq_none
    intro c hc
    simp only [List.drop_zero, translateContent] at hc
    have hc2 := mem_replaceAllCrLfCrLf c _ hc
    simp only [List.mem_map] at hc2
    obtain ⟨b, hb, hcb⟩ := hc2
    subst hcb
    exact (fromCharCode_byte b).2 (h b hb)
  have main : translate buffer =
      some ((replaceAllCrLfCrLf (buffer.map (fun x => fromCharCode x.val))).filterMap
        glyphToken) := by
    simp only [translate, execLoop, hnone]
    rw [printer_collect_no_locations _ _ 0 [] (Nat.zero_le _) (by omega)]
    simp [translateContent]
  refine ⟨main, ?_⟩
  intro hsame
  rw [main, hsame]
  congr 1
  unfold literalTokens
  rw [List.filterMap_map]
  apply List.filterMap_congr
  intro b _
  simp [glyphToken, (fromCharCode_byte b).1]

set_option maxRecDepth 100000 in
/-- A stream without escape and without a doubled line break. -/
theorem printer_translate_without_escape_witness :
    (∀ b ∈ ([0x41, 0x01, 0x0D, 0x0A, 0x80] : List Byte), b ≠ 0x1B) ∧
      translate [0x41, 0x01, 0x0D, 0x0A, 0x80] =
        some [Token.lit ['A'], Token.lit ['\r'], Token.lit ['\n'], Token.lit ['א']] :=
  ⟨by decide, (printer_translate_without_escape [0x41, 0x01, 0x0D, 0x0A, 0x80] (by decide)).1⟩

set_option maxRecDepth 100000 in
/-- C3 as stated fails on a doubled line break: the four bytes 0D 0A 0D 0A
hold no 0x1B and all have a non-empty glyph, yet `translate` returns two
tokens, not four. -/
theorem translate_drops_repeated_line_break :
    (∀ b ∈ ([0x0D, 0x0A, 0x0D, 0x0A] : List Byte), b ≠ 0x1B) ∧
      translate [0x0D, 0x0A, 0x0D, 0x0A] = some [Token.lit ['\r'], Token.lit ['\n']] ∧
      literalTokens [0x0D, 0x0A, 0x0D, 0x0A] =
        [Token.lit ['\r'], Token.lit ['\n'], Token.lit ['\r'], Token.lit ['\n']] ∧
      translate [0x0D, 0x0A, 0x0D, 0x0A] ≠ some (literalTokens [0x0D, 0x0A, 0x0D, 0x0A]) := by
  decide

end Printer

/-! ## Decoding of escape arguments -/

theorem split_no_separator (sep : Char) :
    ∀ s : JsString, (∀ c ∈ s, c ≠ sep) → split sep s = [s] := by
  intro s
  induction s with
  | nil => intro _; rfl
  | cons c t ih =>
    intro h
    have hc : c ≠ sep := h c (List.mem_cons_self _ _)
    simp only [split, if_neg hc]
    rw [ih (fun d hd => h d (List.mem_cons_of_mem _ hd))]

theorem split_ne_nil (sep : Char) : ∀ s : JsString, split sep s ≠ [] := by
  intro s
  induction s with
  | nil => simp [split]
  | cons c t ih =>
    simp only [split]
    split
    · simp
    · split <;> simp

theorem split_append_separator (sep : Char) :
    ∀ (a b : JsString), (∀ c ∈ a, c ≠ sep) →
      split sep (a ++ sep :: b) = a :: split sep b := by
  intro a
  induction a with
  | nil => intro b _; simp [split]
  | cons c t ih =>
    intro b h
    have hc : c ≠ sep := h c (List.mem_cons_self _ _)
    rw [List.cons_append, split, if_neg hc, ih b (fun d hd => h d (List.mem_cons_of_mem _ hd))]

theorem leadingDigits_decimal :
    ∀ ds : JsString, (∀ c ∈ ds, 48 ≤ c.toNat ∧ c.toNat ≤ 57) →
      leadingDigits 10 ds = ds.map (fun c => c.toNat - 48) := by
  intro ds
  induction ds with
  | nil => intro _; rfl
  | cons c t ih =>
    intro h
    have hc := h c (List.mem_cons_self _ _)
    have hv : digitValue 10 c = some (c.toNat - 48) := by
      unfold digitValue
      simp only [hc, and_self, if_true]
      rw [if_pos (by omega)]
    simp only [leadingDigits, hv, List.map_cons]
    rw [ih (fun d hd => h d (List.mem_cons_of_mem _ hd))]

theorem parseInt_nil : parseInt [] = none := by decide

theorem decimal_not_special (c : Char) (hc : 48 ≤ c.toNat ∧ c.toNat ≤ 57) :
    isJsWhiteSpace c = false ∧ c ≠ '-' ∧ c ≠ '+' ∧ c ≠ 'x' ∧ c ≠ 'X' := by
  refine ⟨?_, ?_, ?_, ?_, ?_⟩
  · unfold isJsWhiteSpace
    rw [decide_eq_false_iff_not]
    intro hmem
    simp only [List.mem_cons, List.mem_singleton, List.not_mem_nil, or_false] at hmem
    omega
  all_goals
    intro h
    subst h
    revert hc
    decide

theorem parseSign_decimal (c : Char) (t : JsString) (hc : 48 ≤ c.toNat ∧ c.toNat ≤ 57) :
    parseSign (c :: t) = (1, c :: t) := by
  obtain ⟨_, hm, hp, _, _⟩ := decimal_not_special c hc
  unfold parseSign
  split
  · rename_i heq; simp at heq; exact absurd heq.1 hm
  · rename_i heq; simp at heq; exact absurd heq.1 hp
  · rfl

theorem parseRadix_decimal (s : JsString) (hd : ∀ c ∈ s, 48 ≤ c.toNat ∧ c.toNat ≤ 57) :
    parseRadix s = (10, s) := by
  unfold parseRadix
  split
  · have := hd 'x' (by simp)
    exact absurd this (by decide)
  · have := hd 'X' (by simp)
    exact absurd this (by decide)
  · rfl

theorem parseInt_decimal (ds : JsString) (h : DecimalArgument ds) :
    parseInt ds = some (decimalValue ds) := by
  obtain ⟨hne, _, hd⟩ := h
  cases ds with
  | nil => exact absurd rfl hne
  | cons c t =>
    have hc := hd c (List.mem_cons_self _ _)
    have hw := (decimal_not_special c hc).1
    have h1 : (c :: t).dropWhile isJsWhiteSpace = c :: t := by
      simp [List.dropWhile, hw]
    unfold parseInt
    simp only [h1, parseSign_decimal c t hc, parseRadix_decimal (c :: t) hd]
    rw [leadingDigits_decimal _ hd]
    simp only [List.map_cons, one_mul]
    unfold decimalValue
    congr 2
    simp only [List.foldl_cons, List.foldl_map]

theorem substring_arguments (i1 i2 f : Char) (body : JsString) :
    substring (i1 :: i2 :: (body ++ [f])) 2
      (((i1 :: i2 :: (body ++ [f])).length : Int) - 1) = body := by
  unfold substring
  have hlen : (i1 :: i2 :: (body ++ [f])).length = body.length + 3 := by simp
  rw [hlen]
  have ha : (max (0 : Int) (min 2 ((body.length + 3 : Nat) : Int))).toNat = 2 := by omega
  have hb : (max (0 : Int) (min (((body.length + 3 : Nat) : Int) - 1)
      ((body.length + 3 : Nat) : Int))).toNat = body.length + 2 := by omega
  simp only [ha, hb]
  have h1 : min 2 (body.length + 2) = 2 := by omega
  have h2 : max 2 (body.length + 2) - 2 = body.length := by omega
  rw [h1, h2]
  simp

namespace Ansi

theorem new_bracket (body : JsString) (f : Char) :
    AnsiEscape.new ('←' :: '[' :: (body ++ [f])) =
      { rawString := '←' :: '[' :: (body ++ [f])
        _arguments := if body ≠ [] then (split ';' body).filterMap parseInt else []
        raw_arguments := body
        _function := some f } := by
  unfold AnsiEscape.new
  simp only [substring_arguments]
  congr 1
  have e : ('←' :: '[' :: (body ++ [f]) : JsString) = ('←' :: '[' :: body) ++ [f] := by simp
  rw [e, List.getLast?_append]
  simp


/-- C4 (the code at ESC [ H): the span has no argument, the getter `args`
reaches `this._raw_arguments.length` with `_raw_arguments` undefined and
raises a `TypeError` instead of returning `[1, 1]`, and `parse` ends with
that exception instead of placing the cursor at row 0, column 0. -/
theorem args_cursor_position_without_arguments :
    translate [0x1B, 0x5B, 0x48] = some [.esc (.new ['←', '[', 'H'])] ∧
      (AnsiEscape.new ['←', '[', 'H'])._arguments = [] ∧
      (AnsiEscape.new ['←', '[', 'H']).func = some CURSOR_POSITION ∧
      (AnsiEscape.new ['←', '[', 'H']).args = .error .typeError ∧
      ∀ terminal, parse [.esc (.new ['←', '[', 'H'])] terminal = .error .typeError :=
  ⟨by decide, rfl, rfl, rfl, fun _ => rfl⟩

theorem arguments_single (body : JsString) (v : JsString) (hv : DecimalArgument v)
    (hbody : body = ';' :: v ∨ body = v ++ [';']) :
    (if body ≠ [] then (split ';' body).filterMap parseInt else []) = [decimalValue v] := by
  have hsep : ∀ c ∈ v, c ≠ ';' := by
    intro c hc h
    subst h
    exact absurd (hv.2.2 ';' hc) (by decide)
  rcases hbody with h | h
  · subst h
    rw [if_pos (by simp)]
    have : split ';' (';' :: v) = [] :: split ';' v := by simp [split]
    rw [this, split_no_separator ';' v hsep]
    simp [parseInt_nil, parseInt_decimal v hv]
  · subst h
    rw [if_pos (by simp)]
    rw [split_append_separator ';' v [] hsep]
    simp [split, parseInt_nil, parseInt_decimal v hv]

/-- C5 (the code at a lone argument): for every decimal argument `v` the spans
ESC [ ; v H and ESC [ v ; H decode to the one-element argument list `[v]`, and
the getter `args` raises a `TypeError` for both instead of returning `[1, v]`
and `[v, 1]`. -/
theorem args_cursor_position_single_argument (v : JsString) (hv : DecimalArgument v) :
    (AnsiEscape.new ('←' :: '[' :: ((';' :: v) ++ ['H'])))._arguments = [decimalValue v] ∧
      (AnsiEscape.new ('←' :: '[' :: ((';' :: v) ++ ['H']))).args = .error .typeError ∧
      (AnsiEscape.new ('←' :: '[' :: ((v ++ [';']) ++ ['H'])))._arguments = [decimalValue v] ∧
      (AnsiEscape.new ('←' :: '[' :: ((v ++ [';']) ++ ['H']))).args = .error .typeError := by
  rw [new_bracket, new_bracket]
  have e1 := arguments_single (';' :: v) v hv (Or.inl rfl)
  have e2 := arguments_single (v ++ [';']) v hv (Or.inr rfl)
  refine ⟨e1, ?_, e2, ?_⟩
  · unfold AnsiEscape.args
    simp only [e1]
    rfl
  · unfold AnsiEscape.args
    simp only [e2]
    rfl

/-- The spans ESC [ ; 5 H and ESC [ 5 ; H. -/
theorem args_cursor_position_single_argument_witness :
    DecimalArgument ['5'] ∧
      (AnsiEscape.new ['←', '[', ';', '5', 'H']).args = .error .typeError ∧
      (AnsiEscape.new ['←', '[', '5', ';', 'H']).args = .error .typeError :=
  ⟨by decide,
   (args_cursor_position_single_argument ['5'] (by decide)).2.1,
   (args_cursor_position_single_argument ['5'] (by decide)).2.2.2⟩

end Ansi

namespace Ansi

theorem arguments_pair (rs cs : JsString) (hr : DecimalArgument rs) (hc : DecimalArgument cs) :
    (if rs ++ ';' :: cs ≠ [] then (split ';' (rs ++ ';' :: cs)).filterMap parseInt else []) =
      [decimalValue rs, decimalValue cs] := by
  have hsep : ∀ (v : JsString), DecimalArgument v → ∀ c ∈ v, c ≠ ';' := by
    intro v hv c hc h
    subst h
    exact absurd (hv.2.2 ';' hc) (by decide)
  rw [if_pos (by simp)]
  rw [split_append_separator ';' rs cs (hsep rs hr), split_no_separator ';' cs (hsep cs hc)]
  simp [parseInt_decimal rs hr, parseInt_decimal cs hc]

/-- C6: for every span ESC [ r ; c H whose `r` and `c` are decimal integers
(one to fifteen digits, so that `parseInt` is exact; the tokenizer delivers at
most four), the getter `args` returns `[r, c]` and `parse` sets the cursor of
any Terminal to row `r - 1`, column `c - 1`; the bytes of ESC [ 5 ; 1 0 H are
tokenized as one such escape and put the cursor at row 4, column 9. -/
theorem cursor_position_two_arguments (rs cs : JsString)
    (hr : DecimalArgument rs) (hc : DecimalArgument cs) (terminal : Terminal) :
    (AnsiEscape.new ('←' :: '[' :: ((rs ++ ';' :: cs) ++ ['H']))).args =
        .ok (.arr [decimalValue rs, decimalValue cs]) ∧
      (∃ result,
        parse [.esc (.new ('←' :: '[' :: ((rs ++ ';' :: cs) ++ ['H'])))] terminal = .ok result ∧
          result = terminal.setCurrentPosition (decimalValue rs - 1) (decimalValue cs - 1) ∧
          result.row = decimalValue rs - 1 ∧ result.col = decimalValue cs - 1) ∧
      (∃ tokens result,
        translate [0x1B, 0x5B, 0x35, 0x3B, 0x31, 0x30, 0x48] = some tokens ∧
          tokens = [.esc (.new ['←', '[', '5', ';', '1', '0', 'H'])] ∧
          parse tokens terminal = .ok result ∧ result.row = 4 ∧ result.col = 9) := by
  have hargs : (AnsiEscape.new ('←' :: '[' :: ((rs ++ ';' :: cs) ++ ['H']))).args =
      .ok (.arr [decimalValue rs, decimalValue cs]) := by
    rw [new_bracket]
    unfold AnsiEscape.args
    simp only [arguments_pair rs cs hr hc]
    rfl
  have hfunc : (AnsiEscape.new ('←' :: '[' :: ((rs ++ ';' :: cs) ++ ['H']))).func =
      some CURSOR_POSITION := by
    rw [new_bracket]
    rfl
  refine ⟨hargs, ⟨_, ?_, rfl, rfl, rfl⟩, ⟨_, _, by decide, rfl, rfl, rfl, rfl⟩⟩
  simp only [parse, parseStep, hfunc, hargs]
  rfl

/-- The span ESC [ 1 2 ; 0 7 H on a fresh Terminal of width 80. -/
theorem cursor_position_two_arguments_witness :
    DecimalArgument ['1', '2'] ∧ DecimalArgument ['0', '7'] ∧
      (AnsiEscape.new ['←', '[', '1', '2', ';', '0', '7', 'H']).args = .ok (.arr [12, 7]) :=
  ⟨by decide, by decide,
   (cursor_position_two_arguments ['1', '2'] ['0', '7'] (by decide) (by decide)
     (Terminal.new 80)).1⟩

end Ansi

namespace Ansi

/-- C7 (the code at ESC [ H): the three bytes 1B 5B 48 are tokenized as one
escape, and `parse` of that token list ends with a `TypeError` on a fresh
Terminal of any width, so interpretation does not run to the end of the list;
a literal after the escape is never written.  Likewise ESC [ 0 ; 0 H followed
by a letter: the cursor goes to row -1 and `write` raises on `tiles[-1]`. -/
theorem parse_translate_raises :
    (∃ tokens, translate [0x1B, 0x5B, 0x48, 0x41] = some tokens ∧
      tokens = [.esc (.new ['←', '[', 'H']), .lit 'A'] ∧
      ∀ width, parse tokens (Terminal.new width) = .error .typeError) ∧
    (∃ tokens, translate [0x1B, 0x5B, 0x30, 0x3B, 0x30, 0x48, 0x41] = some tokens ∧
      tokens = [.esc (.new ['←', '[', '0', ';', '0', 'H']), .lit 'A'] ∧
      ∀ width, parse tokens (Terminal.new width) = .error .typeError) :=
  ⟨⟨_, by decide, rfl, fun _ => rfl⟩, ⟨_, by decide, rfl, fun _ => rfl⟩⟩

end Ansi

/-! ## The cursor under `write` -/

namespace Ansi

theorem tileAt_growTiles (t : Terminal) (h : 0 ≤ t.row) :
    ∃ canvas, tileAt t.growTiles t.row = some canvas := by
  unfold tileAt
  rw [if_neg (by omega)]
  have hlen : t.row.toNat < t.growTiles.length := by
    unfold Terminal.growTiles
    rw [List.length_append, List.length_replicate]
    omega
  exact ⟨t.growTiles[t.row.toNat], List.getElem?_eq_getElem hlen⟩

/-- What `write` does with a glyph that is neither a line break nor a no-op. -/
theorem write_ordinary (t : Terminal) (g : Char) (hrow : 0 ≤ t.row)
    (hg : g ≠ '\n' ∧ g ≠ '\r' ∧ g ≠ '♣') :
    ∃ t1, t.write g = .ok t1 ∧ t1.terminalWidth = t.terminalWidth ∧
      t1.foreground = t.foreground ∧ t1.background = t.background ∧ t1.bold = t.bold ∧
      t1.saved_row = t.saved_row ∧ t1.saved_col = t.saved_col ∧
      (t.col + 1 ≠ t.terminalWidth →
        t1.row = t.row ∧ t1.col = t.col + 1 ∧ t1.skipNextNewline = false) ∧
      (t.col + 1 = t.terminalWidth →
        t1.row = t.row + 1 ∧ t1.col = 0 ∧ t1.skipNextNewline = true) := by
  obtain ⟨canvas, hcanvas⟩ := tileAt_growTiles t hrow
  unfold Terminal.write
  simp only [hcanvas, if_neg hg.1, hg.2.1, hg.2.2, false_or, if_false]
  by_cases hw : t.col + 1 = t.terminalWidth
  · rw [if_pos hw]
    exact ⟨_, rfl, rfl, rfl, rfl, rfl, rfl, rfl, fun h => absurd hw h, fun _ => ⟨rfl, rfl, rfl⟩⟩
  · rw [if_neg hw]
    exact ⟨_, rfl, rfl, rfl, rfl, rfl, rfl, rfl, fun _ => ⟨rfl, rfl, rfl⟩, fun h => absurd h hw⟩

/-- What `write` does with a line break. -/
theorem write_newline (t : Terminal) (hrow : 0 ≤ t.row) :
    ∃ t1, t.write '\n' = .ok t1 ∧ t1.terminalWidth = t.terminalWidth ∧
      t1.skipNextNewline = t.skipNextNewline ∧
      (t.skipNextNewline = true → t1.row = t.row ∧ t1.col = t.col) ∧
      (t.skipNextNewline = false → t1.row = t.row + 1 ∧ t1.col = 0) := by
  obtain ⟨canvas, hcanvas⟩ := tileAt_growTiles t hrow
  unfold Terminal.write
  simp only [hcanvas, if_true]
  cases hs : t.skipNextNewline
  · exact ⟨_, rfl, rfl, rfl, fun h => by simp at h, fun _ => ⟨rfl, rfl⟩⟩
  · exact ⟨_, rfl, rfl, rfl, fun _ => ⟨rfl, rfl⟩, fun h => by simp at h⟩


theorem writeAll_append (xs ys : List Char) :
    ∀ (t t1 : Terminal), writeAll xs t = .ok t1 → writeAll (xs ++ ys) t = writeAll ys t1 := by
  induction xs with
  | nil =>
    intro t t1 h
    simp only [writeAll, Except.ok.injEq] at h
    subst h
    rfl
  | cons g rest ih =>
    intro t t1 h
    simp only [writeAll, List.cons_append] at h ⊢
    cases hw : t.write g with
    | error err => rw [hw] at h; cases h
    | ok t2 =>
      rw [hw] at h
      simp only
      exact ih t2 t1 h

/-- Writing ordinary glyphs that do not reach the last column stays on the row. -/
theorem writeAll_within_line :
    ∀ (gs : List Char) (t : Terminal), 0 ≤ t.row → 0 ≤ t.col →
      t.col + gs.length < t.terminalWidth → (∀ g ∈ gs, g ≠ '\n' ∧ g ≠ '\r' ∧ g ≠ '♣') →
      ∃ t1, writeAll gs t = .ok t1 ∧ t1.terminalWidth = t.terminalWidth ∧
        t1.row = t.row ∧ t1.col = t.col + gs.length := by
  intro gs
  induction gs with
  | nil =>
    intro t _ _ _ _
    exact ⟨t, rfl, rfl, rfl, by simp⟩
  | cons g rest ih =>
    intro t hrow hcol hlen hord
    simp only [List.length_cons, Nat.cast_add, Nat.cast_one] at hlen
    obtain ⟨t1, hw, hwidth, _, _, _, _, _, hstay, _⟩ :=
      write_ordinary t g hrow (hord g (List.mem_cons_self _ _))
    obtain ⟨h1, h2, _⟩ := hstay (by omega)
    obtain ⟨t2, hw2, hwidth2, hrow2, hcol2⟩ :=
      ih t1 (by omega) (by omega) (by rw [h2, hwidth]; omega)
        (fun d hd => hord d (List.mem_cons_of_mem _ hd))
    refine ⟨t2, ?_, by rw [hwidth2, hwidth], by rw [hrow2, h1], ?_⟩
    · simp only [writeAll, hw]
      exact hw2
    · rw [hcol2, h2]
      simp only [List.length_cons, Nat.cast_add, Nat.cast_one]
      omega

/-- A full line written on a fresh Terminal: the cursor has wrapped to row 1,
column 0, and the flag is set. -/
theorem writeAll_full_line (w : Nat) (hw : 1 ≤ w) (gs : List Char) (hlen : gs.length = w)
    (hord : ∀ g ∈ gs, g ≠ '\n' ∧ g ≠ '\r' ∧ g ≠ '♣') :
    ∃ t1, writeAll gs (Terminal.new w) = .ok t1 ∧ t1.terminalWidth = w ∧
      t1.row = 1 ∧ t1.col = 0 ∧ t1.skipNextNewline = true := by
  have hne : gs ≠ [] := by
    intro h
    rw [h] at hlen
    simp at hlen
    omega
  obtain ⟨front, last, hsplit⟩ : ∃ front last, gs = front ++ [last] :=
    ⟨gs.dropLast, gs.getLast hne, (List.dropLast_append_getLast hne).symm⟩
  subst hsplit
  simp only [List.length_append, List.length_singleton] at hlen
  obtain ⟨t1, h1, hwidth1, hrow1, hcol1⟩ :=
    writeAll_within_line front (Terminal.new w) (le_refl _) (le_refl _)
      (by
        show (0 : Int) + front.length < (w : Int)
        omega)
      (fun g hg => hord g (List.mem_append_left _ hg))
  have hrow1' : t1.row = 0 := hrow1
  have hcol1' : t1.col = front.length := by
    rw [hcol1]
    show (0 : Int) + front.length = front.length
    omega
  have hwidth1' : t1.terminalWidth = w := hwidth1
  obtain ⟨t2, h2, hwidth2, _, _, _, _, _, _, hwrap⟩ :=
    write_ordinary t1 last (by omega) (hord last (by simp))
  obtain ⟨hr, hc, hs⟩ := hwrap (by rw [hcol1', hwidth1']; omega)
  refine ⟨t2, ?_, by rw [hwidth2, hwidth1'], by rw [hr, hrow1']; rfl, hc, hs⟩
  rw [writeAll_append front [last] _ t1 h1]
  simp only [writeAll, h2]

end Ansi

namespace Printer

theorem printer_tileAt_growTiles (t : Terminal) (h : 0 ≤ t.row) :
    ∃ canvas, tileAt t.growTiles t.row = some canvas := by
  unfold tileAt
  rw [if_neg (by omega)]
  have hlen : t.row.toNat < t.growTiles.length := by
    unfold Terminal.growTiles
    rw [List.length_append, List.length_replicate]
    omega
  exact ⟨t.growTiles[t.row.toNat], List.getElem?_eq_getElem hlen⟩

/-- What `write` does with a glyph that is neither a line break nor a no-op. -/
theorem printer_write_ordinary (t : Terminal) (g : JsString) (hrow : 0 ≤ t.row)
    (hg : g ≠ ['\n'] ∧ g ≠ ['\r']) :
    ∃ t1, t.write g = .ok t1 ∧ t1.terminalWidth = t.terminalWidth ∧
      t1.foreground = t.foreground ∧ t1.background = t.background ∧ t1.bold = t.bold ∧
      t1.underline = t.underline ∧ t1.subscript = t.subscript ∧
      (t.col + 1 ≠ t.terminalWidth →
        t1.row = t.row ∧ t1.col = t.col + 1 ∧ t1.skipNextNewline = false) ∧
      (t.col + 1 = t.terminalWidth →
        t1.row = t.row + 1 ∧ t1.col = 0 ∧ t1.skipNextNewline = true) := by
  obtain ⟨canvas, hcanvas⟩ := printer_tileAt_growTiles t hrow
  unfold Terminal.write
  simp only [hcanvas, if_neg hg.1, if_neg hg.2]
  by_cases hw : t.col + 1 = t.terminalWidth
  · rw [if_pos hw]
    exact ⟨_, rfl, rfl, rfl, rfl, rfl, rfl, rfl, fun h => absurd hw h, fun _ => ⟨rfl, rfl, rfl⟩⟩
  · rw [if_neg hw]
    exact ⟨_, rfl, rfl, rfl, rfl, rfl, rfl, rfl, fun _ => ⟨rfl, rfl, rfl⟩, fun h => absurd h hw⟩

/-- What `write` does with a line break. -/
theorem printer_write_newline (t : Terminal) (hrow : 0 ≤ t.row) :
    ∃ t1, t.write ['\n'] = .ok t1 ∧ t1.terminalWidth = t.terminalWidth ∧
      t1.skipNextNewline = t.skipNextNewline ∧
      (t.skipNextNewline = true → t1.row = t.row ∧ t1.col = t.col) ∧
      (t.skipNextNewline = false → t1.row = t.row + 1 ∧ t1.col = 0) := by
  obtain ⟨canvas, hcanvas⟩ := printer_tileAt_growTiles t hrow
  unfold Terminal.write
  simp only [hcanvas, if_true]
  cases hs : t.skipNextNewline
  · exact ⟨_, rfl, rfl, rfl, fun h => by simp at h, fun _ => ⟨rfl, rfl⟩⟩
  · exact ⟨_, rfl, rfl, rfl, fun _ => ⟨rfl, rfl⟩, fun h => by simp at h⟩


theorem printer_writeAll_append (xs ys : List JsString) :
    ∀ (t t1 : Terminal), writeAll xs t = .ok t1 → writeAll (xs ++ ys) t = writeAll ys t1 := by
  induction xs with
  | nil =>
    intro t t1 h
    simp only [writeAll, Except.ok.injEq] at h
    subst h
    rfl
  | cons g rest ih =>
    intro t t1 h
    simp only [writeAll, List.cons_append] at h ⊢
    cases hw : t.write g with
    | error err => rw [hw] at h; cases h
    | ok t2 =>
      rw [hw] at h
      simp only
      exact ih t2 t1 h

/-- Writing ordinary glyphs that do not reach the last column stays on the row. -/
theorem printer_writeAll_within_line :
    ∀ (gs : List JsString) (t : Terminal), 0 ≤ t.row → 0 ≤ t.col →
      t.col + gs.length < t.terminalWidth → (∀ g ∈ gs, g ≠ ['\n'] ∧ g ≠ ['\r']) →
      ∃ t1, writeAll gs t = .ok t1 ∧ t1.terminalWidth = t.terminalWidth ∧
        t1.row = t.row ∧ t1.col = t.col + gs.length := by
  intro gs
  induction gs with
  | nil =>
    intro t _ _ _ _
    exact ⟨t, rfl, rfl, rfl, by simp⟩
  | cons g rest ih =>
    intro t hrow hcol hlen hord
    simp only [List.length_cons, Nat.cast_add, Nat.cast_one] at hlen
    obtain ⟨t1, hw, hwidth, _, _, _, _, _, hstay, _⟩ :=
      printer_write_ordinary t g hrow (hord g (List.mem_cons_self _ _))
    obtain ⟨h1, h2, _⟩ := hstay (by omega)
    obtain ⟨t2, hw2, hwidth2, hrow2, hcol2⟩ :=
      ih t1 (by omega) (by omega) (by rw [h2, hwidth]; omega)
        (fun d hd => hord d (List.mem_cons_of_mem _ hd))
    refine ⟨t2, ?_, by rw [hwidth2, hwidth], by rw [hrow2, h1], ?_⟩
    · simp only [writeAll, hw]
      exact hw2
    · rw [hcol2, h2]
      simp only [List.length_cons, Nat.cast_add, Nat.cast_one]
      omega

/-- A full line written on a fresh Terminal: the cursor has wrapped to row 1,
column 0, and the flag is set. -/
theorem printer_writeAll_full_line (w : Nat) (hw : 1 ≤ w) (gs : List JsString) (hlen : gs.length = w)
    (hord : ∀ g ∈ gs, g ≠ ['\n'] ∧ g ≠ ['\r']) :
    ∃ t1, writeAll gs (Terminal.new w) = .ok t1 ∧ t1.terminalWidth = w ∧
      t1.row = 1 ∧ t1.col = 0 ∧ t1.skipNextNewline = true := by
  have hne : gs ≠ [] := by
    intro h
    rw [h] at hlen
    simp at hlen
    omega
  obtain ⟨front, last, hsplit⟩ : ∃ front last, gs = front ++ [last] :=
    ⟨gs.dropLast, gs.getLast hne, (List.dropLast_append_getLast hne).symm⟩
  subst hsplit
  simp only [List.length_append, List.length_singleton] at hlen
  obtain ⟨t1, h1, hwidth1, hrow1, hcol1⟩ :=
    printer_writeAll_within_line front (Terminal.new w) (le_refl _) (le_refl _)
      (by
        show (0 : Int) + front.length < (w : Int)
        omega)
      (fun g hg => hord g (List.mem_append_left _ hg))
  have hrow1' : t1.row = 0 := hrow1
  have hcol1' : t1.col = front.length := by
    rw [hcol1]
    show (0 : Int) + front.length = front.length
    omega
  have hwidth1' : t1.terminalWidth = w := hwidth1
  obtain ⟨t2, h2, hwidth2, _, _, _, _, _, _, hwrap⟩ :=
    printer_write_ordinary t1 last (by omega) (hord last (by simp))
  obtain ⟨hr, hc, hs⟩ := hwrap (by rw [hcol1', hwidth1']; omega)
  refine ⟨t2, ?_, by rw [hwidth2, hwidth1'], by rw [hr, hrow1']; rfl, hc, hs⟩
  rw [printer_writeAll_append front [last] _ t1 h1]
  simp only [writeAll, h2]

end Printer

/-- C8: on a freshly constructed Terminal of width `w >= 1` (of `hTXT.js` and
of `hTXT_Printer.js` alike), which starts at row 0, column 0 with the
suppress-next-newline flag clear, writing exactly `w` ordinary glyphs and then
one line break leaves the cursor at row 1, column 0.  The row is advanced by
the wrap and not by the line break: all glyphs but the last leave the cursor
on row 0 at column `w - 1`, the last glyph moves it to row 1, column 0 and
sets the flag, and the line break written in that state returns a state with
the same row and column.  One row in total, not two. -/
theorem full_line_then_newline (w : Nat) (hw : 1 ≤ w) :
    (∀ gs : List Char, gs.length = w → (∀ g ∈ gs, g ≠ '\n' ∧ g ≠ '\r' ∧ g ≠ '♣') →
      (Ansi.Terminal.new w).row = 0 ∧ (Ansi.Terminal.new w).col = 0 ∧
      (Ansi.Terminal.new w).skipNextNewline = false ∧
      ∃ t0 t1 t,
        Ansi.writeAll gs.dropLast (Ansi.Terminal.new w) = .ok t0 ∧
        t0.row = 0 ∧ t0.col = (w : Int) - 1 ∧
        Ansi.writeAll gs (Ansi.Terminal.new w) = .ok t1 ∧
        t1.row = 1 ∧ t1.col = 0 ∧ t1.skipNextNewline = true ∧
        t1.write '\n' = .ok t ∧
        Ansi.writeAll (gs ++ ['\n']) (Ansi.Terminal.new w) = .ok t ∧
        t.row = 1 ∧ t.col = 0) ∧
    (∀ gs : List JsString, gs.length = w → (∀ g ∈ gs, g ≠ ['\n'] ∧ g ≠ ['\r']) →
      (Printer.Terminal.new w).row = 0 ∧ (Printer.Terminal.new w).col = 0 ∧
      (Printer.Terminal.new w).skipNextNewline = false ∧
      ∃ t0 t1 t,
        Printer.writeAll gs.dropLast (Printer.Terminal.new w) = .ok t0 ∧
        t0.row = 0 ∧ t0.col = (w : Int) - 1 ∧
        Printer.writeAll gs (Printer.Terminal.new w) = .ok t1 ∧
        t1.row = 1 ∧ t1.col = 0 ∧ t1.skipNextNewline = true ∧
        t1.write ['\n'] = .ok t ∧
        Printer.writeAll (gs ++ [['\n']]) (Printer.Terminal.new w) = .ok t ∧
        t.row = 1 ∧ t.col = 0) := by
  constructor
  · intro gs hlen hord
    refine ⟨rfl, rfl, rfl, ?_⟩
    obtain ⟨t0, h0, _, hrow0, hcol0⟩ :=
      Ansi.writeAll_within_line gs.dropLast (Ansi.Terminal.new w) (le_refl _) (le_refl _)
        (by
          show (0 : Int) + gs.dropLast.length < (w : Int)
          rw [List.length_dropLast, hlen]
          omega)
        (fun g hg => hord g (List.mem_of_mem_dropLast hg))
    obtain ⟨t1, h1, _, hrow, hcol, hskip⟩ := Ansi.writeAll_full_line w hw gs hlen hord
    obtain ⟨t2, h2, _, _, hstay, _⟩ := Ansi.write_newline t1 (by omega)
    obtain ⟨hr, hc⟩ := hstay hskip
    refine ⟨t0, t1, t2, h0, hrow0, ?_, h1, hrow, hcol, hskip, h2, ?_, by rw [hr, hrow],
      by rw [hc, hcol]⟩
    · rw [hcol0]
      show (0 : Int) + gs.dropLast.length = (w : Int) - 1
      rw [List.length_dropLast, hlen]
      omega
    · rw [Ansi.writeAll_append gs _ _ t1 h1]
      simp only [Ansi.writeAll, h2]
  · intro gs hlen hord
    refine ⟨rfl, rfl, rfl, ?_⟩
    obtain ⟨t0, h0, _, hrow0, hcol0⟩ :=
      Printer.printer_writeAll_within_line gs.dropLast (Printer.Terminal.new w) (le_refl _)
        (le_refl _)
        (by
          show (0 : Int) + gs.dropLast.length < (w : Int)
          rw [List.length_dropLast, hlen]
          omega)
        (fun g hg => hord g (List.mem_of_mem_dropLast hg))
    obtain ⟨t1, h1, _, hrow, hcol, hskip⟩ := Printer.printer_writeAll_full_line w hw gs hlen hord
    obtain ⟨t2, h2, _, _, hstay, _⟩ := Printer.printer_write_newline t1 (by omega)
    obtain ⟨hr, hc⟩ := hstay hskip
    refine ⟨t0, t1, t2, h0, hrow0, ?_, h1, hrow, hcol, hskip, h2, ?_, by rw [hr, hrow],
      by rw [hc, hcol]⟩
    · rw [hcol0]
      show (0 : Int) + gs.dropLast.length = (w : Int) - 1
      rw [List.length_dropLast, hlen]
      omega
    · rw [Printer.printer_writeAll_append gs _ _ t1 h1]
      simp only [Printer.writeAll, h2]

/-- Width 3 and the line `abc`: after `ab` the cursor is on row 0 at column 2,
after `abc` on row 1 at column 0 with the flag set, and the line break leaves
it there. -/
theorem full_line_then_newline_witness :
    (1 ≤ 3) ∧
      (∃ t0 t1 t,
        Ansi.writeAll ['a', 'b'] (Ansi.Terminal.new (3 : Nat)) = .ok t0 ∧
        t0.row = 0 ∧ t0.col = 2 ∧
        Ansi.writeAll ['a', 'b', 'c'] (Ansi.Terminal.new (3 : Nat)) = .ok t1 ∧
        t1.row = 1 ∧ t1.col = 0 ∧ t1.skipNextNewline = true ∧
        t1.write '\n' = .ok t ∧
        Ansi.writeAll (['a', 'b', 'c'] ++ ['\n']) (Ansi.Terminal.new (3 : Nat)) = .ok t ∧
        t.row = 1 ∧ t.col = 0) ∧
      (∃ t0 t1 t,
        Printer.writeAll [['a'], ['b']] (Printer.Terminal.new (3 : Nat)) = .ok t0 ∧
        t0.row = 0 ∧ t0.col = 2 ∧
        Printer.writeAll [['a'], ['b'], ['c']] (Printer.Terminal.new (3 : Nat)) = .ok t1 ∧
        t1.row = 1 ∧ t1.col = 0 ∧ t1.skipNextNewline = true ∧
        t1.write ['\n'] = .ok t ∧
        Printer.writeAll ([['a'], ['b'], ['c']] ++ [['\n']])
          (Printer.Terminal.new (3 : Nat)) = .ok t ∧
        t.row = 1 ∧ t.col = 0) :=
  ⟨by decide,
   ((full_line_then_newline 3 (by decide)).1 ['a', 'b', 'c'] rfl (by decide)).2.2.2,
   ((full_line_then_newline 3 (by decide)).2 [['a'], ['b'], ['c']] rfl (by decide)).2.2.2⟩

theorem Ansi.newlines_after_wrap :
    ∀ (n : Nat) (t : Ansi.Terminal), 0 ≤ t.row → t.skipNextNewline = true →
      ∃ t1, Ansi.writeAll (List.replicate n '\n') t = .ok t1 ∧
        t1.row = t.row ∧ t1.col = t.col ∧ t1.skipNextNewline = true := by
  intro n
  induction n with
  | zero => intro t _ hs; exact ⟨t, rfl, rfl, rfl, hs⟩
  | succ n ih =>
    intro t hrow hs
    obtain ⟨t1, h1, _, hflag, hstay, _⟩ := Ansi.write_newline t hrow
    obtain ⟨hr, hc⟩ := hstay hs
    obtain ⟨t2, h2, hr2, hc2, hs2⟩ := ih t1 (by omega) (by rw [hflag, hs])
    refine ⟨t2, ?_, by rw [hr2, hr], by rw [hc2, hc], hs2⟩
    simp only [List.replicate_succ, Ansi.writeAll, h1]
    exact h2

theorem Printer.printer_newlines_after_wrap :
    ∀ (n : Nat) (t : Printer.Terminal), 0 ≤ t.row → t.skipNextNewline = true →
      ∃ t1, Printer.writeAll (List.replicate n ['\n']) t = .ok t1 ∧
        t1.row = t.row ∧ t1.col = t.col ∧ t1.skipNextNewline = true := by
  intro n
  induction n with
  | zero => intro t _ hs; exact ⟨t, rfl, rfl, rfl, hs⟩
  | succ n ih =>
    intro t hrow hs
    obtain ⟨t1, h1, _, hflag, hstay, _⟩ := Printer.printer_write_newline t hrow
    obtain ⟨hr, hc⟩ := hstay hs
    obtain ⟨t2, h2, hr2, hc2, hs2⟩ := ih t1 (by omega) (by rw [hflag, hs])
    refine ⟨t2, ?_, by rw [hr2, hr], by rw [hc2, hc], hs2⟩
    simp only [List.replicate_succ, Printer.writeAll, h1]
    exact h2

/-- C9 as stated fails: on a Terminal of width 1 the glyph `a` fills the line
and sets the flag; the line break after it leaves the flag set, and a second
line break leaves the cursor on row 1 instead of advancing it to row 2.  And
not every state admits the call: at row -1 `write("\n")` raises. -/
theorem newline_does_not_clear_flag :
    (∃ t t1 t2, Ansi.writeAll ['a'] (Ansi.Terminal.new 1) = .ok t ∧
      t.row = 1 ∧ t.col = 0 ∧ t.skipNextNewline = true ∧
      t.write '\n' = .ok t1 ∧ t1.skipNextNewline = true ∧
      t1.write '\n' = .ok t2 ∧ t2.row = 1 ∧ t2.col = 0) ∧
    ((Ansi.Terminal.new 1).setCurrentPosition (-1) 0).write '\n' = .error .typeError :=
  ⟨⟨_, _, _, rfl, rfl, rfl, rfl, rfl, rfl, rfl, rfl, rfl⟩, rfl⟩

/-- C9 (as the code behaves): for every Terminal state with `row >= 0` (of
`hTXT.js` and of `hTXT_Printer.js` alike) `write("\n")` never changes the
suppress-next-newline flag; with the flag set it leaves row and column
unchanged, with the flag clear it increments row by one and sets column to 0.
Consequently after a line that exactly fills the width any number of
consecutive line breaks leave the cursor at row 1, column 0 with the flag set. -/
theorem write_newline_effect :
    (∀ t : Ansi.Terminal, 0 ≤ t.row →
      ∃ t1, t.write '\n' = .ok t1 ∧ t1.skipNextNewline = t.skipNextNewline ∧
        (t.skipNextNewline = true → t1.row = t.row ∧ t1.col = t.col) ∧
        (t.skipNextNewline = false → t1.row = t.row + 1 ∧ t1.col = 0)) ∧
    (∀ t : Printer.Terminal, 0 ≤ t.row →
      ∃ t1, t.write ['\n'] = .ok t1 ∧ t1.skipNextNewline = t.skipNextNewline ∧
        (t.skipNextNewline = true → t1.row = t.row ∧ t1.col = t.col) ∧
        (t.skipNextNewline = false → t1.row = t.row + 1 ∧ t1.col = 0)) ∧
    (∀ (w n : Nat) (gs : List Char), 1 ≤ w → gs.length = w →
      (∀ g ∈ gs, g ≠ '\n' ∧ g ≠ '\r' ∧ g ≠ '♣') →
      ∃ t, Ansi.writeAll (gs ++ List.replicate n '\n') (Ansi.Terminal.new w) = .ok t ∧
        t.row = 1 ∧ t.col = 0 ∧ t.skipNextNewline = true) ∧
    (∀ (w n : Nat) (gs : List JsString), 1 ≤ w → gs.length = w →
      (∀ g ∈ gs, g ≠ ['\n'] ∧ g ≠ ['\r']) →
      ∃ t, Printer.writeAll (gs ++ List.replicate n ['\n']) (Printer.Terminal.new w) = .ok t ∧
        t.row = 1 ∧ t.col = 0 ∧ t.skipNextNewline = true) := by
  refine ⟨?_, ?_, ?_, ?_⟩
  · intro t hrow
    obtain ⟨t1, h1, _, hflag, hstay, hmove⟩ := Ansi.write_newline t hrow
    exact ⟨t1, h1, hflag, hstay, hmove⟩
  · intro t hrow
    obtain ⟨t1, h1, _, hflag, hstay, hmove⟩ := Printer.printer_write_newline t hrow
    exact ⟨t1, h1, hflag, hstay, hmove⟩
  · intro w n gs hw hlen hord
    obtain ⟨t1, h1, _, hrow, hcol, hskip⟩ := Ansi.writeAll_full_line w hw gs hlen hord
    obtain ⟨t2, h2, hr, hc, hs⟩ := Ansi.newlines_after_wrap n t1 (by omega) hskip
    refine ⟨t2, ?_, by rw [hr, hrow], by rw [hc, hcol], hs⟩
    rw [Ansi.writeAll_append gs _ _ t1 h1]
    exact h2
  · intro w n gs hw hlen hord
    obtain ⟨t1, h1, _, hrow, hcol, hskip⟩ := Printer.printer_writeAll_full_line w hw gs hlen hord
    obtain ⟨t2, h2, hr, hc, hs⟩ := Printer.printer_newlines_after_wrap n t1 (by omega) hskip
    refine ⟨t2, ?_, by rw [hr, hrow], by rw [hc, hcol], hs⟩
    rw [Printer.printer_writeAll_append gs _ _ t1 h1]
    exact h2

/-- A fresh Terminal of width 80 (flag clear), and the line `ab` of width 2
followed by two line breaks. -/
theorem write_newline_effect_witness :
    (0 ≤ (Ansi.Terminal.new 80).row) ∧
      (∃ t1, (Ansi.Terminal.new 80).write '\n' = .ok t1 ∧
        t1.skipNextNewline = false ∧ t1.row = 1 ∧ t1.col = 0) ∧
      (∃ t, Ansi.writeAll (['a', 'b'] ++ List.replicate 2 '\n') (Ansi.Terminal.new (2 : Nat))
          = .ok t ∧ t.row = 1 ∧ t.col = 0 ∧ t.skipNextNewline = true) := by
  refine ⟨by decide, ?_, ?_⟩
  · obtain ⟨t1, h1, hflag, _, hmove⟩ := write_newline_effect.1 (Ansi.Terminal.new 80) (by decide)
    exact ⟨t1, h1, hflag, hmove rfl⟩
  · exact write_newline_effect.2.2.1 2 2 ['a', 'b'] (by decide) rfl (by decide)

/-! ## The saved cursor position -/

namespace Ansi

theorem write_saved (t t1 : Terminal) (g : Char) (h : t.write g = .ok t1) :
    t1.saved_row = t.saved_row ∧ t1.saved_col = t.saved_col := by
  unfold Terminal.write at h
  simp only at h
  split at h
  · cases h
  · split_ifs at h <;> (cases h; exact ⟨rfl, rfl⟩)

theorem call_saved (t t1 : Terminal) (c : TerminalCall) (h : t.call c = .ok t1)
    (hs : c ≠ .saveCurrentPosition) (hr : c ≠ .restoreCurrentPosition) :
    t1.saved_row = t.saved_row ∧ t1.saved_col = t.saved_col := by
  cases c with
  | write g => exact write_saved t t1 g h
  | saveCurrentPosition => exact absurd rfl hs
  | restoreCurrentPosition => exact absurd rfl hr
  | _ => (cases h; exact ⟨rfl, rfl⟩)

theorem calls_saved :
    ∀ (cs : List TerminalCall) (t t1 : Terminal), Terminal.calls cs t = .ok t1 →
      (∀ c ∈ cs, c ≠ .saveCurrentPosition ∧ c ≠ .restoreCurrentPosition) →
      t1.saved_row = t.saved_row ∧ t1.saved_col = t.saved_col := by
  intro cs
  induction cs with
  | nil =>
    intro t t1 h _
    cases h
    exact ⟨rfl, rfl⟩
  | cons c rest ih =>
    intro t t1 h hc
    simp only [Terminal.calls] at h
    cases hcall : t.call c with
    | error err => rw [hcall] at h; cases h
    | ok t2 =>
      rw [hcall] at h
      obtain ⟨h1, h2⟩ := call_saved t t2 c hcall (hc c (List.mem_cons_self _ _)).1
        (hc c (List.mem_cons_self _ _)).2
      obtain ⟨h3, h4⟩ := ih t2 t1 h (fun d hd => hc d (List.mem_cons_of_mem _ hd))
      exact ⟨h3.trans h1, h4.trans h2⟩

theorem calls_append (xs ys : List TerminalCall) :
    ∀ (t t1 : Terminal), Terminal.calls xs t = .ok t1 →
      Terminal.calls (xs ++ ys) t = Terminal.calls ys t1 := by
  induction xs with
  | nil =>
    intro t t1 h
    cases h
    rfl
  | cons c rest ih =>
    intro t t1 h
    simp only [Terminal.calls, List.cons_append] at h ⊢
    cases hc : t.call c with
    | error err => rw [hc] at h; cases h
    | ok t2 =>
      rw [hc] at h
      simp only
      exact ih t2 t1 h

/-- C10: let a run of method calls contain a `saveCurrentPosition` that is
followed only by writes, cursor motions, absolute positionings, screen clears
and attribute changes (no further save, no restore), whatever came before it,
earlier saves included.  Then `restoreCurrentPosition` after the run sets row
and column to the values they had at that most recent save.  The slot is
single: after a save, an absolute positioning and a second save, a restore
yields the second position. -/
theorem restore_after_save (t t1 t2 : Terminal) (before after : List TerminalCall)
    (hbefore : Terminal.calls before t = .ok t1)
    (hrun : Terminal.calls (before ++ .saveCurrentPosition :: after) t = .ok t2)
    (hplain : ∀ c ∈ after, c ≠ .saveCurrentPosition ∧ c ≠ .restoreCurrentPosition) :
    t2.restoreCurrentPosition.row = t1.row ∧ t2.restoreCurrentPosition.col = t1.col ∧
      ∀ row col : Int,
        ((t1.saveCurrentPosition.setCurrentPosition row col).saveCurrentPosition
            |>.restoreCurrentPosition).row = row ∧
        ((t1.saveCurrentPosition.setCurrentPosition row col).saveCurrentPosition
            |>.restoreCurrentPosition).col = col := by
  rw [calls_append before _ t t1 hbefore] at hrun
  have hafter : Terminal.calls after t1.saveCurrentPosition = .ok t2 := hrun
  obtain ⟨h1, h2⟩ := calls_saved after _ t2 hafter hplain
  have hr : t2.saved_row = some t1.row := h1
  have hc : t2.saved_col = some t1.col := h2
  refine ⟨?_, ?_, fun _ _ => ⟨rfl, rfl⟩⟩
  · simp only [Terminal.restoreCurrentPosition, hr, hc]
  · simp only [Terminal.restoreCurrentPosition, hr, hc]

/-- On a fresh Terminal of width 80: a glyph, a first save at row 0, column 1,
a positioning to row 5, column 5, the second save, then a line break, a cursor
motion and an attribute change. -/
theorem restore_after_save_witness :
    ∃ t1 t2,
      Terminal.calls [.write 'a', .saveCurrentPosition, .setCurrentPosition 5 5]
        (Terminal.new 80) = .ok t1 ∧
      Terminal.calls
        ([.write 'a', .saveCurrentPosition, .setCurrentPosition 5 5] ++
          .saveCurrentPosition :: [.write '\n', .moveRight 3, .setBold true])
        (Terminal.new 80) = .ok t2 ∧
      (∀ c ∈ [TerminalCall.write '\n', .moveRight 3, .setBold true],
        c ≠ .saveCurrentPosition ∧ c ≠ .restoreCurrentPosition) ∧
      t2.row = 6 ∧ t2.col = 3 ∧
      t2.restoreCurrentPosition.row = 5 ∧ t2.restoreCurrentPosition.col = 5 :=
  ⟨_, _, rfl, rfl, by decide, rfl, rfl,
   (restore_after_save (Terminal.new 80) _ _
      [.write 'a', .saveCurrentPosition, .setCurrentPosition 5 5]
      [.write '\n', .moveRight 3, .setBold true] rfl rfl (by decide)).1,
   (restore_after_save (Terminal.new 80) _ _
      [.write 'a', .saveCurrentPosition, .setCurrentPosition 5 5]
      [.write '\n', .moveRight 3, .setBold true] rfl rfl (by decide)).2.1⟩

end Ansi

/-! ## Restoring without a saved position -/

namespace Ansi

theorem call_keeps_empty_slot (t t1 : Terminal) (c : TerminalCall) (h : t.call c = .ok t1)
    (hs : c ≠ .saveCurrentPosition) (hr : t.saved_row = none) (hc : t.saved_col = none) :
    t1.saved_row = none ∧ t1.saved_col = none := by
  by_cases hres : c = .restoreCurrentPosition
  · subst hres
    simp only [Terminal.call, Except.ok.injEq] at h
    subst h
    simp [Terminal.restoreCurrentPosition, hr, hc]
  · obtain ⟨h1, h2⟩ := call_saved t t1 c h hs hres
    exact ⟨h1.trans hr, h2.trans hc⟩

theorem calls_keep_empty_slot :
    ∀ (cs : List TerminalCall) (t t1 : Terminal), Terminal.calls cs t = .ok t1 →
      (∀ c ∈ cs, c ≠ .saveCurrentPosition) → t.saved_row = none → t.saved_col = none →
      t1.saved_row = none ∧ t1.saved_col = none := by
  intro cs
  induction cs with
  | nil =>
    intro t t1 h _ hr hc
    cases h
    exact ⟨hr, hc⟩
  | cons c rest ih =>
    intro t t1 h hs hr hc
    simp only [Terminal.calls] at h
    cases hcall : t.call c with
    | error err => rw [hcall] at h; cases h
    | ok t2 =>
      rw [hcall] at h
      obtain ⟨h1, h2⟩ := call_keeps_empty_slot t t2 c hcall (hs c (List.mem_cons_self _ _)) hr hc
      exact ih t2 t1 h (fun d hd => hs d (List.mem_cons_of_mem _ hd)) h1 h2

/-- C11: on a Terminal on which no `saveCurrentPosition` has been performed,
that is a freshly constructed one of any width after any run of method calls
other than `saveCurrentPosition`, the method `restoreCurrentPosition` returns
the state it was given: row, column and every other field are unchanged.  The
method has no statement that can raise. -/
theorem restore_without_save (width : Int) (cs : List TerminalCall) (t : Terminal)
    (hrun : Terminal.calls cs (Terminal.new width) = .ok t)
    (hnosave : ∀ c ∈ cs, c ≠ .saveCurrentPosition) :
    t.restoreCurrentPosition = t ∧
      Terminal.calls [.restoreCurrentPosition] t = .ok t := by
  obtain ⟨hr, hc⟩ := calls_keep_empty_slot cs _ t hrun hnosave rfl rfl
  have h : t.restoreCurrentPosition = t := by
    simp only [Terminal.restoreCurrentPosition, hr, hc]
  refine ⟨h, ?_⟩
  simp only [Terminal.calls, Terminal.call, h]

/-- A fresh Terminal of width 80 after two glyphs, a cursor motion and an
absolute positioning. -/
theorem restore_without_save_witness :
    ∃ t, Terminal.calls [.write 'a', .write 'b', .moveLeft 1, .setCurrentPosition 3 4]
        (Terminal.new 80) = .ok t ∧
      (∀ c ∈ [TerminalCall.write 'a', .write 'b', .moveLeft 1, .setCurrentPosition 3 4],
        c ≠ .saveCurrentPosition) ∧
      t.row = 3 ∧ t.col = 4 ∧ t.restoreCurrentPosition = t :=
  ⟨_, rfl, by decide, rfl, rfl,
   (restore_without_save 80 [.write 'a', .write 'b', .moveLeft 1, .setCurrentPosition 3 4] _
      rfl (by decide)).1⟩

end Ansi

/-! ## Decoding of the erase and graphics-rendition arguments -/

namespace Ansi

/-- C12 (the code at ESC [ J): the span has no argument, and the getter `args`
returns `undefined`, not 0: its test `(this._arguments)` is on the array, which
is always truthy, so the default `0` is never taken and `this._arguments[0]` of
the empty array is returned.  With arguments the getter returns the first
integer argument, for every escape with the function `J`. -/
theorem args_erase_in_display :
    translate [0x1B, 0x5B, 0x4A] = some [.esc (.new ['←', '[', 'J'])] ∧
      (AnsiEscape.new ['←', '[', 'J']).func = some ERASE_IN_DISPLAY ∧
      (AnsiEscape.new ['←', '[', 'J'])._arguments = [] ∧
      (AnsiEscape.new ['←', '[', 'J']).args = .ok .undefined ∧
      (AnsiEscape.new ['←', '[', 'J']).args ≠ .ok (.num 0) ∧
      (∀ (e : AnsiEscape) (a : Int) (rest : List Int),
        e._function = some ERASE_IN_DISPLAY → e._arguments = a :: rest →
        e.args = .ok (.num a)) ∧
      (AnsiEscape.new ['←', '[', '2', 'J']).args = .ok (.num 2) := by
  refine ⟨by decide, rfl, rfl, rfl, ?_, ?_, rfl⟩
  · intro h
    cases h
  · intro e a rest hf ha
    unfold AnsiEscape.args
    rw [hf, ha]
    rfl


/-- The span ESC [ 1 ; 2 J. -/
theorem args_erase_in_display_witness :
    (AnsiEscape.new ['←', '[', '1', ';', '2', 'J']).args = .ok (.num 1) :=
  args_erase_in_display.2.2.2.2.2.1 _ 1 [2] rfl rfl

end Ansi

namespace Ansi

theorem sgrCommand_eq (a : Int) :
    sgrCommand a = if SupportedSgr a then some (classifySgr a) else none := by
  unfold sgrCommand classifySgr SupportedSgr FGCOLOR_BASE BGCOLOR_BASE NUM_COLORS
    SET_DEFAULT SET_BOLD
  by_cases h1 : 30 ≤ a ∧ a < 30 + 8
  · have h1' : 30 ≤ a ∧ a ≤ 37 := by omega
    rw [if_pos h1, if_pos (Or.inr (Or.inr (Or.inl h1'))), if_pos h1']
  · have h1' : ¬ (30 ≤ a ∧ a ≤ 37) := by omega
    rw [if_neg h1]
    by_cases h2 : 40 ≤ a ∧ a < 40 + 8
    · have h2' : 40 ≤ a ∧ a ≤ 47 := by omega
      rw [if_pos h2, if_pos (Or.inr (Or.inr (Or.inr h2'))), if_neg h1', if_pos h2']
    · have h2' : ¬ (40 ≤ a ∧ a ≤ 47) := by omega
      rw [if_neg h2]
      by_cases h3 : a = 0
      · subst h3
        simp
      · rw [if_neg h3]
        by_cases h4 : a = 1
        · subst h4
          simp
        · rw [if_neg h4, if_neg (by omega)]

theorem filterMap_sgrCommand (args : List Int) :
    args.filterMap sgrCommand = (args.filter (fun a => decide (SupportedSgr a))).map classifySgr := by
  induction args with
  | nil => rfl
  | cons a rest ih =>
    by_cases h : SupportedSgr a
    · simp [List.filterMap_cons, sgrCommand_eq, h, ih]
    · simp [List.filterMap_cons, sgrCommand_eq, h, ih]

theorem args_sgr (e : AnsiEscape) (hf : e._function = some SGR) :
    e.args = .ok (.sgr (e._arguments.filterMap sgrCommand)) := by
  unfold AnsiEscape.args
  rw [hf]
  rfl

/-- C13: for every graphics-rendition escape whose integer arguments all lie
in {0, 1, 30..37, 40..47} the getter `args` is the list of the sub-commands of
its arguments, one for each in order, where `30 + k` gives SET_FGCOLOR with
colour index `k`, `40 + k` gives SET_BGCOLOR with colour index `k`
(`0 <= k <= 7`), 0 gives SET_DEFAULT and 1 gives SET_BOLD; the argument text
`1;31` decodes to SET_BOLD followed by SET_FGCOLOR of RED. -/
theorem args_sgr_supported (e : AnsiEscape) (hf : e._function = some SGR)
    (hsup : ∀ a ∈ e._arguments, SupportedSgr a) :
    e.args = .ok (.sgr (e._arguments.map classifySgr)) ∧
      (∀ k : Int, 0 ≤ k → k ≤ 7 →
        classifySgr (30 + k) = { type := SET_FGCOLOR, value := k } ∧
        classifySgr (40 + k) = { type := SET_BGCOLOR, value := k }) ∧
      classifySgr 0 = { type := SET_DEFAULT, value := 0 } ∧
      classifySgr 1 = { type := SET_BOLD, value := 0 } ∧
      (AnsiEscape.new ['←', '[', '1', ';', '3', '1', 'm']).args =
        .ok (.sgr [{ type := SET_BOLD, value := 0 }, { type := SET_FGCOLOR, value := RED }]) := by
  refine ⟨?_, ?_, rfl, rfl, rfl⟩
  · rw [args_sgr e hf, filterMap_sgrCommand]
    congr 3
    rw [List.filter_eq_self]
    intro a ha
    simpa using hsup a ha
  · intro k h0 h7
    unfold classifySgr
    constructor
    · rw [if_pos (by omega)]
      congr 1
      omega
    · rw [if_neg (by omega), if_pos (by omega)]
      congr 1
      omega

/-- The span ESC [ 0 ; 4 4 ; 3 7 m. -/
theorem args_sgr_supported_witness :
    (AnsiEscape.new ['←', '[', '0', ';', '4', '4', ';', '3', '7', 'm'])._function = some SGR ∧
      (∀ a ∈ (AnsiEscape.new ['←', '[', '0', ';', '4', '4', ';', '3', '7', 'm'])._arguments,
        SupportedSgr a) ∧
      (AnsiEscape.new ['←', '[', '0', ';', '4', '4', ';', '3', '7', 'm']).args =
        .ok (.sgr [{ type := SET_DEFAULT, value := 0 }, { type := SET_BGCOLOR, value := 4 },
          { type := SET_FGCOLOR, value := 7 }]) :=
  ⟨rfl, by decide,
   (args_sgr_supported (AnsiEscape.new ['←', '[', '0', ';', '4', '4', ';', '3', '7', 'm']) rfl
      (by decide)).1⟩

/-- C14 as stated fails: the span ESC [ 5 m has the one integer argument 5,
which is outside {0, 1, 30..37, 40..47}, and the getter `args` returns the
empty list: no 'unsupported' sub-command stands in its position. -/
theorem args_sgr_drops_unsupported :
    translate [0x1B, 0x5B, 0x35, 0x6D] = some [.esc (.new ['←', '[', '5', 'm'])] ∧
      (AnsiEscape.new ['←', '[', '5', 'm'])._function = some SGR ∧
      (AnsiEscape.new ['←', '[', '5', 'm'])._arguments = [5] ∧
      (AnsiEscape.new ['←', '[', '5', 'm']).args = .ok (.sgr []) ∧
      (AnsiEscape.new ['←', '[', '1', ';', '5', ';', '3', '1', 'm'])._arguments = [1, 5, 31] ∧
      (AnsiEscape.new ['←', '[', '1', ';', '5', ';', '3', '1', 'm']).args =
        .ok (.sgr [{ type := SET_BOLD, value := 0 }, { type := SET_FGCOLOR, value := RED }]) :=
  ⟨by decide, rfl, rfl, rfl, rfl, rfl⟩

/-- C14 (as the code behaves): for every graphics-rendition escape the getter
`args` contains exactly one sub-command per parsed integer argument that lies
in {0, 1, 30..37, 40..47}, in argument order; an integer outside the set is
only logged and yields no sub-command.  So the list of sub-commands is at most
as long as the list of integer arguments, and as long exactly when every
argument lies in the set. -/
theorem args_sgr_one_per_supported (e : AnsiEscape) (hf : e._function = some SGR) :
    ∃ cmds, e.args = .ok (.sgr cmds) ∧
      cmds = (e._arguments.filter (fun a => decide (SupportedSgr a))).map classifySgr ∧
      cmds.length ≤ e._arguments.length ∧
      (cmds.length = e._arguments.length ↔ ∀ a ∈ e._arguments, SupportedSgr a) := by
  refine ⟨_, args_sgr e hf, filterMap_sgrCommand _, ?_, ?_⟩
  · rw [filterMap_sgrCommand, List.length_map]
    exact List.length_filter_le _ _
  · rw [filterMap_sgrCommand, List.length_map, List.filter_length_eq_length]
    simp

/-- The span ESC [ 1 ; 5 ; 3 1 m: three arguments, two sub-commands. -/
theorem args_sgr_one_per_supported_witness :
    (AnsiEscape.new ['←', '[', '1', ';', '5', ';', '3', '1', 'm'])._function = some SGR ∧
      ∃ cmds, (AnsiEscape.new ['←', '[', '1', ';', '5', ';', '3', '1', 'm']).args =
          .ok (.sgr cmds) ∧
        cmds = ([1, 5, 31].filter (fun a => decide (SupportedSgr a))).map classifySgr ∧
        cmds.length ≤ 3 :=
  ⟨rfl,
   (args_sgr_one_per_supported
      (AnsiEscape.new ['←', '[', '1', ';', '5', ';', '3', '1', 'm']) rfl).imp
     (fun _ h => ⟨h.1, h.2.1, h.2.2.1⟩)⟩

end Ansi

theorem split_joinFields :
    ∀ fields : List JsString, fields ≠ [] → (∀ x ∈ fields, ∀ c ∈ x, c ≠ ';') →
      split ';' (joinFields fields) = fields := by
  intro fields
  induction fields with
  | nil => intro h; exact absurd rfl h
  | cons x rest ih =>
    intro _ hsep
    cases rest with
    | nil =>
      simp only [joinFields]
      exact split_no_separator ';' x (hsep x (List.mem_cons_self _ _))
    | cons y rest =>
      simp only [joinFields]
      rw [split_append_separator ';' x _ (hsep x (List.mem_cons_self _ _))]
      rw [ih (by simp) (fun z hz => hsep z (List.mem_cons_of_mem _ hz))]

theorem filterMap_parseInt_fields :
    ∀ fields : List JsString, (∀ x ∈ fields, x = [] ∨ DecimalArgument x) →
      fields.filterMap parseInt =
        (fields.filter (fun x => decide (x ≠ []))).map decimalValue := by
  intro fields
  induction fields with
  | nil => intro _; rfl
  | cons x rest ih =>
    intro h
    have ih' := ih (fun z hz => h z (List.mem_cons_of_mem _ hz))
    rcases h x (List.mem_cons_self _ _) with hx | hx
    · subst hx
      simp [List.filterMap_cons, parseInt_nil, ih']
    · have hne : x ≠ [] := hx.1
      simp [List.filterMap_cons, parseInt_decimal x hx, hne, ih']

namespace Ansi

theorem new_span (i1 i2 f : Char) (body : JsString) :
    AnsiEscape.new (i1 :: i2 :: (body ++ [f])) =
      { rawString := i1 :: i2 :: (body ++ [f])
        _arguments := if body ≠ [] then (split ';' body).filterMap parseInt else []
        raw_arguments := body
        _function := some f } := by
  unfold AnsiEscape.new
  simp only [substring_arguments]
  congr 1
  have e : (i1 :: i2 :: (body ++ [f]) : JsString) = (i1 :: i2 :: body) ++ [f] := by simp
  rw [e, List.getLast?_append]
  simp

/-- C15: for every span made of an introducer, `[`, an argument text and a
function character, where the argument text is a `;`-separated list of fields
each of which is empty or a decimal integer (one to fifteen digits, so that
`parseInt` is exact), the constructor of `AnsiEscape` decodes the function as
the last character, the argument text as the text between, and the integer
arguments as the decimal values of the non-empty fields in their original
order: an empty field does not parse and is dropped, and the fields after it
are still decoded. -/
theorem decode_numeric_span (introducer function : Char) (fields : List JsString)
    (hne : fields ≠ []) (hfields : ∀ x ∈ fields, x = [] ∨ DecimalArgument x) :
    (AnsiEscape.new (introducer :: '[' :: (joinFields fields ++ [function]))).func
        = some function ∧
      (AnsiEscape.new (introducer :: '[' :: (joinFields fields ++ [function]))).raw_arguments
        = joinFields fields ∧
      (AnsiEscape.new (introducer :: '[' :: (joinFields fields ++ [function])))._arguments
        = (fields.filter (fun x => decide (x ≠ []))).map decimalValue := by
  rw [new_span]
  refine ⟨rfl, rfl, ?_⟩
  have hsep : ∀ x ∈ fields, ∀ c ∈ x, c ≠ ';' := by
    intro x hx c hc h
    subst h
    rcases hfields x hx with h0 | hd
    · subst h0
      simp at hc
    · exact absurd (hd.2.2 ';' hc) (by decide)
  show (if joinFields fields ≠ [] then (split ';' (joinFields fields)).filterMap parseInt else [])
    = _
  rw [split_joinFields fields hne hsep, filterMap_parseInt_fields fields hfields]
  by_cases hj : joinFields fields = []
  · rw [if_neg (by simpa using hj)]
    -- the only field list with an empty text is the single empty field
    cases fields with
    | nil => exact absurd rfl hne
    | cons x rest =>
      cases rest with
      | nil =>
        simp only [joinFields] at hj
        subst hj
        rfl
      | cons y rest =>
        simp [joinFields] at hj
  · rw [if_pos hj]

/-- The span ESC [ ; 1 2 ; ; 0 7 H: fields empty, 12, empty, 07. -/
theorem decode_numeric_span_witness :
    ([[], ['1', '2'], [], ['0', '7']] : List JsString) ≠ [] ∧
      (∀ x ∈ ([[], ['1', '2'], [], ['0', '7']] : List JsString), x = [] ∨ DecimalArgument x) ∧
      (AnsiEscape.new ['←', '[', ';', '1', '2', ';', ';', '0', '7', 'H'])._arguments
        = [12, 7] :=
  ⟨by decide, by decide,
   (decode_numeric_span '←' 'H' [[], ['1', '2'], [], ['0', '7']] (by decide) (by decide)).2.2⟩

end Ansi

/-! ## Interpretation of escapes -/

namespace Ansi

theorem parse_append (xs ys : List Token) :
    ∀ t : Terminal, parse (xs ++ ys) t =
      match parse xs t with
      | .error err => .error err
      | .ok t1 => parse ys t1 := by
  induction xs with
  | nil => intro t; rfl
  | cons c rest ih =>
    intro t
    simp only [List.cons_append, parse]
    cases parseStep t c with
    | error err => rfl
    | ok t1 => exact ih t1

theorem parseStep_unsupported (e : AnsiEscape)
    (hf : e.func ∉ [some CURSOR_UP, some CURSOR_FORWARD, some CURSOR_BACK,
      some ERASE_IN_DISPLAY, some SGR, some SAVE_CUR_POS, some RESTORE_CUR_POS,
      some CURSOR_POSITION]) (t : Terminal) :
    parseStep t (.esc e) = .ok t := by
  simp only [List.mem_cons, List.mem_singleton, List.not_mem_nil, or_false, not_or] at hf
  obtain ⟨h1, h2, h3, h4, h5, h6, h7, h8⟩ := hf
  simp only [parseStep, if_neg h1, if_neg h2, if_neg h3, if_neg h4, if_neg h5, if_neg h6,
    if_neg h7, if_neg h8]

/-- C16: for every `AnsiEscape` whose function character is not one of `A`,
`C`, `D`, `J`, `m`, `s`, `u`, `H` (an escape without a function character
included), `AnsiParser.parse` leaves the Terminal state as it is when applying
it, and for all token lists `xs` and `ys` interpreting `xs ++ [that escape] ++
ys` gives the same outcome, final state or exception, as interpreting
`xs ++ ys`. -/
theorem parse_skips_unsupported (e : AnsiEscape)
    (hf : e.func ∉ [some 'A', some 'C', some 'D', some 'J', some 'm', some 's', some 'u',
      some 'H']) :
    (∀ t : Terminal, parse [.esc e] t = .ok t) ∧
      ∀ (xs ys : List Token) (t : Terminal),
        parse (xs ++ [.esc e] ++ ys) t = parse (xs ++ ys) t := by
  have hstep : ∀ t : Terminal, parseStep t (.esc e) = .ok t := by
    intro t
    apply parseStep_unsupported
    intro hmem
    apply hf
    simpa [CURSOR_UP, CURSOR_FORWARD, CURSOR_BACK, ERASE_IN_DISPLAY, SGR, SAVE_CUR_POS,
      RESTORE_CUR_POS, CURSOR_POSITION, or_comm, or_left_comm] using hmem
  constructor
  · intro t
    simp only [parse, hstep]
  · intro xs ys t
    rw [List.append_assoc, parse_append xs, parse_append xs]
    cases parse xs t with
    | error err => rfl
    | ok t1 =>
      show parse (.esc e :: ys) t1 = parse ys t1
      simp only [parse, hstep]

/-- The span ESC [ 5 n (device status report) between a glyph and a cursor
motion. -/
theorem parse_skips_unsupported_witness :
    (AnsiEscape.new ['←', '[', '5', 'n']).func ∉
        [some 'A', some 'C', some 'D', some 'J', some 'm', some 's', some 'u', some 'H'] ∧
      parse ([.lit 'a'] ++ [.esc (.new ['←', '[', '5', 'n'])] ++ [.esc (.new ['←', '[', '2', 'C'])])
          (Terminal.new 80) =
        parse ([.lit 'a'] ++ [.esc (.new ['←', '[', '2', 'C'])]) (Terminal.new 80) :=
  ⟨by decide,
   (parse_skips_unsupported (AnsiEscape.new ['←', '[', '5', 'n']) (by decide)).2
     [.lit 'a'] [.esc (.new ['←', '[', '2', 'C'])] (Terminal.new 80)⟩

end Ansi

/-! ## Cursor bounds and screen clearing -/

namespace Ansi

/-- C17 (the code at ESC [ 0 ; 0 H): the six bytes are tokenized as one
absolute-positioning escape, and `parse` on a fresh Terminal of any width
assigns row -1 and column -1: `setCurrentPosition` stores `row - 1` and
`col - 1` as they come, without the clamping of `moveLeft` and `moveUp`.
Likewise ESC [ 1 ; 2 0 0 H on width 80 leaves column 199, and ESC [ 9 9 C
followed by a letter leaves column 81: `moveRight` stops at column 80, and
`write` wraps only when the column after the glyph equals the width. -/
theorem parse_leaves_cursor_bounds :
    (translate [0x1B, 0x5B, 0x30, 0x3B, 0x30, 0x48] =
        some [.esc (.new ['←', '[', '0', ';', '0', 'H'])] ∧
      ∀ width, ∃ t, parse [.esc (.new ['←', '[', '0', ';', '0', 'H'])] (Terminal.new width)
        = .ok t ∧ t.row = -1 ∧ t.col = -1) ∧
    (translate [0x1B, 0x5B, 0x31, 0x3B, 0x32, 0x30, 0x30, 0x48] =
        some [.esc (.new ['←', '[', '1', ';', '2', '0', '0', 'H'])] ∧
      ∃ t, parse [.esc (.new ['←', '[', '1', ';', '2', '0', '0', 'H'])] (Terminal.new 80)
        = .ok t ∧ t.row = 0 ∧ t.col = 199) ∧
    (translate [0x1B, 0x5B, 0x39, 0x39, 0x43, 0x41] =
        some [.esc (.new ['←', '[', '9', '9', 'C']), .lit 'A'] ∧
      ∃ t, parse [.esc (.new ['←', '[', '9', '9', 'C']), .lit 'A'] (Terminal.new 80)
        = .ok t ∧ t.row = 0 ∧ t.col = 81) :=
  ⟨⟨by decide, fun _ => ⟨_, rfl, rfl, rfl⟩⟩,
   ⟨by decide, ⟨_, rfl, rfl, rfl⟩⟩,
   ⟨by decide, ⟨_, rfl, rfl, rfl⟩⟩⟩

theorem parseStep_erase (e : AnsiEscape) (hf : e.func = some ERASE_IN_DISPLAY) (t : Terminal) :
    parseStep t (.esc e) =
      .ok (if e._arguments.head? = some ENTIRE_SCREEN then t.clearScreen else t) := by
  have hf' : e._function = some ERASE_IN_DISPLAY := hf
  have hargs : e.args = .ok (match e._arguments with
      | a :: _ => .num a
      | [] => .undefined) := by
    unfold AnsiEscape.args
    rw [hf']
    cases e._arguments <;> rfl
  have h1 : ¬ (some ERASE_IN_DISPLAY = some CURSOR_FORWARD) := by decide
  have h2 : ¬ (some ERASE_IN_DISPLAY = some CURSOR_BACK) := by decide
  have h3 : ¬ (some ERASE_IN_DISPLAY = some CURSOR_UP) := by decide
  simp only [parseStep, hf, if_neg h1, if_neg h2, if_neg h3, if_true, hargs]
  cases e._arguments with
  | nil => simp
  | cons a rest =>
    simp only [List.head?_cons, Option.some.injEq, ArgsValue.num.injEq]
    split_ifs <;> rfl

/-- C18: for every Terminal state `s`, `clearScreen(clearScreen(s))` equals
`clearScreen(s)`, and `clearScreen(s)` has row 0, column 0 and an empty tile
list; for an erase-in-display escape `AnsiParser.parse` performs `clearScreen`
when its first integer argument is 2 and leaves the Terminal as it is in every
other case (another argument, or none). -/
theorem clearScreen_idempotent (s : Terminal) :
    s.clearScreen.clearScreen = s.clearScreen ∧
      s.clearScreen.row = 0 ∧ s.clearScreen.col = 0 ∧ s.clearScreen.tiles = [] ∧
      ∀ e : AnsiEscape, e.func = some ERASE_IN_DISPLAY →
        (e._arguments.head? = some 2 → parse [.esc e] s = .ok s.clearScreen) ∧
        (e._arguments.head? ≠ some 2 → parse [.esc e] s = .ok s) := by
  refine ⟨rfl, rfl, rfl, rfl, ?_⟩
  intro e hf
  have hstep := parseStep_erase e hf s
  constructor
  · intro h
    simp only [parse, hstep]
    rw [if_pos (show e._arguments.head? = some ENTIRE_SCREEN from h)]
  · intro h
    simp only [parse, hstep]
    rw [if_neg (show ¬ e._arguments.head? = some ENTIRE_SCREEN from h)]

/-- The spans ESC [ 2 J and ESC [ 1 J after a glyph on a fresh Terminal. -/
theorem clearScreen_idempotent_witness :
    ∃ s, parse [.lit 'a', .lit '\n', .lit 'b'] (Terminal.new 80) = .ok s ∧
      s.row = 1 ∧ s.col = 1 ∧
      parse [.esc (.new ['←', '[', '2', 'J'])] s = .ok s.clearScreen ∧
      parse [.esc (.new ['←', '[', '1', 'J'])] s = .ok s :=
  ⟨_, rfl, rfl, rfl,
   ((clearScreen_idempotent _).2.2.2.2 (.new ['←', '[', '2', 'J']) rfl).1 rfl,
   ((clearScreen_idempotent _).2.2.2.2 (.new ['←', '[', '1', 'J']) rfl).2 (by decide)⟩

end Ansi

/-! ## Graphics rendition -/

namespace Ansi

theorem applySgr_foreground (t : Terminal) (c : AnsiSgrCommand) :
    (c.type = SET_FGCOLOR → (applySgr t c).foreground = c.value) ∧
      (c.type = SET_DEFAULT → (applySgr t c).foreground = WHITE) ∧
      (c.type ≠ SET_FGCOLOR → c.type ≠ SET_DEFAULT → (applySgr t c).foreground = t.foreground) := by
  unfold applySgr
  refine ⟨?_, ?_, ?_⟩
  · intro h
    rw [if_pos h]
    rfl
  · intro h
    rw [h]
    rfl
  · intro h1 h2
    rw [if_neg h1]
    split_ifs <;> rfl

theorem applySgr_background (t : Terminal) (c : AnsiSgrCommand) :
    (c.type = SET_BGCOLOR → (applySgr t c).background = c.value) ∧
      (c.type = SET_DEFAULT → (applySgr t c).background = BLACK) ∧
      (c.type ≠ SET_BGCOLOR → c.type ≠ SET_DEFAULT → (applySgr t c).background = t.background) := by
  unfold applySgr
  refine ⟨?_, ?_, ?_⟩
  · intro h
    rw [h]
    rfl
  · intro h
    rw [h]
    rfl
  · intro h1 h2
    split_ifs <;> rfl

theorem applySgr_bold (t : Terminal) (c : AnsiSgrCommand) :
    (c.type = SET_BOLD → (applySgr t c).bold = true) ∧
      (c.type = SET_DEFAULT → (applySgr t c).bold = false) ∧
      (c.type ≠ SET_BOLD → c.type ≠ SET_DEFAULT → (applySgr t c).bold = t.bold) := by
  unfold applySgr
  refine ⟨?_, ?_, ?_⟩
  · intro h
    rw [h]
    rfl
  · intro h
    rw [h]
    rfl
  · intro h1 h2
    split_ifs <;> rfl

theorem foldl_applySgr_foreground :
    ∀ (cmds : List AnsiSgrCommand) (t : Terminal),
      (∀ d ∈ cmds, d.type ≠ SET_FGCOLOR ∧ d.type ≠ SET_DEFAULT) →
      (cmds.foldl applySgr t).foreground = t.foreground := by
  intro cmds
  induction cmds with
  | nil => intro t _; rfl
  | cons d rest ih =>
    intro t h
    simp only [List.foldl_cons]
    rw [ih _ (fun x hx => h x (List.mem_cons_of_mem _ hx))]
    exact (applySgr_foreground t d).2.2 (h d (List.mem_cons_self _ _)).1
      (h d (List.mem_cons_self _ _)).2

theorem foldl_applySgr_background :
    ∀ (cmds : List AnsiSgrCommand) (t : Terminal),
      (∀ d ∈ cmds, d.type ≠ SET_BGCOLOR ∧ d.type ≠ SET_DEFAULT) →
      (cmds.foldl applySgr t).background = t.background := by
  intro cmds
  induction cmds with
  | nil => intro t _; rfl
  | cons d rest ih =>
    intro t h
    simp only [List.foldl_cons]
    rw [ih _ (fun x hx => h x (List.mem_cons_of_mem _ hx))]
    exact (applySgr_background t d).2.2 (h d (List.mem_cons_self _ _)).1
      (h d (List.mem_cons_self _ _)).2

theorem foldl_applySgr_bold :
    ∀ (cmds : List AnsiSgrCommand) (t : Terminal),
      (∀ d ∈ cmds, d.type ≠ SET_BOLD ∧ d.type ≠ SET_DEFAULT) →
      (cmds.foldl applySgr t).bold = t.bold := by
  intro cmds
  induction cmds with
  | nil => intro t _; rfl
  | cons d rest ih =>
    intro t h
    simp only [List.foldl_cons]
    rw [ih _ (fun x hx => h x (List.mem_cons_of_mem _ hx))]
    exact (applySgr_bold t d).2.2 (h d (List.mem_cons_self _ _)).1
      (h d (List.mem_cons_self _ _)).2

theorem parseStep_sgr (e : AnsiEscape) (hf : e.func = some SGR) (t : Terminal) :
    parseStep t (.esc e) = .ok ((e._arguments.filterMap sgrCommand).foldl applySgr t) := by
  have hargs := args_sgr e hf
  have h1 : ¬ (some SGR = some CURSOR_FORWARD) := by decide
  have h2 : ¬ (some SGR = some CURSOR_BACK) := by decide
  have h3 : ¬ (some SGR = some CURSOR_UP) := by decide
  have h4 : ¬ (some SGR = some ERASE_IN_DISPLAY) := by decide
  have h5 : ¬ (some SGR = some SAVE_CUR_POS) := by decide
  have h6 : ¬ (some SGR = some RESTORE_CUR_POS) := by decide
  have h7 : ¬ (some SGR = some CURSOR_POSITION) := by decide
  simp only [parseStep, hf, if_neg h1, if_neg h2, if_neg h3, if_neg h4, if_neg h5, if_neg h6,
    if_neg h7, if_true, hargs]

/-- C19: for every Terminal state and every graphics-rendition escape,
`AnsiParser.parse` applies the sub-commands of the escape from left to right.
So each of foreground, background and bold ends as the last sub-command that
touches it sets it (SET_FGCOLOR and SET_BGCOLOR to their colour index, SET_BOLD
to true, SET_DEFAULT to WHITE, BLACK and false), and stays as it was when no
sub-command touches it.  On any Terminal the argument text `31;32` leaves
foreground GREEN, `1;0` leaves bold off and `0;1` leaves bold on. -/
theorem sgr_applied_in_order (t : Terminal) :
    (∀ e : AnsiEscape, e.func = some SGR →
      ∃ cmds, e.args = .ok (.sgr cmds) ∧ parse [.esc e] t = .ok (cmds.foldl applySgr t)) ∧
    (∀ (cmds : List AnsiSgrCommand) (c : AnsiSgrCommand),
      (cmds ++ [c]).foldl applySgr t = applySgr (cmds.foldl applySgr t) c) ∧
    (∀ (pre post : List AnsiSgrCommand) (c : AnsiSgrCommand),
      (∀ d ∈ post, d.type ≠ SET_FGCOLOR ∧ d.type ≠ SET_DEFAULT) →
      (c.type = SET_FGCOLOR → ((pre ++ c :: post).foldl applySgr t).foreground = c.value) ∧
      (c.type = SET_DEFAULT → ((pre ++ c :: post).foldl applySgr t).foreground = WHITE)) ∧
    (∀ (pre post : List AnsiSgrCommand) (c : AnsiSgrCommand),
      (∀ d ∈ post, d.type ≠ SET_BGCOLOR ∧ d.type ≠ SET_DEFAULT) →
      (c.type = SET_BGCOLOR → ((pre ++ c :: post).foldl applySgr t).background = c.value) ∧
      (c.type = SET_DEFAULT → ((pre ++ c :: post).foldl applySgr t).background = BLACK)) ∧
    (∀ (pre post : List AnsiSgrCommand) (c : AnsiSgrCommand),
      (∀ d ∈ post, d.type ≠ SET_BOLD ∧ d.type ≠ SET_DEFAULT) →
      (c.type = SET_BOLD → ((pre ++ c :: post).foldl applySgr t).bold = true) ∧
      (c.type = SET_DEFAULT → ((pre ++ c :: post).foldl applySgr t).bold = false)) ∧
    (∀ cmds : List AnsiSgrCommand,
      ((∀ d ∈ cmds, d.type ≠ SET_FGCOLOR ∧ d.type ≠ SET_DEFAULT) →
        (cmds.foldl applySgr t).foreground = t.foreground) ∧
      ((∀ d ∈ cmds, d.type ≠ SET_BGCOLOR ∧ d.type ≠ SET_DEFAULT) →
        (cmds.foldl applySgr t).background = t.background) ∧
      ((∀ d ∈ cmds, d.type ≠ SET_BOLD ∧ d.type ≠ SET_DEFAULT) →
        (cmds.foldl applySgr t).bold = t.bold)) ∧
    (∃ t1, parse [.esc (.new ['←', '[', '3', '1', ';', '3', '2', 'm'])] t = .ok t1 ∧
      t1.foreground = GREEN) ∧
    (∃ t1, parse [.esc (.new ['←', '[', '1', ';', '0', 'm'])] t = .ok t1 ∧ t1.bold = false) ∧
    (∃ t1, parse [.esc (.new ['←', '[', '0', ';', '1', 'm'])] t = .ok t1 ∧ t1.bold = true) := by
  refine ⟨?_, ?_, ?_, ?_, ?_, ?_, ⟨_, rfl, rfl⟩, ⟨_, rfl, rfl⟩, ⟨_, rfl, rfl⟩⟩
  · intro e hf
    refine ⟨_, args_sgr e hf, ?_⟩
    simp only [parse, parseStep_sgr e hf t]
  · intro cmds c
    rw [List.foldl_append]
    rfl
  · intro pre post c hpost
    rw [List.foldl_append, List.foldl_cons, foldl_applySgr_foreground post _ hpost]
    exact ⟨(applySgr_foreground _ c).1, (applySgr_foreground _ c).2.1⟩
  · intro pre post c hpost
    rw [List.foldl_append, List.foldl_cons, foldl_applySgr_background post _ hpost]
    exact ⟨(applySgr_background _ c).1, (applySgr_background _ c).2.1⟩
  · intro pre post c hpost
    rw [List.foldl_append, List.foldl_cons, foldl_applySgr_bold post _ hpost]
    exact ⟨(applySgr_bold _ c).1, (applySgr_bold _ c).2.1⟩
  · intro cmds
    exact ⟨foldl_applySgr_foreground cmds t, foldl_applySgr_background cmds t,
      foldl_applySgr_bold cmds t⟩

/-- On a fresh Terminal of width 80: the span ESC [ 3 1 ; 1 ; 4 4 m, whose last
sub-command touching the foreground is the first one. -/
theorem sgr_applied_in_order_witness :
    (AnsiEscape.new ['←', '[', '3', '1', ';', '1', ';', '4', '4', 'm']).func = some SGR ∧
      (∃ cmds, (AnsiEscape.new ['←', '[', '3', '1', ';', '1', ';', '4', '4', 'm']).args
          = .ok (.sgr cmds) ∧
        parse [.esc (.new ['←', '[', '3', '1', ';', '1', ';', '4', '4', 'm'])] (Terminal.new 80)
          = .ok (cmds.foldl applySgr (Terminal.new 80))) ∧
      (([] ++ ({ type := SET_FGCOLOR, value := RED } : AnsiSgrCommand) ::
          [{ type := SET_BOLD, value := 0 }, { type := SET_BGCOLOR, value := 4 }]).foldl
        applySgr (Terminal.new 80)).foreground = RED :=
  ⟨rfl,
   (sgr_applied_in_order (Terminal.new 80)).1 _ rfl,
   ((sgr_applied_in_order (Terminal.new 80)).2.2.1 []
      [{ type := SET_BOLD, value := 0 }, { type := SET_BGCOLOR, value := 4 }]
      { type := SET_FGCOLOR, value := RED } (by decide)).1 rfl⟩

end Ansi

/-! ## The word-processor parser -/

namespace Einstein

/-- C20 (the code at an unfinished line): the bytes D9 61, an alignment marker
and the letter `a` with no line break after them, are tokenized as the CENTER
escape and the literal `a`, which holds no `<` and no marker character.
`EinsteinParser.parse` returns the opening `<div style='text-align: center'>`
and the letter, with no `</div>`: the closing waits in `closing` for a NEWLINE
escape, and the last `res.push(line)` does not append it.  One opening, no
closing.  With the NEWLINE escape after the letter the scope is closed, after
the text of the line. -/
theorem parse_unclosed_alignment :
    translate [0xD9, 0x61] = some [.esc ⟨CENTER⟩, .lit ['a']] ∧
      parse [.esc ⟨CENTER⟩, .lit ['a']] = "<div style='text-align: center'>a".toList ∧
      countOccurrences "<div style='text-align: ".toList (parse [.esc ⟨CENTER⟩, .lit ['a']]) = 1 ∧
      countOccurrences "</div>".toList (parse [.esc ⟨CENTER⟩, .lit ['a']]) = 0 ∧
      translate [0xD9, 0x61, 0x0D, 0x0A] = some [.esc ⟨CENTER⟩, .lit ['a'], .esc ⟨NEWLINE⟩] ∧
      parse [.esc ⟨CENTER⟩, .lit ['a'], .esc ⟨NEWLINE⟩] =
        "<div style='text-align: center'>a</div>".toList := by
  refine ⟨by decide, by decide, by decide, by decide, by decide, by decide⟩

end Einstein

/-! ## The printer parser -/

namespace Printer

/-- C21: for every printer Terminal state, applying an escape whose function
is BOLD_OFF (ESC H, which the tokenizer delivers for the bytes 1B 48) through
`PrinterParser.parse` sets bold, subscript and superscript to false and leaves
every other property as it is: underline, row and column, the colours, the
suppress-next-newline flag, the width, the tiles and the font settings. -/
theorem parse_bold_off (t : Terminal) (e : PrinterEscape) (hf : e.func = some BOLD_OFF) :
    translate [0x1B, 0x48] = some [.esc (.new [ESC, BOLD_OFF])] ∧
      (PrinterEscape.new [ESC, BOLD_OFF]).func = some BOLD_OFF ∧
      parse [.esc e] t =
        .ok { t with bold := false, subscript := false, superscript := false } ∧
      ∃ t1, parse [.esc e] t = .ok t1 ∧
        t1.bold = false ∧ t1.subscript = false ∧ t1.superscript = false ∧
        t1.underline = t.underline ∧ t1.row = t.row ∧ t1.col = t.col ∧
        t1.foreground = t.foreground ∧ t1.background = t.background ∧
        t1.skipNextNewline = t.skipNextNewline := by
  have hparse : parse [.esc e] t =
      .ok { t with bold := false, subscript := false, superscript := false } := by
    simp only [parse, parseStep, hf]
    rfl
  exact ⟨by decide, rfl, hparse, _, hparse, rfl, rfl, rfl, rfl, rfl, rfl, rfl, rfl, rfl⟩

/-- The escape of the bytes 1B 48 on a printer Terminal that is bold, in
subscript and underlined. -/
theorem parse_bold_off_witness :
    (PrinterEscape.new [ESC, BOLD_OFF]).func = some BOLD_OFF ∧
      parse [.esc (.new [ESC, BOLD_OFF])]
          (((Terminal.new 80).setBold true).setSubscript true |>.setUnderline true) =
        .ok ((Terminal.new 80).setUnderline true) :=
  ⟨rfl,
   (parse_bold_off (((Terminal.new 80).setBold true).setSubscript true |>.setUnderline true)
      (.new [ESC, BOLD_OFF]) rfl).2.2.1⟩

end Printer

namespace Printer

set_option maxRecDepth 1000000 in
theorem underline_span_byte : ∀ b : Byte,
    ((b ≠ 0x0A ∧ b ≠ 0x0D) ↔
      translate [0x1B, 0x2D, b] = some [.esc (.new [ESC, UNDERLINE, fromCharCode b.val])]) ∧
    (PrinterEscape.new [ESC, UNDERLINE, fromCharCode b.val]).args = some (decide (b ≠ 0)) := by
  decide

theorem parseStep_underline (e : PrinterEscape) (hf : e.func = some UNDERLINE) (t : Terminal) :
    parseStep t (.esc e) = .ok (t.setUnderline (e.args.getD false)) := by
  simp only [parseStep, hf]
  rfl

/-- C22: the span ESC `-` b is tokenized as one escape for every argument byte
`b` other than 0A and 0D (which the pattern character `.` does not match), and
only for those.  For every byte `b` the getter `args` of that escape is false
when `b = 0` and true when `b` is nonzero, and `PrinterParser.parse` sets the
underline flag of any Terminal to that value and leaves every other property
as it is, among them bold, subscript, superscript, row and column. -/
theorem parse_underline (b : Byte) (t : Terminal) :
    ((b ≠ 0x0A ∧ b ≠ 0x0D) ↔
      translate [0x1B, 0x2D, b] = some [.esc (.new [ESC, UNDERLINE, fromCharCode b.val])]) ∧
    (b = 0 → (PrinterEscape.new [ESC, UNDERLINE, fromCharCode b.val]).args = some false) ∧
    (b ≠ 0 → (PrinterEscape.new [ESC, UNDERLINE, fromCharCode b.val]).args = some true) ∧
    parse [.esc (.new [ESC, UNDERLINE, fromCharCode b.val])] t =
      .ok { t with underline := decide (b ≠ 0) } ∧
    ∃ t1, parse [.esc (.new [ESC, UNDERLINE, fromCharCode b.val])] t = .ok t1 ∧
      t1.underline = decide (b ≠ 0) ∧ t1.bold = t.bold ∧ t1.subscript = t.subscript ∧
      t1.superscript = t.superscript ∧ t1.row = t.row ∧ t1.col = t.col := by
  obtain ⟨htok, hargs⟩ := underline_span_byte b
  have hparse : parse [.esc (.new [ESC, UNDERLINE, fromCharCode b.val])] t =
      .ok { t with underline := decide (b ≠ 0) } := by
    have hstep := parseStep_underline (.new [ESC, UNDERLINE, fromCharCode b.val]) rfl t
    rw [hargs] at hstep
    simp only [parse, hstep]
    rfl
  refine ⟨htok, ?_, ?_, hparse, _, hparse, rfl, rfl, rfl, rfl, rfl, rfl⟩
  · intro h0
    rw [hargs]
    simp [h0]
  · intro h0
    rw [hargs]
    simp [h0]

/-- The bytes 1B 2D 01 switch the underline on, the bytes 1B 2D 00 off. -/
theorem parse_underline_witness :
    (PrinterEscape.new [ESC, UNDERLINE, fromCharCode 1]).args = some true ∧
      (PrinterEscape.new [ESC, UNDERLINE, fromCharCode 0]).args = some false ∧
      translate [0x1B, 0x2D, 0x01] = some [.esc (.new [ESC, UNDERLINE, fromCharCode 1])] :=
  ⟨(parse_underline 1 (Terminal.new 80)).2.2.1 (by decide),
   (parse_underline 0 (Terminal.new 80)).2.1 rfl,
   (parse_underline 1 (Terminal.new 80)).1.mp (by decide)⟩

end Printer

/-! ## The code-page tables -/

set_option maxRecDepth 1000000 in
theorem table_keys_byte : ∀ b : Byte,
    ((Ansi.art.lookup b.val = none ∧ Ansi.hebrew.lookup b.val = none) ↔
      (b = 0x00 ∨ b = 0x0A ∨ b = 0x0D ∨ (0x20 ≤ b ∧ b ≤ 0x7F))) ∧
    ((Printer.art.lookup b.val = none ∧ Printer.hebrew.lookup b.val = none) ↔
      (b = 0x00 ∨ b = 0x0A ∨ b = 0x0D ∨ (0x20 ≤ b ∧ b ≤ 0x7F))) ∧
    ((Einstein.art.lookup b.val = none ∧ Einstein.hebrew.lookup b.val = none) ↔
      (b = 0x00 ∨ b = 0x0A ∨ b = 0x0D ∨ b = 0x18 ∨ b = 0x19 ∨
        (0x20 ≤ b ∧ b ≤ 0x7F ∧ b ≠ 0x28 ∧ b ≠ 0x29) ∨
        b = 0xCA ∨ b = 0xCB ∨ b = 0xD9 ∨ b = 0xDA)) := by
  decide

/-- C23: in each of the three translators `translateChar` is a function of
the byte alone that returns a string for every byte value 0..255, namely the entry of
the art table if the byte is a key of it, else the entry of the Hebrew table
if the byte is a key of that, else the one-character string whose code point is
the byte.  The bytes in neither table are 00, 0A, 0D and 20..7F for the
terminal and the printer translator, and 00, 0A, 0D, 18, 19, 20..7F without 28
and 29, CA, CB, D9 and DA for the word-processor translator. -/
theorem translateChar_total (b : Byte) :
    Ansi.translateChar b.val =
      (Ansi.art.lookup b.val).getD ((Ansi.hebrew.lookup b.val).getD [fromCharCode b.val]) ∧
    Printer.translateChar b.val =
      (Printer.art.lookup b.val).getD
        ((Printer.hebrew.lookup b.val).getD [fromCharCode b.val]) ∧
    Einstein.translateChar b.val =
      (Einstein.art.lookup b.val).getD
        ((Einstein.hebrew.lookup b.val).getD [fromCharCode b.val]) ∧
    (fromCharCode b.val).toNat = b.val ∧
    ((b = 0x00 ∨ b = 0x0A ∨ b = 0x0D ∨ (0x20 ≤ b ∧ b ≤ 0x7F)) ↔
      (Ansi.art.lookup b.val = none ∧ Ansi.hebrew.lookup b.val = none)) ∧
    ((b = 0x00 ∨ b = 0x0A ∨ b = 0x0D ∨ (0x20 ≤ b ∧ b ≤ 0x7F)) ↔
      (Printer.art.lookup b.val = none ∧ Printer.hebrew.lookup b.val = none)) ∧
    ((b = 0x00 ∨ b = 0x0A ∨ b = 0x0D ∨ b = 0x18 ∨ b = 0x19 ∨
        (0x20 ≤ b ∧ b ≤ 0x7F ∧ b ≠ 0x28 ∧ b ≠ 0x29) ∨
        b = 0xCA ∨ b = 0xCB ∨ b = 0xD9 ∨ b = 0xDA) ↔
      (Einstein.art.lookup b.val = none ∧ Einstein.hebrew.lookup b.val = none)) ∧
    ((Ansi.art.lookup b.val = none ∧ Ansi.hebrew.lookup b.val = none) →
      Ansi.translateChar b.val = [fromCharCode b.val]) ∧
    ((Printer.art.lookup b.val = none ∧ Printer.hebrew.lookup b.val = none) →
      Printer.translateChar b.val = [fromCharCode b.val]) ∧
    ((Einstein.art.lookup b.val = none ∧ Einstein.hebrew.lookup b.val = none) →
      Einstein.translateChar b.val = [fromCharCode b.val]) := by
  obtain ⟨h1, h2, h3⟩ := table_keys_byte b
  refine ⟨?_, ?_, ?_, (Printer.fromCharCode_byte b).1,
    h1.symm, h2.symm, h3.symm, ?_, ?_, ?_⟩
  · unfold Ansi.translateChar
    cases Ansi.art.lookup b.val <;> cases Ansi.hebrew.lookup b.val <;> rfl
  · unfold Printer.translateChar
    cases Printer.art.lookup b.val <;> cases Printer.hebrew.lookup b.val <;> rfl
  · unfold Einstein.translateChar
    cases Einstein.art.lookup b.val <;> cases Einstein.hebrew.lookup b.val <;> rfl
  · rintro ⟨ha, hh⟩
    unfold Ansi.translateChar
    rw [ha, hh]
  · rintro ⟨ha, hh⟩
    unfold Printer.translateChar
    rw [ha, hh]
  · rintro ⟨ha, hh⟩
    unfold Einstein.translateChar
    rw [ha, hh]

/-- The byte 41, the letter `A`, which is in no table. -/
theorem translateChar_total_witness :
    (Ansi.art.lookup (0x41 : Byte).val = none ∧ Ansi.hebrew.lookup (0x41 : Byte).val = none) ∧
      Ansi.translateChar (0x41 : Byte).val = ['A'] ∧
      Printer.translateChar (0x41 : Byte).val = ['A'] ∧
      Einstein.translateChar (0x41 : Byte).val = ['A'] :=
  ⟨by decide,
   (translateChar_total 0x41).2.2.2.2.2.2.2.1 (by decide),
   (translateChar_total 0x41).2.2.2.2.2.2.2.2.1 (by decide),
   (translateChar_total 0x41).2.2.2.2.2.2.2.2.2 (by decide)⟩

/-! ## Cursor motion and the consumed slot -/

namespace Ansi

theorem args_motion (e : AnsiEscape)
    (hf : e._function ∈ [some CURSOR_FORWARD, some CURSOR_BACK, some CURSOR_UP]) :
    e.args = .ok (.num (e._arguments.headD 1)) := by
  unfold AnsiEscape.args
  rw [if_pos hf]
  cases e._arguments <;> rfl

theorem parseStep_motion (e : AnsiEscape) (t : Terminal) :
    (e.func = some CURSOR_FORWARD →
      parseStep t (.esc e) = .ok (t.moveRight (e._arguments.headD 1))) ∧
    (e.func = some CURSOR_BACK →
      parseStep t (.esc e) = .ok (t.moveLeft (e._arguments.headD 1))) ∧
    (e.func = some CURSOR_UP →
      parseStep t (.esc e) = .ok (t.moveUp (e._arguments.headD 1))) := by
  refine ⟨?_, ?_, ?_⟩
  · intro hf
    have hargs := args_motion e (by rw [show e._function = some CURSOR_FORWARD from hf]; simp)
    simp only [parseStep, hf, if_true, hargs]
  · intro hf
    have hargs := args_motion e (by rw [show e._function = some CURSOR_BACK from hf]; simp)
    have h1 : ¬ (some CURSOR_BACK = some CURSOR_FORWARD) := by decide
    simp only [parseStep, hf, if_neg h1, if_true, hargs]
  · intro hf
    have hargs := args_motion e (by rw [show e._function = some CURSOR_UP from hf]; simp)
    have h1 : ¬ (some CURSOR_UP = some CURSOR_FORWARD) := by decide
    have h2 : ¬ (some CURSOR_UP = some CURSOR_BACK) := by decide
    simp only [parseStep, hf, if_neg h1, if_neg h2, if_true, hargs]

/-- C26: for every Terminal state with `row >= 0` and `0 <= col <= width` and
every `n >= 0`, `moveRight(n)` sets the column to `min(col + n, width)`,
`moveLeft(n)` sets it to `max(col - n, 0)` and `moveUp(n)` sets the row to
`max(row - n, 0)`; each leaves the other coordinate and every other property
as it is, and the coordinates after the call are not negative (the column
stays within the width).  `AnsiParser.parse` makes these calls for the escapes
with the functions `C`, `D` and `A`, with the first integer argument, or 1 when
there is none, as `n`. -/
theorem cursor_motion (t : Terminal) (n : Int) (hrow : 0 ≤ t.row) (hcol : 0 ≤ t.col)
    (hwidth : t.col ≤ t.terminalWidth) (hn : 0 ≤ n) :
    (t.moveRight n = { t with col := min (t.col + n) t.terminalWidth } ∧
      0 ≤ (t.moveRight n).col ∧ (t.moveRight n).col ≤ t.terminalWidth ∧
      (t.moveRight n).row = t.row ∧ 0 ≤ (t.moveRight n).row) ∧
    (t.moveLeft n = { t with col := max (t.col - n) 0 } ∧
      0 ≤ (t.moveLeft n).col ∧ (t.moveLeft n).col ≤ t.terminalWidth ∧
      (t.moveLeft n).row = t.row ∧ 0 ≤ (t.moveLeft n).row) ∧
    (t.moveUp n = { t with row := max (t.row - n) 0 } ∧
      0 ≤ (t.moveUp n).row ∧ (t.moveUp n).col = t.col ∧ 0 ≤ (t.moveUp n).col) ∧
    (∀ e : AnsiEscape,
      (e.func = some CURSOR_FORWARD →
        parse [.esc e] t = .ok (t.moveRight (e._arguments.headD 1))) ∧
      (e.func = some CURSOR_BACK →
        parse [.esc e] t = .ok (t.moveLeft (e._arguments.headD 1))) ∧
      (e.func = some CURSOR_UP →
        parse [.esc e] t = .ok (t.moveUp (e._arguments.headD 1)))) := by
  refine ⟨⟨rfl, ?_, ?_, rfl, hrow⟩, ⟨rfl, ?_, ?_, rfl, hrow⟩, ⟨rfl, ?_, rfl, hcol⟩, ?_⟩
  · show 0 ≤ min (t.col + n) t.terminalWidth
    omega
  · show min (t.col + n) t.terminalWidth ≤ t.terminalWidth
    omega
  · show 0 ≤ max (t.col - n) 0
    omega
  · show max (t.col - n) 0 ≤ t.terminalWidth
    omega
  · show 0 ≤ max (t.row - n) 0
    omega
  · intro e
    obtain ⟨h1, h2, h3⟩ := parseStep_motion e t
    refine ⟨fun hf => ?_, fun hf => ?_, fun hf => ?_⟩
    · simp only [parse, h1 hf]
    · simp only [parse, h2 hf]
    · simp only [parse, h3 hf]

/-- A Terminal of width 80 at row 2, column 78, and the motions by 5. -/
theorem cursor_motion_witness :
    (0 : Int) ≤ ((Terminal.new 80).setCurrentPosition 2 78).row ∧
      ((Terminal.new 80).setCurrentPosition 2 78).col ≤ 80 ∧
      (((Terminal.new 80).setCurrentPosition 2 78).moveRight 5).col = 80 ∧
      (((Terminal.new 80).setCurrentPosition 2 78).moveLeft 5).col = 73 ∧
      (((Terminal.new 80).setCurrentPosition 2 78).moveUp 5).row = 0 ∧
      parse [.esc (.new ['←', '[', '5', 'C'])] ((Terminal.new 80).setCurrentPosition 2 78) =
        .ok (((Terminal.new 80).setCurrentPosition 2 78).moveRight 5) :=
  ⟨by decide, by decide, by decide, by decide, by decide,
   ((cursor_motion ((Terminal.new 80).setCurrentPosition 2 78) 5 (by decide) (by decide)
      (by decide) (by decide)).2.2.2 (.new ['←', '[', '5', 'C'])).1 rfl⟩

theorem calls_after_restore_slot (t t1 : Terminal) (cs : List TerminalCall)
    (hrun : Terminal.calls cs t.saveCurrentPosition.restoreCurrentPosition = .ok t1)
    (hnosave : ∀ c ∈ cs, c ≠ .saveCurrentPosition) :
    t1.saved_row = none ∧ t1.saved_col = none :=
  calls_keep_empty_slot cs _ t1 hrun hnosave rfl rfl

/-- C28: `restoreCurrentPosition` consumes the saved slot.  For every Terminal
state, after a save, a restore (which puts the cursor back where the save was
made) and any run of method calls without a further save, a second restore
returns the state it is given: it does not move the cursor.  One save supports
one restore. -/
theorem second_restore_does_nothing (t t1 : Terminal) (cs : List TerminalCall)
    (hrun : Terminal.calls cs t.saveCurrentPosition.restoreCurrentPosition = .ok t1)
    (hnosave : ∀ c ∈ cs, c ≠ .saveCurrentPosition) :
    t.saveCurrentPosition.restoreCurrentPosition.row = t.row ∧
      t.saveCurrentPosition.restoreCurrentPosition.col = t.col ∧
      t.saveCurrentPosition.restoreCurrentPosition.saved_row = none ∧
      t.saveCurrentPosition.restoreCurrentPosition.saved_col = none ∧
      t1.restoreCurrentPosition = t1 ∧
      t1.restoreCurrentPosition.row = t1.row ∧ t1.restoreCurrentPosition.col = t1.col := by
  obtain ⟨hr, hc⟩ := calls_after_restore_slot t t1 cs hrun hnosave
  have h : t1.restoreCurrentPosition = t1 := by
    simp only [Terminal.restoreCurrentPosition, hr, hc]
  exact ⟨rfl, rfl, rfl, rfl, h, by rw [h], by rw [h]⟩

/-- On a fresh Terminal of width 80 at row 0, column 1: save, restore, then an
absolute positioning and a cursor motion, then the second restore. -/
theorem second_restore_does_nothing_witness :
    ∃ t t1, Terminal.calls [.write 'a'] (Terminal.new 80) = .ok t ∧
      Terminal.calls [.setCurrentPosition 7 7, .moveLeft 2]
        t.saveCurrentPosition.restoreCurrentPosition = .ok t1 ∧
      (∀ c ∈ [TerminalCall.setCurrentPosition 7 7, .moveLeft 2], c ≠ .saveCurrentPosition) ∧
      t1.row = 7 ∧ t1.col = 5 ∧ t1.restoreCurrentPosition = t1 :=
  ⟨_, _, rfl, rfl, by decide, rfl, rfl,
   (second_restore_does_nothing _ _ [.setCurrentPosition 7 7, .moveLeft 2] rfl
      (by decide)).2.2.2.2.1⟩

end Ansi

/-! ## The yielding policy -/

/-- C27: `pauseIfNeeded(counter, then)` reads the clock exactly when `counter`
is a non-zero multiple of 1000, and suspends exactly when in addition that
clock reading minus `then` exceeds 100 ms.  When it does not suspend it returns
`then` unchanged, having read the clock once or not at all; when it suspends it
reads the clock a second time after the suspension and returns that fresh
reading. -/
theorem pauseIfNeeded_policy {T : Type} [LinearOrderedRing T] (clock : Nat → T)
    (counter : Int) (then_ : T) :
    (PauseEvent.clockRead ∈ (pauseIfNeeded clock counter then_).events ↔
      (counter ≠ 0 ∧ (1000 : Int) ∣ counter)) ∧
    (PauseEvent.suspend ∈ (pauseIfNeeded clock counter then_).events ↔
      (counter ≠ 0 ∧ (1000 : Int) ∣ counter ∧ clock 0 - then_ > 100)) ∧
    (PauseEvent.suspend ∉ (pauseIfNeeded clock counter then_).events →
      (pauseIfNeeded clock counter then_).value = then_ ∧
      ((pauseIfNeeded clock counter then_).events = [] ∨
        (pauseIfNeeded clock counter then_).events = [.clockRead])) ∧
    (PauseEvent.suspend ∈ (pauseIfNeeded clock counter then_).events →
      (pauseIfNeeded clock counter then_).value = clock 1 ∧
      (pauseIfNeeded clock counter then_).events = [.clockRead, .suspend, .clockRead]) := by
  have hdvd : counter.tmod 1000 = 0 ↔ (1000 : Int) ∣ counter :=
    ⟨Int.dvd_of_tmod_eq_zero, Int.tmod_eq_zero_of_dvd⟩
  unfold pauseIfNeeded
  by_cases hc : counter ≠ 0 ∧ counter.tmod 1000 = 0
  · have hc' : counter ≠ 0 ∧ (1000 : Int) ∣ counter := ⟨hc.1, hdvd.mp hc.2⟩
    rw [if_pos hc]
    by_cases he : clock 0 - then_ > 100
    · rw [if_pos he]
      simp [hc'.1, hc'.2, he]
    · rw [if_neg he]
      simp only [gt_iff_lt] at he
      simp [hc'.1, hc'.2, he]
  · have hc' : ¬ (counter ≠ 0 ∧ (1000 : Int) ∣ counter) := fun h => hc ⟨h.1, hdvd.mpr h.2⟩
    rw [if_neg hc]
    simp only [List.not_mem_nil, false_iff, not_false_eq_true, true_and, or_false,
      false_imp_iff, and_true, forall_true_left, true_or]
    refine ⟨hc', ?_⟩
    intro h
    exact hc' ⟨h.1, h.2.1⟩

/-- With integer milliseconds: counter 2000 and a reading 150 ms after `then`
suspend and return the second reading; counter 1999 does nothing. -/
theorem pauseIfNeeded_policy_witness :
    PauseEvent.suspend ∈
        (pauseIfNeeded (fun k => if k = 0 then (1150 : Int) else 1160) 2000 1000).events ∧
      (pauseIfNeeded (fun k => if k = 0 then (1150 : Int) else 1160) 2000 1000).value = 1160 ∧
      (pauseIfNeeded (fun k => if k = 0 then (1150 : Int) else 1160) 1999 1000).value = 1000 :=
  ⟨by decide,
   ((pauseIfNeeded_policy (fun k => if k = 0 then (1150 : Int) else 1160) 2000 1000).2.2.2
      (by decide)).1,
   ((pauseIfNeeded_policy (fun k => if k = 0 then (1150 : Int) else 1160) 1999 1000).2.2.1
      (by decide)).1⟩

namespace Printer

theorem printer_write_any (t : Terminal) (g : JsString) (hrow : 0 ≤ t.row) :
    ∃ t1, t.write g = .ok t1 ∧ t.row ≤ t1.row ∧
      t1.subscript = t.subscript ∧ t1.superscript = t.superscript := by
  obtain ⟨canvas, hcanvas⟩ := printer_tileAt_growTiles t hrow
  unfold Terminal.write
  simp only [hcanvas]
  split_ifs
  all_goals first
    | exact ⟨_, rfl, le_refl _, rfl, rfl⟩
    | exact ⟨_, rfl, by show t.row ≤ t.row + 1; omega, rfl, rfl⟩

theorem args_subsuperscript (c : Char) :
    (PrinterEscape.new [ESC, SUBSUPERSCRIPT, c]).func = some SUBSUPERSCRIPT ∧
      (PrinterEscape.new [ESC, SUBSUPERSCRIPT, c]).args = some (decide (c.toNat ≠ 0)) := by
  refine ⟨rfl, ?_⟩
  have h : (PrinterEscape.new [ESC, SUBSUPERSCRIPT, c])._arguments = [c.toNat] := rfl
  have hf : (PrinterEscape.new [ESC, SUBSUPERSCRIPT, c])._function = some SUBSUPERSCRIPT := rfl
  unfold PrinterEscape.args
  rw [hf, h]
  by_cases h0 : c.toNat = 0
  · simp [h0]
  · simp [h0]

theorem parseStep_escape_cases (t : Terminal) (e : PrinterEscape) :
    (e.func = some SUBSUPERSCRIPT →
      (e.args = some true →
        parseStep t (.esc e) = .ok { t with subscript := true, superscript := false }) ∧
      (e.args ≠ some true →
        parseStep t (.esc e) = .ok { t with subscript := false, superscript := true })) ∧
    (e.func ≠ some SUBSUPERSCRIPT →
      ∃ t1, parseStep t (.esc e) = .ok t1 ∧ t1.row = t.row ∧
        ((t1.subscript = false ∧ t1.superscript = false) ∨
          (t1.subscript = t.subscript ∧ t1.superscript = t.superscript))) := by
  constructor
  · intro hf
    constructor
    · intro ha
      simp only [parseStep, hf, ha]
      rfl
    · intro ha
      simp only [parseStep, hf, ha]
      rfl
  · intro hf
    unfold parseStep
    simp only
    split_ifs
    all_goals first
      | exact ⟨_, rfl, rfl, Or.inr ⟨rfl, rfl⟩⟩
      | exact ⟨_, rfl, rfl, Or.inl ⟨rfl, rfl⟩⟩

theorem parseStep_exclusive (t : Terminal) (c : Token) (hrow : 0 ≤ t.row)
    (hex : ¬ (t.subscript = true ∧ t.superscript = true)) :
    ∃ t1, parseStep t c = .ok t1 ∧ 0 ≤ t1.row ∧
      ¬ (t1.subscript = true ∧ t1.superscript = true) := by
  cases c with
  | lit g =>
    obtain ⟨t1, h1, hr, hs, hp⟩ := printer_write_any t g hrow
    refine ⟨t1, h1, by omega, ?_⟩
    rw [hs, hp]
    exact hex
  | esc e =>
    by_cases hf : e.func = some SUBSUPERSCRIPT
    · obtain ⟨h1, h2⟩ := (parseStep_escape_cases t e).1 hf
      by_cases ha : e.args = some true
      · exact ⟨_, h1 ha, hrow, by simp⟩
      · exact ⟨_, h2 ha, hrow, by simp⟩
    · obtain ⟨t1, h1, hr, hcase⟩ := (parseStep_escape_cases t e).2 hf
      refine ⟨t1, h1, by omega, ?_⟩
      rcases hcase with ⟨hs, hp⟩ | ⟨hs, hp⟩
      · rw [hs]
        simp
      · rw [hs, hp]
        exact hex

theorem parse_exclusive :
    ∀ (tokens : List Token) (t : Terminal), 0 ≤ t.row →
      ¬ (t.subscript = true ∧ t.superscript = true) →
      ∃ t1, parse tokens t = .ok t1 ∧ 0 ≤ t1.row ∧
        ¬ (t1.subscript = true ∧ t1.superscript = true) := by
  intro tokens
  induction tokens with
  | nil => intro t hrow hex; exact ⟨t, rfl, hrow, hex⟩
  | cons c rest ih =>
    intro t hrow hex
    obtain ⟨t1, h1, hr1, hex1⟩ := parseStep_exclusive t c hrow hex
    obtain ⟨t2, h2, hr2, hex2⟩ := ih t1 hr1 hex1
    refine ⟨t2, ?_, hr2, hex2⟩
    simp only [parse, h1]
    exact h2

/-- C30: `PrinterParser.parse` started on a fresh printer Terminal of any
width runs through every token list, and after every number of tokens
subscript and superscript are not both true.  An escape with the function `S`
sets exactly one of them and clears the other, subscript when its getter
`args` is true and superscript when it is false; for the span ESC `S` c the
getter is true exactly when the argument `c` is nonzero.  Every other escape
either clears both or leaves both as they are. -/
theorem subscript_superscript_exclusive (width : Int) (tokens : List Token) :
    (∀ k : Nat, ∃ t, parse (tokens.take k) (Terminal.new width) = .ok t ∧
      ¬ (t.subscript = true ∧ t.superscript = true)) ∧
    (∃ t, parse tokens (Terminal.new width) = .ok t ∧
      ¬ (t.subscript = true ∧ t.superscript = true)) ∧
    (∀ (e : PrinterEscape) (t : Terminal), e.func = some SUBSUPERSCRIPT →
      (e.args = some true →
        ∃ t1, parse [.esc e] t = .ok t1 ∧ t1.subscript = true ∧ t1.superscript = false) ∧
      (e.args ≠ some true →
        ∃ t1, parse [.esc e] t = .ok t1 ∧ t1.subscript = false ∧ t1.superscript = true)) ∧
    (∀ c : Char,
      (PrinterEscape.new [ESC, SUBSUPERSCRIPT, c]).func = some SUBSUPERSCRIPT ∧
      (PrinterEscape.new [ESC, SUBSUPERSCRIPT, c]).args = some (decide (c.toNat ≠ 0))) ∧
    (∀ (e : PrinterEscape) (t : Terminal), e.func ≠ some SUBSUPERSCRIPT →
      ∃ t1, parse [.esc e] t = .ok t1 ∧
        ((t1.subscript = false ∧ t1.superscript = false) ∨
          (t1.subscript = t.subscript ∧ t1.superscript = t.superscript))) := by
  have hfresh : ∀ toks : List Token, ∃ t, parse toks (Terminal.new width) = .ok t ∧
      ¬ (t.subscript = true ∧ t.superscript = true) := by
    intro toks
    obtain ⟨t, h1, _, h2⟩ := parse_exclusive toks (Terminal.new width) (le_refl _)
      (by show ¬ (false = true ∧ false = true); simp)
    exact ⟨t, h1, h2⟩
  refine ⟨fun k => hfresh _, hfresh _, ?_, args_subsuperscript, ?_⟩
  · intro e t hf
    obtain ⟨h1, h2⟩ := (parseStep_escape_cases t e).1 hf
    constructor
    · intro ha
      exact ⟨{ t with subscript := true, superscript := false },
        by simp only [parse, h1 ha], rfl, rfl⟩
    · intro ha
      exact ⟨{ t with subscript := false, superscript := true },
        by simp only [parse, h2 ha], rfl, rfl⟩
  · intro e t hf
    obtain ⟨t1, h1, _, hcase⟩ := (parseStep_escape_cases t e).2 hf
    exact ⟨t1, by simp only [parse, h1], hcase⟩

/-- The bytes 1B 53 01 (subscript) and 1B 53 00 (superscript) on a fresh
printer Terminal. -/
theorem subscript_superscript_exclusive_witness :
    (PrinterEscape.new [ESC, SUBSUPERSCRIPT, fromCharCode 1]).func = some SUBSUPERSCRIPT ∧
      (PrinterEscape.new [ESC, SUBSUPERSCRIPT, fromCharCode 1]).args = some true ∧
      (∃ t1, parse [.esc (.new [ESC, SUBSUPERSCRIPT, fromCharCode 1])] (Terminal.new 80)
          = .ok t1 ∧ t1.subscript = true ∧ t1.superscript = false) ∧
      (PrinterEscape.new [ESC, SUBSUPERSCRIPT, fromCharCode 0]).args ≠ some true ∧
      (∃ t1, parse [.esc (.new [ESC, SUBSUPERSCRIPT, fromCharCode 0])] (Terminal.new 80)
          = .ok t1 ∧ t1.subscript = false ∧ t1.superscript = true) :=
  ⟨rfl, rfl,
   ((subscript_superscript_exclusive 80 []).2.2.1
      (.new [ESC, SUBSUPERSCRIPT, fromCharCode 1]) (Terminal.new 80) rfl).1 rfl,
   by decide,
   ((subscript_superscript_exclusive 80 []).2.2.1
      (.new [ESC, SUBSUPERSCRIPT, fromCharCode 0]) (Terminal.new 80) rfl).2 (by decide)⟩

end Printer

/-! ## The effect of writing a glyph -/

theorem Ansi.write_returns_nonneg (t t1 : Ansi.Terminal) (g : Char)
    (h : t.write g = .ok t1) : 0 ≤ t.row := by
  by_contra hneg
  have hnone : Ansi.tileAt t.growTiles t.row = none := by
    unfold Ansi.tileAt
    rw [if_pos (by omega)]
  unfold Ansi.Terminal.write at h
  simp only [hnone] at h
  cases h

theorem Printer.printer_write_returns_nonneg (t t1 : Printer.Terminal) (g : JsString)
    (h : t.write g = .ok t1) : 0 ≤ t.row := by
  by_contra hneg
  have hnone : Printer.tileAt t.growTiles t.row = none := by
    unfold Printer.tileAt
    rw [if_pos (by omega)]
  unfold Printer.Terminal.write at h
  simp only [hnone] at h
  cases h

/-- C25: for every Terminal state of width `w` (of `hTXT.js` and of
`hTXT_Printer.js` alike) and every ordinary glyph `g`, the state `write(g)`
leaves behind has, when `col + 1 != w`, the column increased by one, the same
row and the suppress-next-newline flag clear, and when `col + 1 = w` the row
increased by one, column 0 and the flag set; the width, the colours, bold and
the saved position (for the printer, whose Terminal has no saved position:
underline and subscript) are unchanged in both cases.  The call returns for every state with `row >= 0`;
with a negative row it raises and leaves no state behind. -/
theorem write_ordinary_glyph :
    (∀ (t : Ansi.Terminal) (g : Char), g ≠ '\n' ∧ g ≠ '\r' ∧ g ≠ '♣' →
      (0 ≤ t.row → ∃ t1, t.write g = .ok t1) ∧
      (t.row < 0 → t.write g = .error .typeError) ∧
      ∀ t1, t.write g = .ok t1 →
        t1.terminalWidth = t.terminalWidth ∧
        t1.foreground = t.foreground ∧ t1.background = t.background ∧ t1.bold = t.bold ∧
        t1.saved_row = t.saved_row ∧ t1.saved_col = t.saved_col ∧
        (t.col + 1 ≠ t.terminalWidth →
          t1.row = t.row ∧ t1.col = t.col + 1 ∧ t1.skipNextNewline = false) ∧
        (t.col + 1 = t.terminalWidth →
          t1.row = t.row + 1 ∧ t1.col = 0 ∧ t1.skipNextNewline = true)) ∧
    (∀ (t : Printer.Terminal) (g : JsString), g ≠ ['\n'] ∧ g ≠ ['\r'] →
      (0 ≤ t.row → ∃ t1, t.write g = .ok t1) ∧
      (t.row < 0 → t.write g = .error .typeError) ∧
      ∀ t1, t.write g = .ok t1 →
        t1.terminalWidth = t.terminalWidth ∧
        t1.foreground = t.foreground ∧ t1.background = t.background ∧ t1.bold = t.bold ∧
        t1.underline = t.underline ∧ t1.subscript = t.subscript ∧
        (t.col + 1 ≠ t.terminalWidth →
          t1.row = t.row ∧ t1.col = t.col + 1 ∧ t1.skipNextNewline = false) ∧
        (t.col + 1 = t.terminalWidth →
          t1.row = t.row + 1 ∧ t1.col = 0 ∧ t1.skipNextNewline = true)) := by
  constructor
  · intro t g hg
    refine ⟨fun hrow => ?_, fun hneg => ?_, fun t1 h1 => ?_⟩
    · obtain ⟨t1, h1, _⟩ := Ansi.write_ordinary t g hrow hg
      exact ⟨t1, h1⟩
    · have hnone : Ansi.tileAt t.growTiles t.row = none := by
        unfold Ansi.tileAt
        rw [if_pos hneg]
      unfold Ansi.Terminal.write
      simp only [hnone]
    · obtain ⟨t2, h2, hrest⟩ :=
        Ansi.write_ordinary t g (Ansi.write_returns_nonneg t t1 g h1) hg
      rw [h1] at h2
      cases h2
      exact hrest
  · intro t g hg
    refine ⟨fun hrow => ?_, fun hneg => ?_, fun t1 h1 => ?_⟩
    · obtain ⟨t1, h1, _⟩ := Printer.printer_write_ordinary t g hrow hg
      exact ⟨t1, h1⟩
    · have hnone : Printer.tileAt t.growTiles t.row = none := by
        unfold Printer.tileAt
        rw [if_pos hneg]
      unfold Printer.Terminal.write
      simp only [hnone]
    · obtain ⟨t2, h2, hrest⟩ :=
        Printer.printer_write_ordinary t g (Printer.printer_write_returns_nonneg t t1 g h1) hg
      rw [h1] at h2
      cases h2
      exact hrest

/-- On a fresh Terminal of width 2 the glyph `a` moves to column 1; on a
Terminal of width 2 at column 1 the glyph `b` wraps to row 1. -/
theorem write_ordinary_glyph_witness :
    ('a' ≠ '\n' ∧ 'a' ≠ '\r' ∧ 'a' ≠ '♣') ∧ (0 : Int) ≤ (Ansi.Terminal.new 2).row ∧
      (∃ t1, (Ansi.Terminal.new 2).write 'a' = .ok t1 ∧
        t1.row = 0 ∧ t1.col = 1 ∧ t1.skipNextNewline = false) ∧
      (∃ t1, ((Ansi.Terminal.new 2).setCurrentPosition 0 1).write 'b' = .ok t1 ∧
        t1.row = 1 ∧ t1.col = 0 ∧ t1.skipNextNewline = true) := by
  refine ⟨by decide, by decide, ?_, ?_⟩
  · obtain ⟨t1, h1⟩ := (write_ordinary_glyph.1 (Ansi.Terminal.new 2) 'a' (by decide)).1
      (by decide)
    exact ⟨t1, h1,
      ((write_ordinary_glyph.1 (Ansi.Terminal.new 2) 'a' (by decide)).2.2 t1 h1).2.2.2.2.2.2.1
        (by decide)⟩
  · obtain ⟨t1, h1⟩ :=
      (write_ordinary_glyph.1 ((Ansi.Terminal.new 2).setCurrentPosition 0 1) 'b' (by decide)).1
        (by decide)
    exact ⟨t1, h1,
      ((write_ordinary_glyph.1 ((Ansi.Terminal.new 2).setCurrentPosition 0 1) 'b'
        (by decide)).2.2 t1 h1).2.2.2.2.2.2.2 (by decide)⟩

/-! ## The cut of the content into escape spans and characters -/

theorem run_alt (a b : Re) (s : List Char) : (Re.alt a b).run s = a.run s ++ b.run s := by
  simp [Re.run]

theorem execFrom_first (re : Re) :
    ∀ (s : List Char) (i idx : Nat) (m : JsString), execFrom re s i = some (idx, m) →
      i ≤ idx ∧ (∃ n, re.matchAt (s.drop (idx - i)) = some n ∧ m = (s.drop (idx - i)).take n) ∧
        ∀ k, k < idx - i → re.matchAt (s.drop k) = none := by
  intro s
  induction s with
  | nil =>
    intro i idx m h
    simp only [execFrom] at h
    cases hm : re.matchAt [] with
    | none => simp [hm] at h
    | some n =>
      simp only [hm, Option.map_some', Option.some.injEq, Prod.mk.injEq] at h
      obtain ⟨h1, h2⟩ := h
      subst h1
      refine ⟨le_refl _, ⟨n, by simpa using hm, by simpa using h2.symm⟩, ?_⟩
      intro k hk
      omega
  | cons c t ih =>
    intro i idx m h
    simp only [execFrom] at h
    cases hm : re.matchAt (c :: t) with
    | none =>
      rw [hm] at h
      obtain ⟨h1, ⟨n, h2, h3⟩, h4⟩ := ih (i + 1) idx m h
      have e : idx - i = (idx - (i + 1)) + 1 := by omega
      refine ⟨by omega, ⟨n, ?_, ?_⟩, ?_⟩
      · rw [e, List.drop_succ_cons]
        exact h2
      · rw [e, List.drop_succ_cons]
        exact h3
      · intro k hk
        cases k with
        | zero => simpa using hm
        | succ k =>
          rw [List.drop_succ_cons]
          exact h4 k (by omega)
    | some n =>
      rw [hm] at h
      simp only [Option.some.injEq, Prod.mk.injEq] at h
      obtain ⟨h1, h2⟩ := h
      subst h1
      refine ⟨le_refl _, ⟨n, by simpa using hm, by simpa using h2.symm⟩, ?_⟩
      intro k hk
      omega

theorem execFrom_none (re : Re) :
    ∀ (s : List Char) (i : Nat), execFrom re s i = none →
      ∀ k, k ≤ s.length → re.matchAt (s.drop k) = none := by
  intro s
  induction s with
  | nil =>
    intro i h k hk
    simp only [execFrom] at h
    have hk0 : k = 0 := by simpa using hk
    subst hk0
    cases hm : re.matchAt [] with
    | none => simpa using hm
    | some n => simp [hm] at h
  | cons c t ih =>
    intro i h k hk
    simp only [execFrom] at h
    cases hm : re.matchAt (c :: t) with
    | none =>
      rw [hm] at h
      cases k with
      | zero => simpa using hm
      | succ k =>
        rw [List.drop_succ_cons]
        exact ih (i + 1) h k (by simpa using hk)
    | some n =>
      rw [hm] at h
      cases h

theorem exec_first (re : Re) (content : JsString) (lastIndex idx : Nat) (m : JsString)
    (h : exec re content lastIndex = some (idx, m)) :
    lastIndex ≤ idx ∧
      (∃ n, re.matchAt (content.drop idx) = some n ∧ m = (content.drop idx).take n) ∧
      ∀ p, lastIndex ≤ p → p < idx → re.matchAt (content.drop p) = none := by
  unfold exec at h
  split at h
  · cases h
  · obtain ⟨h1, ⟨n, h2, h3⟩, h4⟩ := execFrom_first re _ _ _ _ h
    have e : lastIndex + (idx - lastIndex) = idx := by omega
    rw [List.drop_drop, e] at h2 h3
    refine ⟨h1, ⟨n, h2, h3⟩, ?_⟩
    intro p hp1 hp2
    have := h4 (p - lastIndex) (by omega)
    rw [List.drop_drop] at this
    have e2 : lastIndex + (p - lastIndex) = p := by omega
    rw [e2] at this
    exact this

theorem exec_none (re : Re) (content : JsString) (lastIndex : Nat)
    (hl : lastIndex ≤ content.length) (h : exec re content lastIndex = none) :
    ∀ p, lastIndex ≤ p → p ≤ content.length → re.matchAt (content.drop p) = none := by
  unfold exec at h
  rw [if_neg (by omega)] at h
  intro p hp1 hp2
  have := execFrom_none re _ _ h (p - lastIndex) (by rw [List.length_drop]; omega)
  rw [List.drop_drop] at this
  have e2 : lastIndex + (p - lastIndex) = p := by omega
  rw [e2] at this
  exact this

theorem locationsUpTo_nil (re : Re) (content : JsString) : LocationsUpTo re content [] 0 := by
  refine ⟨?_, ?_, ?_⟩
  · intro j m h
    simp at h
  · intro j m j1 m1 h
    simp at h
  · intro p hp
    omega

theorem locationsUpTo_cons (re : Re) (hre : re.Consumes) (content : JsString)
    (locations : List (Nat × JsString)) (lastIndex idx : Nat) (m : JsString)
    (hv : LocationsUpTo re content locations lastIndex)
    (he : exec re content lastIndex = some (idx, m)) :
    LocationsUpTo re content ((idx, m) :: locations) (idx + m.length) := by
  obtain ⟨h1, ⟨n, h2, h3⟩, h4⟩ := exec_first re content lastIndex idx m he
  have hm : m ≠ [] := by
    rw [h3]
    exact hre _ _ h2
  have hpos : 0 < m.length := List.length_pos.mpr hm
  have hold : ∀ j m1, locations.lookup j = some m1 → j ≠ idx := by
    intro j m1 h
    obtain ⟨a, _, c⟩ := hv.valid j m1 h
    have : 0 < m1.length := List.length_pos.mpr a
    omega
  have hlook : ∀ j, j ≠ idx → ((idx, m) :: locations).lookup j = locations.lookup j := by
    intro j hj
    rw [List.lookup_cons]
    have : (j == idx) = false := by simpa using hj
    rw [this]
  have hnew : ((idx, m) :: locations).lookup idx = some m := by
    rw [List.lookup_cons]
    simp
  refine ⟨?_, ?_, ?_⟩
  · intro j m1 h
    by_cases hj : j = idx
    · subst hj
      rw [hnew] at h
      cases h
      exact ⟨hm, ⟨n, h2, h3⟩, le_refl _⟩
    · rw [hlook j hj] at h
      obtain ⟨a, b, c⟩ := hv.valid j m1 h
      exact ⟨a, b, by omega⟩
  · intro j m1 j1 m2 ha hb hlt
    by_cases hj : j = idx
    · subst hj
      rw [hnew] at ha
      cases ha
      have hj1 : j1 ≠ j := by omega
      rw [hlook j1 hj1] at hb
      obtain ⟨a, _, c⟩ := hv.valid j1 m2 hb
      have : 0 < m2.length := List.length_pos.mpr a
      omega
    · rw [hlook j hj] at ha
      by_cases hj1 : j1 = idx
      · subst hj1
        obtain ⟨_, _, c⟩ := hv.valid j m1 ha
        omega
      · rw [hlook j1 hj1] at hb
        exact hv.ordered j m1 j1 m2 ha hb hlt
  · intro p hp hmatch
    by_cases hp1 : p < lastIndex
    · obtain ⟨j, m1, a, b, c⟩ := hv.complete p hp1 hmatch
      exact ⟨j, m1, by rw [hlook j (hold j m1 a)]; exact a, b, c⟩
    · by_cases hp2 : p < idx
      · exact absurd (h4 p (by omega) hp2) hmatch
      · exact ⟨idx, m, hnew, by omega, hp⟩

theorem execLoop_locations (re : Re) (hre : re.Consumes) (content : JsString) :
    ∀ (fuel lastIndex : Nat) (locations : List (Nat × JsString)),
      lastIndex ≤ content.length → content.length + 1 ≤ fuel + lastIndex →
      LocationsUpTo re content locations lastIndex →
      ∃ result, execLoop re content fuel lastIndex locations = some result ∧
        LocationsUpTo re content result (content.length + 1) := by
  intro fuel
  induction fuel with
  | zero =>
    intro lastIndex locations hl hf hv
    omega
  | succ fuel ih =>
    intro lastIndex locations hl hf hv
    simp only [execLoop]
    cases he : exec re content lastIndex with
    | none =>
      refine ⟨locations, rfl, ?_, hv.ordered, ?_⟩
      · intro j m h
        obtain ⟨a, b, c⟩ := hv.valid j m h
        exact ⟨a, b, by omega⟩
      · intro p hp hmatch
        by_cases hp1 : p < lastIndex
        · exact hv.complete p hp1 hmatch
        · exact absurd (exec_none re content lastIndex hl he p (by omega) (by omega)) hmatch
    | some r =>
      obtain ⟨idx, m⟩ := r
      obtain ⟨h1, h2, h3, h4⟩ := exec_spec re hre content lastIndex idx m he
      have hpos : 0 < m.length := List.length_pos.mpr h2
      exact ih (idx + m.length) ((idx, m) :: locations) h4 (by omega)
        (locationsUpTo_cons re hre content locations lastIndex idx m hv he)

namespace Printer

theorem run_lit (k : Char) (s : List Char) :
    (lit k).run s = if s.head? = some k then [1] else [] := by
  cases s with
  | nil => simp [lit, Re.run]
  | cons c t => simp [lit, Re.run]

theorem run_lit_dot (k : Char) (s : List Char) :
    (Re.seq (lit k) (.chr isDot)).run s =
      if s.head? = some k ∧ (s.drop 1).head?.map isDot = some true then [2] else [] := by
  unfold lit
  rw [run_chr_seq]
  cases s with
  | nil => simp
  | cons c t =>
    cases t with
    | nil => simp [Re.run]
    | cons a r =>
      by_cases h1 : c = k <;> by_cases h2 : isDot a = true <;> simp [Re.run, h1, h2]

theorem escape_alternatives (rest : List Char) :
    ∃ L : List Nat, ESCAPE_PATTERN.run (ESC :: rest) = (L ++ [0]).map (fun k => 1 + k) ∧
      (∀ k ∈ L, (k = 1 ∧ ∃ f ∈ plainFunctions, rest.head? = some f) ∨
        (k = 2 ∧ ∃ f ∈ argumentFunctions,
          rest.head? = some f ∧ (rest.drop 1).head?.map isDot = some true)) ∧
      ((∀ f ∈ plainFunctions, rest.head? ≠ some f) →
        (∀ f ∈ argumentFunctions,
          ¬ (rest.head? = some f ∧ (rest.drop 1).head?.map isDot = some true)) → L = []) := by
  refine ⟨(if rest.head? = some INIT_PRINTER then [1] else []) ++
    ((if rest.head? = some SET_PAGE_LENGTH ∧ (rest.drop 1).head?.map isDot = some true
        then [2] else []) ++
    ((if rest.head? = some BOLD_ON then [1] else []) ++
    ((if rest.head? = some BOLD_OFF then [1] else []) ++
    ((if rest.head? = some SUBSUPERSCRIPT ∧ (rest.drop 1).head?.map isDot = some true
        then [2] else []) ++
    ((if rest.head? = some SUBSUPERSCRIPT_OFF then [1] else []) ++
    ((if rest.head? = some UNDERLINE ∧ (rest.drop 1).head?.map isDot = some true
        then [2] else []) ++
    ((if rest.head? = some CODE_AREA_EXPAND then [1] else []) ++
    ((if rest.head? = some DOUBLE_WIDE_MODE ∧ (rest.drop 1).head?.map isDot = some true
        then [2] else []) ++
    ((if rest.head? = some LINE_SPACING_72 ∧ (rest.drop 1).head?.map isDot = some true
        then [2] else []) ++
    (if rest.head? = some LEFT_MARGIN ∧ (rest.drop 1).head?.map isDot = some true
        then [2] else [])))))))))), ?_, ?_, ?_⟩
  · unfold ESCAPE_PATTERN
    rw [show lit ESC = Re.chr (fun c => decide (c = ESC)) from rfl, run_chr_seq]
    simp only [run_alt, run_lit_dot]
    simp only [run_lit, decide_True, if_true, List.append_assoc]
    rfl
  · intro k hk
    simp only [List.mem_append] at hk
    rcases hk with h | h | h | h | h | h | h | h | h | h | h <;> split at h <;>
      simp only [List.mem_singleton, List.not_mem_nil] at h
    · exact .inl ⟨h, INIT_PRINTER, by simp [plainFunctions], by assumption⟩
    · exact .inr ⟨h, SET_PAGE_LENGTH, by simp [argumentFunctions], by assumption⟩
    · exact .inl ⟨h, BOLD_ON, by simp [plainFunctions], by assumption⟩
    · exact .inl ⟨h, BOLD_OFF, by simp [plainFunctions], by assumption⟩
    · exact .inr ⟨h, SUBSUPERSCRIPT, by simp [argumentFunctions], by assumption⟩
    · exact .inl ⟨h, SUBSUPERSCRIPT_OFF, by simp [plainFunctions], by assumption⟩
    · exact .inr ⟨h, UNDERLINE, by simp [argumentFunctions], by assumption⟩
    · exact .inl ⟨h, CODE_AREA_EXPAND, by simp [plainFunctions], by assumption⟩
    · exact .inr ⟨h, DOUBLE_WIDE_MODE, by simp [argumentFunctions], by assumption⟩
    · exact .inr ⟨h, LINE_SPACING_72, by simp [argumentFunctions], by assumption⟩
    · exact .inr ⟨h, LEFT_MARGIN, by simp [argumentFunctions], by assumption⟩
  · intro h1 h2
    rw [if_neg (h1 _ (by simp [plainFunctions])), if_neg (h1 BOLD_ON (by simp [plainFunctions])),
      if_neg (h1 BOLD_OFF (by simp [plainFunctions])),
      if_neg (h1 SUBSUPERSCRIPT_OFF (by simp [plainFunctions])),
      if_neg (h1 CODE_AREA_EXPAND (by simp [plainFunctions])),
      if_neg (h2 SET_PAGE_LENGTH (by simp [argumentFunctions])),
      if_neg (h2 SUBSUPERSCRIPT (by simp [argumentFunctions])),
      if_neg (h2 UNDERLINE (by simp [argumentFunctions])),
      if_neg (h2 DOUBLE_WIDE_MODE (by simp [argumentFunctions])),
      if_neg (h2 LINE_SPACING_72 (by simp [argumentFunctions])),
      if_neg (h2 LEFT_MARGIN (by simp [argumentFunctions]))]
    rfl

theorem escape_matchAt (rest : List Char) :
    ∃ n, ESCAPE_PATTERN.matchAt (ESC :: rest) = some n ∧ EscapeSpan ((ESC :: rest).take n) ∧
      (recognised rest = false → n = 1) := by
  obtain ⟨L, h1, h2, h3⟩ := escape_alternatives rest
  cases L with
  | nil =>
    refine ⟨1, by simp [Re.matchAt, h1], .inl (by simp), fun _ => rfl⟩
  | cons k L1 =>
    refine ⟨1 + k, by simp [Re.matchAt, h1], ?_, ?_⟩
    · rcases h2 k (by simp) with ⟨hk, f, hf, hh⟩ | ⟨hk, f, hf, hh, hd⟩
      · subst hk
        cases rest with
        | nil => simp at hh
        | cons c r =>
          simp only [List.head?_cons, Option.some.injEq] at hh
          subst hh
          exact .inr (.inl ⟨c, hf, by simp⟩)
      · subst hk
        cases rest with
        | nil => simp at hh
        | cons c r =>
          simp only [List.head?_cons, Option.some.injEq] at hh
          subst hh
          cases r with
          | nil => simp at hd
          | cons a r1 =>
            simp only [List.drop_succ_cons, List.drop_zero, List.head?_cons, Option.map_some',
              Option.some.injEq] at hd
            exact .inr (.inr ⟨c, hf, a, hd, by simp⟩)
    · intro hrec
      have : k :: L1 = [] := by
        apply h3
        · intro f hf hh
          cases rest with
          | nil => simp at hh
          | cons c r =>
            simp only [List.head?_cons, Option.some.injEq] at hh
            subst hh
            cases r with
            | nil => simp [recognised, hf] at hrec
            | cons a r1 => simp [recognised, hf] at hrec
        · rintro f hf ⟨hh, hd⟩
          cases rest with
          | nil => simp at hh
          | cons c r =>
            simp only [List.head?_cons, Option.some.injEq] at hh
            subst hh
            cases r with
            | nil => simp at hd
            | cons a r1 =>
              simp only [List.drop_succ_cons, List.drop_zero, List.head?_cons, Option.map_some',
                Option.some.injEq] at hd
              simp [recognised, hf, hd] at hrec
      cases this

theorem escape_pattern_consumes : ESCAPE_PATTERN.Consumes :=
  consumes_chr_seq _ _

theorem escape_matchAt_other (s : List Char) (h : s.head? ≠ some ESC) :
    ESCAPE_PATTERN.matchAt s = none := by
  cases s with
  | nil => simp [Re.matchAt, ESCAPE_PATTERN, lit, Re.run]
  | cons c t =>
    have hc : c ≠ ESC := by simpa using h
    exact matchAt_chr_seq_none _ _ c t (by simpa using hc)

theorem escape_span_of_match (s : List Char) (n : Nat) (h : ESCAPE_PATTERN.matchAt s = some n) :
    EscapeSpan (s.take n) := by
  cases s with
  | nil => simp [Re.matchAt, ESCAPE_PATTERN, lit, Re.run] at h
  | cons c t =>
    by_cases hc : c = ESC
    · subst hc
      obtain ⟨n1, a, b, _⟩ := escape_matchAt t
      rw [a] at h
      cases h
      exact b
    · rw [escape_matchAt_other (c :: t) (by simpa using hc)] at h
      cases h

theorem printer_collect_segments (content : JsString) (locations : List (Nat × JsString))
    (hv : LocationsUpTo ESCAPE_PATTERN content locations (content.length + 1)) :
    ∀ (fuel i : Nat) (res : List Token),
      i ≤ content.length → content.length + 1 ≤ fuel + i →
      (∀ j m, locations.lookup j = some m → i ≤ j ∨ j + m.length ≤ i) →
      ∃ segments : List Segment,
        collect content locations fuel i res = some (res ++ segments.filterMap segmentToken) ∧
          segments.flatMap Segment.text = content.drop i ∧
          Tokenizes ESCAPE_PATTERN segments ∧
          (∀ m, Segment.span m ∈ segments → EscapeSpan m) ∧
          (∀ c, Segment.char c ∈ segments → c ≠ ESC) := by
  intro fuel
  induction fuel with
  | zero =>
    intro i res hi hf
    omega
  | succ fuel ih =>
    intro i res hi hf hins
    simp only [collect]
    by_cases hlt : i < content.length
    · rw [dif_pos hlt]
      have e : content.drop i = content[i] :: content.drop (i + 1) :=
        List.drop_eq_getElem_cons hlt
      cases hl : locations.lookup i with
      | none =>
        simp only
        have hnm : ESCAPE_PATTERN.matchAt (content.drop i) = none := by
          by_contra hcon
          obtain ⟨j, m, a, b, c⟩ := hv.complete i (by omega) hcon
          rcases hins j m a with h | h
          · have : j = i := by omega
            subst this
            rw [hl] at a
            cases a
          · omega
        have hc : content[i] ≠ ESC := by
          intro hc
          obtain ⟨n, a, _⟩ := escape_matchAt (content.drop (i + 1))
          rw [e, hc, a] at hnm
          cases hnm
        obtain ⟨segments, h1, h2, ht, h3, h4⟩ := ih (i + 1)
          (if translateChar content[i].toNat ≠ [] then res ++ [.lit (translateChar content[i].toNat)]
            else res) (by omega) (by omega) (by
            intro j m a
            rcases hins j m a with h | h
            · have : j ≠ i := by
                intro hji
                subst hji
                rw [hl] at a
                cases a
              omega
            · omega)
        refine ⟨.char content[i] :: segments, ?_, ?_, ?_, ?_, ?_⟩
        · rw [h1, List.filterMap_cons]
          by_cases hg : translateChar content[i].toNat = []
          · simp only [segmentToken, glyphToken, hg, if_true, ne_eq, not_true_eq_false, if_false]
          · simp only [segmentToken, glyphToken, hg, if_false, ne_eq, not_false_eq_true, if_true,
              List.append_assoc, List.singleton_append]
        · rw [List.flatMap_cons, h2, e]
          rfl
        · refine ⟨?_, ht⟩
          rw [h2, ← e]
          exact hnm
        · intro m hm
          simp only [List.mem_cons] at hm
          rcases hm with hm | hm
          · cases hm
          · exact h3 m hm
        · intro c hm
          simp only [List.mem_cons] at hm
          rcases hm with hm | hm
          · cases hm
            exact hc
          · exact h4 c hm
      | some m =>
        simp only
        obtain ⟨hne, ⟨n, hmatch, hm⟩, _⟩ := hv.valid i m hl
        have hpre : m <+: content.drop i := by
          rw [hm]
          exact List.take_prefix _ _
        have hlen := hpre.length_le
        rw [List.length_drop] at hlen
        have hpos : 0 < m.length := List.length_pos.mpr hne
        obtain ⟨segments, h1, h2, ht, h3, h4⟩ := ih (i + m.length) (res ++ [.esc (.new m)])
          (by omega) (by omega) (by
            intro j m1 a
            by_cases hji : j = i
            · subst hji
              rw [hl] at a
              cases a
              exact .inr (le_refl _)
            · rcases hins j m1 a with h | h
              · exact .inl (hv.ordered i m j m1 hl a (by omega))
              · exact .inr (by omega))
        have hsplit : m ++ content.drop (i + m.length) = content.drop i := by
          obtain ⟨rest, hrest⟩ := hpre
          have hd : content.drop (i + m.length) = rest := by
            rw [← List.drop_drop, ← hrest]
            simp
          rw [hd, ← hrest]
        refine ⟨.span m :: segments, ?_, ?_, ?_, ?_, ?_⟩
        · rw [h1, List.filterMap_cons]
          simp only [segmentToken, List.append_assoc, List.singleton_append]
        · rw [List.flatMap_cons, h2, ← hsplit]
          rfl
        · refine ⟨⟨n, ?_, ?_⟩, ht⟩
          · rw [h2, hsplit]
            exact hmatch
          · rw [h2, hsplit]
            exact hm
        · intro m1 hm1
          simp only [List.mem_cons] at hm1
          rcases hm1 with hm1 | hm1
          · cases hm1
            rw [hm]
            exact escape_span_of_match _ _ hmatch
          · exact h3 m1 hm1
        · intro c hm1
          simp only [List.mem_cons] at hm1
          rcases hm1 with hm1 | hm1
          · cases hm1
          · exact h4 c hm1
    · rw [dif_neg hlt]
      refine ⟨[], by simp, ?_, trivial, by simp, by simp⟩
      have : content.drop i = [] := List.drop_eq_nil_of_le (by omega)
      simp [this]

theorem printer_translate_segments (buffer : List Byte) :
    ∃ (tokens : List Token) (segments : List Segment),
      Printer.translate buffer = some tokens ∧
        segments.flatMap Segment.text = translateContent buffer ∧
        tokens = segments.filterMap segmentToken ∧
        Tokenizes ESCAPE_PATTERN segments ∧
        (∀ m, Segment.span m ∈ segments → EscapeSpan m) ∧
        (∀ c, Segment.char c ∈ segments → c ≠ ESC) := by
  obtain ⟨locations, h1, h2⟩ := execLoop_locations ESCAPE_PATTERN escape_pattern_consumes
    (translateContent buffer) ((translateContent buffer).length + 1) 0 [] (Nat.zero_le _)
    (by omega) (locationsUpTo_nil _ _)
  obtain ⟨segments, h3, h4, ht, h5, h6⟩ := printer_collect_segments (translateContent buffer)
    locations h2 ((translateContent buffer).length + 1) 0 [] (Nat.zero_le _) (by omega)
    (fun j m _ => .inl (Nat.zero_le _))
  refine ⟨segments.filterMap segmentToken, segments, ?_, by simpa using h4, rfl, ht, h5, h6⟩
  simp only [Printer.translate, h1, h3, List.nil_append]

end Printer
/-! ## Empty glyphs and the escape character -/

theorem run_str (pat : JsString) :
    ∀ (s : List Char) (n : Nat), n ∈ (Re.str pat).run s → n = pat.length ∧ pat.length ≤ s.length := by
  induction pat with
  | nil =>
    intro s n h
    simp only [Re.str, Re.run, List.mem_singleton] at h
    simp [h]
  | cons k rest ih =>
    intro s n h
    simp only [Re.str] at h
    rw [run_chr_seq] at h
    cases s with
    | nil => simp at h
    | cons c t =>
      by_cases hc : c = k
      · simp only [hc, decide_True, if_true, List.mem_map] at h
        obtain ⟨n1, h1, h2⟩ := h
        obtain ⟨a, b⟩ := ih t n1 h1
        simp only [List.length_cons]
        omega
      · simp [hc] at h

namespace Einstein

theorem einstein_pattern_consumes : ESCAPE_PATTERN.Consumes := by
  intro s n h
  have hmem : n ∈ ESCAPE_PATTERN.run s := List.mem_of_mem_head? h
  simp only [ESCAPE_PATTERN, run_alt, List.mem_append] at hmem
  have hpos : 0 < n ∧ n ≤ s.length := by
    rcases hmem with h1 | h1 | h1 | h1 <;> obtain ⟨a, b⟩ := run_str _ s n h1 <;>
      simp only [CENTER, NEWLINE, PARAGRAPH, LEFT_ALIGN, List.length_cons, List.length_nil] at a b <;>
      omega
  intro hnil
  have := congrArg List.length hnil
  simp only [List.length_take, List.length_nil] at this
  omega

theorem einstein_collect_segments (content : JsString) (locations : List (Nat × JsString))
    (hv : ValidLocations content locations) :
    ∀ (fuel i : Nat) (res : List Token),
      i ≤ content.length → content.length + 1 ≤ fuel + i →
      ∃ segments : List Segment,
        collect content locations fuel i res = some (res ++ segments.filterMap segmentToken) ∧
          segments.flatMap Segment.text = content.drop i := by
  intro fuel
  induction fuel with
  | zero =>
    intro i res hi hf
    omega
  | succ fuel ih =>
    intro i res hi hf
    simp only [collect]
    by_cases hlt : i < content.length
    · rw [dif_pos hlt]
      have e : content.drop i = content[i] :: content.drop (i + 1) :=
        List.drop_eq_getElem_cons hlt
      cases hl : locations.lookup i with
      | none =>
        simp only
        obtain ⟨segments, h1, h2⟩ := ih (i + 1)
          (if translateChar content[i].toNat ≠ [] then res ++ [.lit (translateChar content[i].toNat)]
            else res) (by omega) (by omega)
        refine ⟨.char content[i] :: segments, ?_, ?_⟩
        · rw [h1, List.filterMap_cons]
          by_cases hg : translateChar content[i].toNat = []
          · simp only [segmentToken, glyphToken, hg, if_true, ne_eq, not_true_eq_false, if_false]
          · simp only [segmentToken, glyphToken, hg, if_false, ne_eq, not_false_eq_true, if_true,
              List.append_assoc, List.singleton_append]
        · rw [List.flatMap_cons, h2, e]
          rfl
      | some m =>
        simp only
        obtain ⟨hne, hpre⟩ := hv i m hl
        have hlen := hpre.length_le
        rw [List.length_drop] at hlen
        have hpos : 0 < m.length := List.length_pos.mpr hne
        obtain ⟨segments, h1, h2⟩ := ih (i + m.length) (res ++ [.esc ⟨m⟩]) (by omega) (by omega)
        refine ⟨.span m :: segments, ?_, ?_⟩
        · rw [h1, List.filterMap_cons]
          simp only [segmentToken, List.append_assoc, List.singleton_append]
        · rw [List.flatMap_cons, h2]
          obtain ⟨rest, hrest⟩ := hpre
          have hd : content.drop (i + m.length) = rest := by
            rw [← List.drop_drop, ← hrest]
            simp
          rw [hd, ← hrest]
          rfl
    · rw [dif_neg hlt]
      refine ⟨[], by simp, ?_⟩
      have : content.drop i = [] := List.drop_eq_nil_of_le (by omega)
      simp [this]

end Einstein

/-- C24: for every byte sequence the translators of `hTXT_Printer.js` and of
`hTXT_Einstein.js` return a token list, and it is what a cut of the content
(the decoded bytes; for the printer after its `\r\n\r\n` replacement) into
escape spans and single characters gives: each span yields its escape token,
each character whose `translateChar` glyph is not the empty string yields that
glyph as a literal token, and a character whose glyph is the empty string
yields no token at all.  So no literal token is the empty string. -/
theorem translate_skips_empty_glyphs (buffer : List Byte) :
    (∃ (tokens : List Printer.Token) (segments : List Segment),
        Printer.translate buffer = some tokens ∧
          segments.flatMap Segment.text = Printer.translateContent buffer ∧
          tokens = segments.filterMap Printer.segmentToken ∧
          ∀ s, Printer.Token.lit s ∈ tokens → s ≠ []) ∧
      (∃ (tokens : List Einstein.Token) (segments : List Segment),
        Einstein.translate buffer = some tokens ∧
          segments.flatMap Segment.text = Einstein.translateContent buffer ∧
          tokens = segments.filterMap Einstein.segmentToken ∧
          ∀ s, Einstein.Token.lit s ∈ tokens → s ≠ []) ∧
      (∀ c, Printer.translateChar c.toNat = [] → Printer.segmentToken (.char c) = none) ∧
      (∀ c, Einstein.translateChar c.toNat = [] → Einstein.segmentToken (.char c) = none) ∧
      (∀ c, Printer.translateChar c.toNat ≠ [] →
        Printer.segmentToken (.char c) = some (.lit (Printer.translateChar c.toNat))) ∧
      (∀ c, Einstein.translateChar c.toNat ≠ [] →
        Einstein.segmentToken (.char c) = some (.lit (Einstein.translateChar c.toNat))) := by
  refine ⟨?_, ?_, ?_, ?_, ?_, ?_⟩
  · obtain ⟨tokens, segments, h1, h2, h3, _⟩ := Printer.printer_translate_segments buffer
    refine ⟨tokens, segments, h1, h2, h3, ?_⟩
    intro s hs
    rw [h3, List.mem_filterMap] at hs
    obtain ⟨seg, _, hseg⟩ := hs
    cases seg with
    | span m => simp [Printer.segmentToken] at hseg
    | char c =>
      simp only [Printer.segmentToken, Printer.glyphToken] at hseg
      split at hseg
      · cases hseg
      · rename_i hne
        cases hseg
        exact hne
  · obtain ⟨locations, h1, h2⟩ := execLoop_spec Einstein.ESCAPE_PATTERN
      Einstein.einstein_pattern_consumes (Einstein.translateContent buffer)
      ((Einstein.translateContent buffer).length + 1) 0 [] (Nat.zero_le _) (by omega)
      (validLocations_nil _)
    obtain ⟨segments, h3, h4⟩ := Einstein.einstein_collect_segments
      (Einstein.translateContent buffer) locations h2
      ((Einstein.translateContent buffer).length + 1) 0 [] (Nat.zero_le _) (by omega)
    refine ⟨segments.filterMap Einstein.segmentToken, segments, ?_, by simpa using h4, rfl, ?_⟩
    · simp only [Einstein.translate, h1, h3, List.nil_append]
    · intro s hs
      rw [List.mem_filterMap] at hs
      obtain ⟨seg, _, hseg⟩ := hs
      cases seg with
      | span m => simp [Einstein.segmentToken] at hseg
      | char c =>
        simp only [Einstein.segmentToken, Einstein.glyphToken] at hseg
        split at hseg
        · cases hseg
        · rename_i hne
          cases hseg
          exact hne
  · intro c h
    simp [Printer.segmentToken, Printer.glyphToken, h]
  · intro c h
    simp [Einstein.segmentToken, Einstein.glyphToken, h]
  · intro c h
    simp [Printer.segmentToken, Printer.glyphToken, h]
  · intro c h
    simp [Einstein.segmentToken, Einstein.glyphToken, h]

theorem translate_skips_empty_glyphs_witness :
    Printer.translate [0x41, 0x01, 0x42] = some [.lit ['A'], .lit ['B']] ∧
      Einstein.translate [0x41, 0x01, 0x42] = some [.lit ['A'], .lit ['B']] ∧
      Printer.segmentToken (.char (fromCharCode 0x01)) = none ∧
      Einstein.segmentToken (.char (fromCharCode 0x01)) = none :=
  ⟨by decide, by decide,
    (translate_skips_empty_glyphs [0x41, 0x01, 0x42]).2.2.1 (fromCharCode 0x01) (by decide),
    (translate_skips_empty_glyphs [0x41, 0x01, 0x42]).2.2.2.1 (fromCharCode 0x01) (by decide)⟩

namespace Printer

/-- C29 (as stated) fails: in the stream `1B 2D 1B` the second 0x1B byte is the
argument of the escape the first one starts, so the stream gives one escape
token and the second 0x1B starts none; and in the stream `1B 01` the byte
after the lone ESC has the empty glyph, so it gives no literal token and
nothing is written to the surface. -/
theorem escape_byte_as_argument_or_dropped :
    Printer.translate [0x1B, 0x2D, 0x1B] = some [.esc (.new [ESC, UNDERLINE, ESC])] ∧
      Printer.translate [0x1B, 0x01] = some [.esc (.new [ESC])] ∧
      parse [.esc (.new [ESC])] (Terminal.new 80) = .ok (Terminal.new 80) ∧
      (Terminal.new 80).tiles = [] :=
  ⟨by decide, by decide, rfl, rfl⟩

theorem lone_escape_byte :
    ∀ b : Byte,
      (fromCharCode b.val ∉ plainFunctions → b ≠ 0x1B →
        Printer.translate [0x1B, b] =
          some (.esc (.new [ESC]) :: (glyphToken (fromCharCode b.val)).toList)) ∧
      (fromCharCode b.val ∈ argumentFunctions →
        Printer.translate [0x1B, b, 0x0A] =
          some [.esc (.new [ESC]), .lit [fromCharCode b.val], .lit ['\n']]) := by
  set_option maxRecDepth 1000000 in decide

/-- C29 (as the code behaves): for every byte sequence the printer tokenizer
returns the tokens of a cut of the content, from left to right, into escape
spans (each the match of `ESCAPE_PATTERN` where it starts) and single
characters at which the pattern does not match.  A span is the ESC alone, the
ESC with a function that takes no argument, or the ESC with a function that
takes an argument and its argument character (any character but CR and LF,
ESC included); a single character is never ESC.  So a 0x1B byte is never
emitted as a literal: it starts an escape token or is the argument byte of
one.  When the text after an ESC that starts a span is not a recognised
function (with its argument character where one is required) the span is the
ESC alone, its `func` is undefined and `PrinterParser.parse` leaves the
Terminal state unchanged for it.  The byte after it is tokenized on its own:
in the stream `1B b` with `b` neither a function without argument nor 0x1B it
gives the literal of its glyph, which `parse` passes to `write`, or no token
when the glyph is the empty string; in `1B 1B` it starts the next escape
token; and in `1B f 0A` with `f` a function that takes an argument, `f` and
the line feed are both literals. -/
theorem escape_byte_tokenization (buffer : List Byte) :
    (∃ (tokens : List Token) (segments : List Segment),
        Printer.translate buffer = some tokens ∧
          segments.flatMap Segment.text = translateContent buffer ∧
          tokens = segments.filterMap segmentToken ∧
          Tokenizes ESCAPE_PATTERN segments ∧
          (∀ m, Segment.span m ∈ segments → EscapeSpan m) ∧
          (∀ c, Segment.char c ∈ segments → c ≠ ESC)) ∧
      (∀ rest, recognised rest = false → ESCAPE_PATTERN.matchAt (ESC :: rest) = some 1) ∧
      (PrinterEscape.new [ESC]).func = none ∧
      (∀ t, parse [.esc (.new [ESC])] t = .ok t) ∧
      (∀ t g, parse [.esc (.new [ESC]), .lit g] t = t.write g) ∧
      (∀ b : Byte, fromCharCode b.val ∉ plainFunctions → b ≠ 0x1B →
        Printer.translate [0x1B, b] =
          some (.esc (.new [ESC]) :: (glyphToken (fromCharCode b.val)).toList)) ∧
      (∀ b : Byte, fromCharCode b.val ∈ argumentFunctions →
        Printer.translate [0x1B, b, 0x0A] =
          some [.esc (.new [ESC]), .lit [fromCharCode b.val], .lit ['\n']]) ∧
      Printer.translate [0x1B, 0x1B] = some [.esc (.new [ESC]), .esc (.new [ESC])] := by
  refine ⟨printer_translate_segments buffer, ?_, rfl, fun t => rfl, ?_,
    fun b => (lone_escape_byte b).1, fun b => (lone_escape_byte b).2, by decide⟩
  · intro rest hrec
    obtain ⟨n, h1, _, h3⟩ := escape_matchAt rest
    rw [h1, h3 hrec]
  · intro t g
    have hstep : parseStep t (.esc (.new [ESC])) = .ok t := rfl
    have hlit : parse [.lit g] t = t.write g := by
      simp only [parse, parseStep]
      cases t.write g <;> rfl
    rw [parse, hstep]
    exact hlit

theorem escape_byte_tokenization_witness :
    recognised [SET_PAGE_LENGTH, '\n', 'a'] = false ∧
      ESCAPE_PATTERN.matchAt [ESC, SET_PAGE_LENGTH, '\n', 'a'] = some 1 ∧
      Printer.translate [0x1B, 0x01] = some [.esc (.new [ESC])] ∧
      Printer.translate [0x1B, 0x43, 0x0A] =
        some [.esc (.new [ESC]), .lit [SET_PAGE_LENGTH], .lit ['\n']] :=
  ⟨by decide,
    (escape_byte_tokenization [0x1B, 0x43, 0x0A, 0x61]).2.1 [SET_PAGE_LENGTH, '\n', 'a'] (by decide),
    (escape_byte_tokenization [0x1B, 0x01]).2.2.2.2.2.1 0x01 (by decide) (by decide),
    (escape_byte_tokenization [0x1B, 0x43, 0x0A]).2.2.2.2.2.2.1 0x43 (by decide)⟩

end Printer
/-! ## Lines that begin with `;` -/

theorem replaceAllRe_head (re : Re) (f : JsString → JsString)
    (hf : ∀ m, (f m).head? = some '<') (c : Char) (t : JsString) :
    (replaceAllRe re f 0 (c :: t)).head? = some c ∨
      (replaceAllRe re f 0 (c :: t)).head? = some '<' := by
  have key : ∀ (a b : JsString), a.head? = some '<' → (a ++ b).head? = some '<' := by
    intro a b h
    cases a with
    | nil => simp at h
    | cons x xs => simpa using h
  simp only [replaceAllRe]
  cases hm : re.matchAt (c :: t) with
  | none => exact .inl rfl
  | some n =>
    cases n with
    | zero => exact .inr (key _ _ (hf _))
    | succ n => exact .inr (key _ _ (hf _))

theorem replaceAllRe_head_unmatched (re : Re) (f : JsString → JsString) (c : Char)
    (t : JsString) (h : re.matchAt (c :: t) = none) :
    replaceAllRe re f 0 (c :: t) = c :: replaceAllRe re f 0 t := by
  simp only [replaceAllRe, h]

namespace Einstein

theorem headingPattern_other (m c : Char) (t : JsString) (h : c ≠ m) :
    (headingPattern [m]).matchAt (c :: t) = none := by
  simp [headingPattern, Re.plus, Re.str, Re.matchAt, Re.run, h]

theorem scriptPattern_other (m c : Char) (t : JsString) (h : c ≠ m) :
    (scriptPattern [m]).matchAt (c :: t) = none := by
  simp [scriptPattern, Re.plus, Re.str, Re.matchAt, Re.run, h]

theorem replaceAllRe_keeps_head (re : Re) (f : JsString → JsString)
    (hf : ∀ m, (f m).head? = some '<') (x : Char) (l : JsString)
    (h : l.head? = some x ∨ l.head? = some '<') :
    (replaceAllRe re f 0 l).head? = some x ∨ (replaceAllRe re f 0 l).head? = some '<' := by
  cases l with
  | nil => simp at h
  | cons c t =>
    rcases h with h | h
    · simp only [List.head?_cons, Option.some.injEq] at h
      subst h
      exact replaceAllRe_head re f hf c t
    · simp only [List.head?_cons, Option.some.injEq] at h
      subst h
      rcases replaceAllRe_head re f hf '<' t with h1 | h1
      · exact .inr h1
      · exact .inr h1

theorem headingReplacer_head (o : String) (marker m : JsString)
    (h : o.toList.head? = some '<') : (headingReplacer o marker m).head? = some '<' := by
  unfold headingReplacer
  cases ho : o.toList with
  | nil =>
    rw [ho] at h
    cases h
  | cons x xs =>
    rw [ho] at h
    simp only [List.head?_cons, Option.some.injEq] at h
    simp [h]

theorem scriptReplacer_head (o cl : String) (m : JsString)
    (h : o.toList.head? = some '<') : (scriptReplacer o cl m).head? = some '<' := by
  unfold scriptReplacer
  cases ho : o.toList with
  | nil =>
    rw [ho] at h
    cases h
  | cons x xs =>
    rw [ho] at h
    simp only [List.head?_cons, Option.some.injEq] at h
    simp [h]

theorem formatLine_head (c : Char) (t : JsString) :
    (formatLine (c :: t)).head? = some c ∨ (formatLine (c :: t)).head? = some '<' := by
  unfold formatLine
  refine replaceAllRe_keeps_head _ _ (by intro m; exact scriptReplacer_head _ _ m rfl) c _ ?_
  refine replaceAllRe_keeps_head _ _ (by intro m; exact scriptReplacer_head _ _ m rfl) c _ ?_
  refine replaceAllRe_keeps_head _ _ (by intro m; exact headingReplacer_head _ _ m rfl) c _ ?_
  exact replaceAllRe_head _ _ (by intro m; exact headingReplacer_head _ _ m rfl) c t

theorem formatLine_semicolon (t : JsString) : (formatLine (';' :: t)).head? = some ';' := by
  unfold formatLine
  simp only [H2, H3, SUBSCRIPT, SUPERSCRIPT]
  rw [replaceAllRe_head_unmatched _ _ ';' t (headingPattern_other _ ';' t (by decide)),
    replaceAllRe_head_unmatched _ _ ';' _ (headingPattern_other _ ';' _ (by decide)),
    replaceAllRe_head_unmatched _ _ ';' _ (scriptPattern_other _ ';' _ (by decide)),
    replaceAllRe_head_unmatched _ _ ';' _ (scriptPattern_other _ ';' _ (by decide))]
  rfl

theorem startsWith_semicolon (l : JsString) :
    startsWith l [';'] = true ↔ l.head? = some ';' := by
  cases l with
  | nil => simp [startsWith]
  | cons c t => simp [startsWith]

theorem formatLine_raw_semicolon (l closing : JsString)
    (h : l = [] → includes closing "</div>".toList = false) :
    (formatLine (if !(includes closing "</div>".toList) then l ++ "<br />".toList else l)).head?
        = some ';' ↔ l.head? = some ';' := by
  cases l with
  | nil =>
    rw [h rfl]
    have : (formatLine "<br />".toList).head? ≠ some ';' := by decide
    simpa using this
  | cons c t =>
    have hraw : ∃ t1, (if !(includes closing "</div>".toList)
        then (c :: t) ++ "<br />".toList else c :: t) = c :: t1 := by
      split
      · exact ⟨t ++ "<br />".toList, rfl⟩
      · exact ⟨t, rfl⟩
    obtain ⟨t1, ht1⟩ := hraw
    rw [ht1]
    by_cases hc : c = ';'
    · subst hc
      simp [formatLine_semicolon]
    · rcases formatLine_head c t1 with h1 | h1
      · rw [h1]
        simp [hc]
      · rw [h1]
        simp only [List.head?_cons, Option.some.injEq, hc, iff_false]
        decide

theorem finishedLine_semicolon (st : ParseState) :
    startsWith (finishedLine st) [';'] = true ↔ (st.line ++ st.closing).head? = some ';' := by
  rw [startsWith_semicolon]
  unfold finishedLine
  apply formatLine_raw_semicolon
  intro h
  have hc : st.closing = [] := (List.append_eq_nil.mp h).2
  rw [hc]
  rfl

end Einstein

namespace Einstein

theorem parseStep_newline (st : ParseState) (e : EinsteinEscape) (he : e.rawString = NEWLINE) :
    parseStep st (.esc e) =
      { line := []
        res := if st.res.length = 0 ∧ startsWith (finishedLine st) [';'] = true then st.res
          else st.res ++ [finishedLine st]
        closing := [] } := by
  simp only [parseStep, he, if_true, finishedLine]

theorem parseStep_other (st : ParseState) (c : Token)
    (h : ∀ e, c = .esc e → e.rawString ≠ NEWLINE) : (parseStep st c).res = st.res := by
  cases c with
  | lit char => rfl
  | esc e =>
    have he := h e rfl
    simp only [parseStep, he, if_false]
    split
    · rfl
    · split
      · rfl
      · split <;> rfl

theorem parseStep_congr (st st1 : ParseState) (c : Token) (hl : st.line = st1.line)
    (hc : st.closing = st1.closing) :
    (parseStep st c).line = (parseStep st1 c).line ∧
      (parseStep st c).closing = (parseStep st1 c).closing := by
  cases c with
  | lit char => simp [parseStep, hl, hc]
  | esc e =>
    simp only [parseStep, hl, hc]
    split
    · exact ⟨rfl, rfl⟩
    · split
      · exact ⟨rfl, rfl⟩
      · split
        · exact ⟨rfl, rfl⟩
        · split
          · exact ⟨rfl, rfl⟩
          · exact ⟨hl, hc⟩

theorem finishedLines_congr (content : List Token) :
    ∀ st st1 : ParseState, st.line = st1.line → st.closing = st1.closing →
      finishedLines st content = finishedLines st1 content := by
  induction content with
  | nil =>
    intro st st1 _ _
    rfl
  | cons c rest ih =>
    intro st st1 hl hc
    obtain ⟨h1, h2⟩ := parseStep_congr st st1 c hl hc
    cases c with
    | lit char =>
      simp only [finishedLines]
      exact ih _ _ h1 h2
    | esc e =>
      simp only [finishedLines, finishedLine, hl, hc]
      rw [ih _ _ h1 h2]

theorem foldl_parseStep_res (content : List Token) :
    ∀ st : ParseState,
      (st.res = [] → (content.foldl parseStep st).res =
        (finishedLines st content).dropWhile (fun l => startsWith l [';'])) ∧
      (st.res ≠ [] → (content.foldl parseStep st).res = st.res ++ finishedLines st content) := by
  induction content with
  | nil =>
    intro st
    refine ⟨fun h => ?_, fun _ => ?_⟩
    · simp [finishedLines, h]
    · simp [finishedLines]
  | cons c rest ih =>
    intro st
    simp only [List.foldl_cons]
    obtain ⟨ih1, ih2⟩ := ih (parseStep st c)
    by_cases hnl : ∃ e, c = .esc e ∧ e.rawString = NEWLINE
    · obtain ⟨e, rfl, he⟩ := hnl
      have hstep := parseStep_newline st e he
      have hlines : finishedLines st (.esc e :: rest) =
          finishedLine st :: finishedLines (parseStep st (.esc e)) rest := by
        simp only [finishedLines, he, if_true, List.singleton_append]
      rw [hlines]
      refine ⟨fun h => ?_, fun h => ?_⟩
      · by_cases hs : startsWith (finishedLine st) [';'] = true
        · have hres : (parseStep st (.esc e)).res = [] := by
            rw [hstep]
            simp [h, hs]
          rw [ih1 hres, List.dropWhile_cons, if_pos hs]
        · have hres : (parseStep st (.esc e)).res = [finishedLine st] := by
            rw [hstep]
            simp [h, hs]
          rw [ih2 (by rw [hres]; simp), hres, List.dropWhile_cons, if_neg hs]
          rfl
      · have hlen : st.res.length ≠ 0 := by
          intro h0
          exact h (List.length_eq_zero.mp h0)
        have hres : (parseStep st (.esc e)).res = st.res ++ [finishedLine st] := by
          rw [hstep]
          simp [hlen]
        rw [ih2 (by rw [hres]; simp), hres]
        simp
    · have hother : ∀ e, c = .esc e → e.rawString ≠ NEWLINE := by
        intro e hc he
        exact hnl ⟨e, hc, he⟩
      have hres := parseStep_other st c hother
      have hlines : finishedLines st (c :: rest) = finishedLines (parseStep st c) rest := by
        cases c with
        | lit char => rfl
        | esc e =>
          have he := hother e rfl
          simp only [finishedLines, he, if_false, List.nil_append]
      rw [hlines]
      refine ⟨fun h => ?_, fun h => ?_⟩
      · exact ih1 (by rw [hres]; exact h)
      · rw [ih2 (by rw [hres]; exact h), hres]

theorem foldl_parseStep_closing (content : List Token) :
    ∀ st : ParseState, (st.closing = [] ∨ st.closing.head? = some '<') →
      ((content.foldl parseStep st).closing = [] ∨
        (content.foldl parseStep st).closing.head? = some '<') := by
  induction content with
  | nil =>
    intro st h
    exact h
  | cons c rest ih =>
    intro st h
    simp only [List.foldl_cons]
    apply ih
    cases c with
    | lit char => exact h
    | esc e =>
      simp only [parseStep]
      split
      · exact .inl rfl
      · split
        · exact .inr rfl
        · split
          · exact h
          · split
            · exact .inr rfl
            · exact h

/-- C31: `EinsteinParser.parse` keeps of the lines of its input, a line being
the value of `line` when a NEWLINE escape finishes it, all but the leading
ones that begin with `;`: the array `res` is the list of finished lines with
its longest prefix of lines beginning with `;` dropped, and the result is the
kept lines followed by the unfinished text after the last NEWLINE.  At a
NEWLINE escape, while nothing has been kept a line beginning with `;` is
omitted and any other line becomes the first kept one; once a line has been
kept every line is appended, whatever its first character.  In a state the
loop reaches, the finished line begins with `;` exactly when the text
collected for it does (an alignment or paragraph escape before the `;` puts
its markup first). -/
theorem parse_skips_leading_semicolon_lines (content : List Token) :
    (content.foldl parseStep .initial).res =
        (finishedLines .initial content).dropWhile (fun l => startsWith l [';']) ∧
      parse content =
        ((finishedLines .initial content).dropWhile (fun l => startsWith l [';'])).flatten ++
          (content.foldl parseStep .initial).line ∧
      (∀ st : ParseState, st.res ≠ [] →
        (content.foldl parseStep st).res = st.res ++ finishedLines st content) ∧
      (∀ (st : ParseState) (e : EinsteinEscape), e.rawString = NEWLINE →
        (st.res = [] → startsWith (finishedLine st) [';'] = true →
          (parseStep st (.esc e)).res = []) ∧
        (st.res = [] → startsWith (finishedLine st) [';'] = false →
          (parseStep st (.esc e)).res = [finishedLine st]) ∧
        (st.res ≠ [] → (parseStep st (.esc e)).res = st.res ++ [finishedLine st])) ∧
      (startsWith (finishedLine (content.foldl parseStep .initial)) [';'] = true ↔
        (content.foldl parseStep .initial).line.head? = some ';') := by
  have hres := (foldl_parseStep_res content .initial).1 rfl
  refine ⟨hres, ?_, fun st h => (foldl_parseStep_res content st).2 h, ?_, ?_⟩
  · have : parse content = ((content.foldl parseStep .initial).res ++
        [(content.foldl parseStep .initial).line]).flatten := rfl
    rw [this, hres]
    simp
  · intro st e he
    rw [parseStep_newline st e he]
    refine ⟨fun h hs => ?_, fun h hs => ?_, fun h => ?_⟩
    · simp [h, hs]
    · simp [h, hs]
    · have hlen : st.res.length ≠ 0 := by
        intro h0
        exact h (List.length_eq_zero.mp h0)
      simp [hlen]
  · rw [finishedLine_semicolon]
    rcases foldl_parseStep_closing content .initial (.inl rfl) with h | h
    · rw [h, List.append_nil]
    · cases hl : (content.foldl parseStep .initial).line with
      | nil =>
        rw [List.nil_append, h]
        simp
      | cons c t => simp

/-- Two lines beginning with `;`, the line `x`, a third line beginning with `;`:
the first two are omitted, the third is kept after `x`.  A centred line whose
text begins with `;` begins with its `<div>` and is kept. -/
theorem parse_skips_leading_semicolon_lines_witness :
    parse [.lit [';'], .lit ['a'], .esc ⟨NEWLINE⟩, .lit [';'], .esc ⟨NEWLINE⟩, .lit ['x'],
        .esc ⟨NEWLINE⟩, .lit [';'], .lit ['c'], .esc ⟨NEWLINE⟩] = "x<br />;c<br />".toList ∧
      parse [.esc ⟨CENTER⟩, .lit [';'], .esc ⟨NEWLINE⟩] =
        "<div style='text-align: center'>;</div>".toList ∧
      (parseStep { line := [';', 'a'], res := [], closing := [] } (.esc ⟨NEWLINE⟩)).res = [] ∧
      (parseStep { line := [';', 'c'], res := ["x<br />".toList], closing := [] }
        (.esc ⟨NEWLINE⟩)).res = ["x<br />".toList, ";c<br />".toList] :=
  ⟨by decide, by decide,
    ((parse_skips_leading_semicolon_lines []).2.2.2.1
      { line := [';', 'a'], res := [], closing := [] } ⟨NEWLINE⟩ rfl).1 rfl (by decide),
    ((parse_skips_leading_semicolon_lines []).2.2.2.1
      { line := [';', 'c'], res := ["x<br />".toList], closing := [] } ⟨NEWLINE⟩ rfl).2.2
      (by decide)⟩

end Einstein
end HTXTViewer
